import Mathlib

/-! # ipisto: the interaction-response and command-registration lifecycles

A shallow embedding of `cmd/ipisto/ipisto.go`.

* `getPublicIP`, `newCommandHandler` and `main` are translated from the Go
  source.  Calls that leave the program (the HTTP client, the Discord session,
  the logger, the operating system) are recorded as events of a trace; what
  the outside world answers is an explicit input.
* `netip.ParseAddr` and `netip.Addr.String` belong to the Go standard library
  (`net/netip`).  They are modelled here function by function, so that the
  statements about address literals are about concrete strings.

Go strings are byte strings.  They are modelled as Lean strings, a character
standing for its UTF-8 bytes: every decision the parser takes is taken on an
ASCII character, and a zone is carried through unchanged.
-/

namespace Ipisto

/-! ## Errors -/

/-- A Go `error` value.  `parseAddr` is the error type of `net/netip`
(`parseAddrError`, its `in` and `msg` fields); `other` is any error produced
by the HTTP client, by reading a body, or by the Discord session. -/
inductive GoError where
  | other (msg : String)
  | parseAddr (input : String) (msg : String)
deriving DecidableEq, Repr

/-! ## net/netip -/

/-- The `z` field of `netip.Addr`: `z0` is the zero Addr, `z4` an IPv4
address, `z6noz` an IPv6 address without zone, `z6 zone` an IPv6 address with
a (non-empty) zone. -/
inductive Zone where
  | z0
  | z4
  | z6noz
  | z6 (zone : String)
deriving DecidableEq, Repr

/-- A `netip.Addr`.  The 128-bit value is kept as its 16 big-endian bytes
(what `As16` returns); an IPv4 address is stored as `::ffff:a.b.c.d` with
`z = z4`, as in Go. -/
structure Addr where
  addr : List Nat
  z : Zone
deriving DecidableEq, Repr

/-- `netip.AddrFrom4`. -/
def AddrFrom4 (fields : List Nat) : Addr :=
  { addr := [0, 0, 0, 0, 0, 0, 0, 0, 0, 0, 0xff, 0xff] ++ fields, z := Zone.z4 }

/-- `netip.AddrFrom16`. -/
def AddrFrom16 (ip : List Nat) : Addr :=
  { addr := ip, z := Zone.z6noz }

/-- `netip.IPv6Unspecified`. -/
def IPv6Unspecified : Addr :=
  AddrFrom16 (List.replicate 16 0)

/-- `Addr.Is6`. -/
def Addr.Is6 (ip : Addr) : Bool :=
  ip.z ≠ Zone.z0 && ip.z ≠ Zone.z4

/-- `Addr.WithZone`. -/
def Addr.WithZone (ip : Addr) (zone : String) : Addr :=
  if !ip.Is6 then ip
  else if zone = "" then { ip with z := Zone.z6noz }
  else { ip with z := Zone.z6 zone }

/-- `Addr.Zone`. -/
def Addr.Zone (ip : Addr) : String :=
  match ip.z with
  | Zone.z6 zone => zone
  | _ => ""

/-- `Addr.Is4In6`: an IPv6 address whose first twelve bytes are
`00 00 00 00 00 00 00 00 00 00 ff ff`. -/
def Addr.Is4In6 (ip : Addr) : Bool :=
  ip.Is6 && ip.addr.take 12 = [0, 0, 0, 0, 0, 0, 0, 0, 0, 0, 0xff, 0xff]

/-- `Addr.Unmap`: an IPv4-mapped IPv6 address becomes the IPv4 address. -/
def Addr.Unmap (ip : Addr) : Addr :=
  if ip.Is4In6 then { ip with z := Zone.z4 } else ip

/-- `Addr.v4`: the i-th byte of the IPv4 address. -/
def Addr.v4 (ip : Addr) (i : Nat) : Nat :=
  ip.addr.getD (12 + i) 0

/-- `Addr.v6u16`: the i-th 16-bit group of the address. -/
def Addr.v6u16 (ip : Addr) (i : Nat) : Nat :=
  ip.addr.getD (2 * i) 0 * 256 + ip.addr.getD (2 * i + 1) 0

/-- The loop of `parseIPv4Fields` over the remaining characters.  `prev` is
the character before the current one (`none` at index 0), `fields` the octets
stored so far (`pos` is its length).  Returns the last `val` and the fields. -/
def parseIPv4FieldsLoop (input : String) :
    List Char → Option Char → Nat → Nat → List Nat → Except GoError (Nat × List Nat)
  | [], _, val, _, fields => .ok (val, fields)
  | c :: rest, prev, val, digLen, fields =>
    if '0' ≤ c ∧ c ≤ '9' then
      if digLen = 1 ∧ val = 0 then
        .error (.parseAddr input "IPv4 field has octet with leading zero")
      else
        let val := val * 10 + c.toNat - '0'.toNat
        if val > 255 then
          .error (.parseAddr input "IPv4 field has value >255")
        else parseIPv4FieldsLoop input rest (some c) val (digLen + 1) fields
    else if c = '.' then
      -- i == 0 || i == len(s)-1 || s[i-1] == '.'
      if prev = none ∨ rest = [] ∨ prev = some '.' then
        .error (.parseAddr input "IPv4 field must have at least one digit")
      else if fields.length = 3 then
        .error (.parseAddr input "IPv4 address too long")
      else parseIPv4FieldsLoop input rest (some c) 0 0 (fields ++ [val % 256])
    else .error (.parseAddr input "unexpected character")

/-- `parseIPv4Fields` on the substring `s` of `input`: the four octets. -/
def parseIPv4Fields (input : String) (s : List Char) : Except GoError (List Nat) :=
  match parseIPv4FieldsLoop input s none 0 0 [] with
  | .error e => .error e
  | .ok (val, fields) =>
    if fields.length < 3 then .error (.parseAddr input "IPv4 address too short")
    else .ok (fields ++ [val % 256])

/-- `parseIPv4`. -/
def parseIPv4 (input : String) : Except GoError Addr :=
  match parseIPv4Fields input input.data with
  | .error e => .error e
  | .ok fields => .ok (AddrFrom4 fields)

/-- Value of a hexadecimal digit, `none` for any other character. -/
def hexVal (c : Char) : Option Nat :=
  if '0' ≤ c ∧ c ≤ '9' then some (c.toNat - '0'.toNat)
  else if 'a' ≤ c ∧ c ≤ 'f' then some (c.toNat - 'a'.toNat + 10)
  else if 'A' ≤ c ∧ c ≤ 'F' then some (c.toNat - 'A'.toNat + 10)
  else none

/-- The inner loop of `parseIPv6` that reads one hexadecimal group: returns
`acc`, `off` and `s[off:]`. -/
def hexLoop (input : String) : List Char → Nat → Nat → Except GoError (Nat × Nat × List Char)
  | [], off, acc => .ok (acc, off, [])
  | c :: rest, off, acc =>
    match hexVal c with
    | none => .ok (acc, off, c :: rest)
    | some d =>
      let acc := ((acc <<< 4) + d) % 2 ^ 32
      if off > 3 then
        .error (.parseAddr input "each group must have 4 or less digits")
      else if acc > 65535 then
        .error (.parseAddr input "IPv6 field has value >=2^16")
      else hexLoop input rest (off + 1) acc

/-- The main loop of `parseIPv6` (`for i < 16`).  `ip` holds the bytes stored
so far, so that `i` is its length (the rest of the Go array is still zero);
`ellipsis` is `none` for -1.  Every turn stores two bytes, so eight turns are
enough: `fuel` counts them.  Returns `ip`, `ellipsis` and the unread `s`. -/
def parseIPv6Loop (input : String) :
    Nat → List Nat → Option Nat → List Char →
      Except GoError (List Nat × Option Nat × List Char)
  | 0, ip, ellipsis, s => .ok (ip, ellipsis, s)
  | fuel + 1, ip, ellipsis, s =>
    if ip.length < 16 then
      match hexLoop input s 0 0 with
      | .error e => .error e
      | .ok (acc, off, rest) =>
        if off = 0 then
          .error (.parseAddr input "each colon-separated field must have at least one digit")
        else if rest.head? = some '.' then
          if ellipsis = none ∧ ip.length ≠ 12 then
            .error (.parseAddr input
              "embedded IPv4 address must replace the final 2 fields of the address")
          else if ip.length + 4 > 16 then
            .error (.parseAddr input
              "too many hex fields to fit an embedded IPv4 at the end of the address")
          else
            match parseIPv4Fields input s with
            | .error e => .error e
            | .ok fields => .ok (ip ++ fields, ellipsis, [])
        else
          let ip := ip ++ [(acc >>> 8) % 256, acc % 256]
          match rest with
          | [] => .ok (ip, ellipsis, [])
          | c :: rest1 =>
            if c ≠ ':' then
              .error (.parseAddr input "unexpected character, want colon")
            else
              match rest1 with
              | [] => .error (.parseAddr input "colon must be followed by more characters")
              | c1 :: rest2 =>
                if c1 = ':' then
                  if ellipsis ≠ none then
                    .error (.parseAddr input "multiple :: in address")
                  else if rest2 = [] then .ok (ip, some ip.length, [])
                  else parseIPv6Loop input fuel ip (some ip.length) rest2
                else parseIPv6Loop input fuel ip ellipsis rest1
    else .ok (ip, ellipsis, s)

/-- The end of `parseIPv6`, after the loop: the whole string must be used,
and a short address is completed by expanding the ellipsis. -/
def parseIPv6Finish (input : String) (zone : String)
    (ip : List Nat) (ellipsis : Option Nat) (s : List Char) : Except GoError Addr :=
  if s ≠ [] then .error (.parseAddr input "trailing garbage after address")
  else if ip.length < 16 then
    match ellipsis with
    | none => .error (.parseAddr input "address string too short")
    | some e =>
      .ok ((AddrFrom16
        (ip.take e ++ List.replicate (16 - ip.length) 0 ++ ip.drop e)).WithZone zone)
  else if ellipsis ≠ none then
    .error (.parseAddr input "the :: must expand to at least one field of zeros")
  else .ok ((AddrFrom16 ip).WithZone zone)

/-- The part of `parseIPv6` that follows the split of the zone: `s` is the
text before the `%`, `zone` the text after it (empty when there is none). -/
def parseIPv6Rest (input : String) (zone : String) (s : List Char) : Except GoError Addr :=
  if s.take 2 = [':', ':'] then
    -- leading ellipsis
    let s := s.drop 2
    if s = [] then .ok (IPv6Unspecified.WithZone zone)
    else
      match parseIPv6Loop input 8 [] (some 0) s with
      | .error e => .error e
      | .ok (ip, ellipsis, s2) => parseIPv6Finish input zone ip ellipsis s2
  else
    match parseIPv6Loop input 8 [] none s with
    | .error e => .error e
    | .ok (ip, ellipsis, s2) => parseIPv6Finish input zone ip ellipsis s2

/-- `parseIPv6`. -/
def parseIPv6 (input : String) : Except GoError Addr :=
  let s := input.data
  let i := s.indexOf '%'
  if i < s.length then
    if s.drop (i + 1) = [] then
      .error (.parseAddr input "zone must be a non-empty string")
    else parseIPv6Rest input (String.mk (s.drop (i + 1))) (s.take i)
  else parseIPv6Rest input "" s

/-- The scan of `ParseAddr` for the first `.`, `:` or `%`. -/
def ParseAddrScan (input : String) : List Char → Except GoError Addr
  | [] => .error (.parseAddr input "unable to parse IP")
  | c :: rest =>
    if c = '.' then parseIPv4 input
    else if c = ':' then parseIPv6 input
    else if c = '%' then .error (.parseAddr input "missing IPv6 address")
    else ParseAddrScan input rest

/-- `netip.ParseAddr`. -/
def ParseAddr (s : String) : Except GoError Addr :=
  ParseAddrScan s s.data

/-- The constant `digits = "0123456789abcdef"` of `net/netip`, indexed (the
index is always below 16). -/
def digits (x : Nat) : Char :=
  "0123456789abcdef".data.getD x '0'

/-- `appendDecimal`, for a byte. -/
def appendDecimal (b : List Char) (x : Nat) : List Char :=
  let b := if x ≥ 100 then b ++ [digits (x / 100)] else b
  let b := if x ≥ 10 then b ++ [digits (x / 10 % 10)] else b
  b ++ [digits (x % 10)]

/-- `appendHex`, for a 16-bit group. -/
def appendHex (b : List Char) (x : Nat) : List Char :=
  let b := if x ≥ 0x1000 then b ++ [digits (x >>> 12)] else b
  let b := if x ≥ 0x100 then b ++ [digits (x >>> 8 &&& 0xf)] else b
  let b := if x ≥ 0x10 then b ++ [digits (x >>> 4 &&& 0xf)] else b
  b ++ [digits (x &&& 0xf)]

/-- `Addr.appendTo4`: dotted decimal. -/
def Addr.appendTo4 (ip : Addr) (ret : List Char) : List Char :=
  let ret := appendDecimal ret (ip.v4 0)
  let ret := appendDecimal (ret ++ ['.']) (ip.v4 1)
  let ret := appendDecimal (ret ++ ['.']) (ip.v4 2)
  appendDecimal (ret ++ ['.']) (ip.v4 3)

/-- The inner loop of `appendTo6`: `for j < 8 && ip.v6u16(j) == 0 { j++ }`. -/
def zeroRunEnd (ip : Addr) : Nat → Nat → Nat
  | 0, j => j
  | fuel + 1, j => if j < 8 ∧ ip.v6u16 j = 0 then zeroRunEnd ip fuel (j + 1) else j

/-- The first loop of `appendTo6`: the longest run of at least two zero
groups, the first one when there are several, `(255, 255)` when there is
none. -/
def zeroRun (ip : Addr) : Nat × Nat :=
  (List.range 8).foldl
    (fun (z : Nat × Nat) i =>
      let j := zeroRunEnd ip 8 i
      let l := j - i
      if l ≥ 2 ∧ l > z.2 - z.1 then (i, j) else z)
    (255, 255)

/-- The second loop of `appendTo6`, from group `i` on. -/
def appendGroups (ip : Addr) (zeroStart zeroEnd : Nat) : Nat → Nat → List Char → List Char
  | 0, _, ret => ret
  | fuel + 1, i, ret =>
    if i < 8 then
      if i = zeroStart then
        let ret := ret ++ [':', ':']
        let i := zeroEnd
        if i ≥ 8 then ret
        else appendGroups ip zeroStart zeroEnd fuel (i + 1) (appendHex ret (ip.v6u16 i))
      else
        let ret := if i > 0 then ret ++ [':'] else ret
        appendGroups ip zeroStart zeroEnd fuel (i + 1) (appendHex ret (ip.v6u16 i))
    else ret

/-- `Addr.appendTo6`. -/
def Addr.appendTo6 (ip : Addr) (ret : List Char) : List Char :=
  let z := zeroRun ip
  let ret := appendGroups ip z.1 z.2 8 0 ret
  if ip.z ≠ Zone.z6noz then ret ++ ['%'] ++ ip.Zone.data else ret

/-- `Addr.appendTo4In6`. -/
def Addr.appendTo4In6 (ip : Addr) (ret : List Char) : List Char :=
  let ret := ip.Unmap.appendTo4 (ret ++ "::ffff:".data)
  if ip.z ≠ Zone.z6noz then ret ++ ['%'] ++ ip.Zone.data else ret

/-- `Addr.String`. -/
def Addr.String (ip : Addr) : String :=
  match ip.z with
  | Zone.z0 => "invalid IP"
  | Zone.z4 => String.mk (ip.appendTo4 [])
  | _ => if ip.Is4In6 then String.mk (ip.appendTo4In6 []) else String.mk (ip.appendTo6 [])

/-! ## net/http -/

/-- An `http.Response` as far as `getPublicIP` reads it: the status code, the
bytes of the body, and the error `io.ReadAll` ends with when reading the body
fails. -/
structure Response where
  StatusCode : Nat
  Body : String
  readErr : Option GoError
deriving DecidableEq, Repr

/-- An `http.Client`: what `client.Get(url)` returns.  As in Go, a response
with a status other than 2xx is a response, not an error. -/
abbrev Client := String → Except GoError Response

/-- The function `getPublicIP` of ipisto.go.  `DefaultClient` stands for
`http.DefaultClient`, `client = none` for a nil client.  The result is the Go
pair `(string, error)`.  The status code of the response is not read; the
deferred `r.Body.Close()` has no part in the result. -/
def getPublicIP (DefaultClient : Client) (client : Option Client) (ipURL : String) :
    String × Option GoError :=
  let client := match client with
    | none => DefaultClient
    | some c => c
  match client ipURL with
  | .error err => ("", some err)
  | .ok r =>
    match r.readErr with
    | some err => ("", some err)
    | none =>
      let ipStr := r.Body
      match ParseAddr ipStr with
      | .error err => ("", some err)
      | .ok ip => (ip.String, none)

/-! ## discordgo, log/slog, os/signal: the calls the program makes -/

/-- A `discordgo.User`: its `ID` and what its `String` method returns. -/
structure User where
  ID : String
  str : String
deriving DecidableEq, Repr

/-- A `discordgo.Member`. -/
structure Member where
  user : User
deriving DecidableEq, Repr

/-- A `discordgo.InteractionCreate` of an application command: `Name` is
`i.ApplicationCommandData().Name`. -/
structure InteractionCreate where
  ID : String
  GuildID : String
  Name : String
  user : Option User
  member : Option Member
deriving DecidableEq, Repr

/-- Values of `discordgo.InteractionResponseType`. -/
inductive InteractionResponseType where
  | InteractionResponseChannelMessageWithSource
  | InteractionResponseDeferredChannelMessageWithSource
deriving DecidableEq, Repr

/-- What the Discord session answers to the two calls of the handler: the
error each call returns, `none` for nil. -/
structure Session where
  InteractionRespond : InteractionCreate → InteractionResponseType → Option GoError
  FollowupMessageCreate : InteractionCreate → Bool → String → Option GoError

/-- Level of a log record. -/
inductive Level where
  | info
  | error
deriving DecidableEq, Repr

/-- Value of a log attribute. -/
inductive LogValue where
  | str (s : String)
  | err (e : GoError)
deriving DecidableEq, Repr

/-- The signals `main` subscribes to. -/
inductive Signal where
  | SIGINT
  | SIGTERM
deriving DecidableEq, Repr

/-- The handlers `main` attaches to the session. -/
inductive Handler where
  | ready
  | command (slashCommandName : String) (IPURL : String)
deriving DecidableEq, Repr

/-- One observable step of the program. -/
inductive Event where
  | slog (level : Level) (msg : String) (attrs : List (String × LogValue))
  | InteractionRespond (interactionID : String) (type : InteractionResponseType)
  | getPublicIP (ipURL : String)
  | FollowupMessageCreate (interactionID : String) (wait : Bool) (content : String)
  | Fatalf (msg : String)
  | New (token : String)
  | AddHandler (h : Handler)
  | Open
  | Close
  | ApplicationCommandCreate (appID guildID name description : String)
  | ApplicationCommandDelete (appID guildID cmdID : String)
  | Notify
  | received (sig : Signal)
deriving DecidableEq, Repr

/-- The function `newCommandHandler` of ipisto.go: the trace of the handler
it builds, run on session `s` and interaction `i`. -/
def newCommandHandler (DefaultClient : Client) (slashCommandName : String) (IPURL : String)
    (client : Option Client) (s : Session) (i : InteractionCreate) : List Event :=
  if i.Name ≠ slashCommandName then []
  else
    let t := match i.user, i.member with
      | some u, _ =>
        [Event.slog .info "command activated in a DM"
          [("dmuser", .str u.str), ("dmuserid", .str u.ID), ("interactionid", .str i.ID)]]
      | none, some m =>
        [Event.slog .info "command activated in a guild"
          [("guilduser", .str m.user.str), ("guilduserid", .str m.user.ID),
           ("guildid", .str i.GuildID), ("interactionid", .str i.ID)]]
      | none, none =>
        [Event.slog .info "command activated, by unkown means..."
          [("interactionid", .str i.ID)]]
    let t := t ++ [Event.InteractionRespond i.ID
      .InteractionResponseDeferredChannelMessageWithSource]
    match s.InteractionRespond i .InteractionResponseDeferredChannelMessageWithSource with
    | some err =>
      t ++ [Event.slog .error "error while responding to interaction"
        [("error", .err err), ("interactionid", .str i.ID)]]
    | none =>
      let t := t ++ [Event.slog .info "interaction responded sucessfully"
        [("interactionid", .str i.ID)]]
      let t := t ++ [Event.getPublicIP IPURL]
      match getPublicIP DefaultClient client IPURL with
      | (_, some err) =>
        t ++ [Event.slog .error "error while getting public IP"
          [("error", .err err), ("interactionid", .str i.ID)]]
      | (ip, none) =>
        let t := t ++ [Event.slog .info "IP address retrieved"
          [("publicip", .str ip), ("interaction", .str i.ID)]]
        let t := t ++ [Event.FollowupMessageCreate i.ID true ip]
        match s.FollowupMessageCreate i true ip with
        | some err =>
          t ++ [Event.slog .error "error while sending followup message"
            [("error", .err err), ("interactionid", .str i.ID)]]
        | none =>
          t ++ [Event.slog .info "command responded sucessfully, exiting handler"
            [("interactionid", .str i.ID)]]

/-- Everything `main` gets from outside: the parsed command line (`BotToken`,
`Config`, `SlashCommandName`, `IPURL`) and the outcome of each call it makes:
the error of `discordgo.New` and of `Open`, the bot's own user ID, the result
of `ApplicationCommandCreate` (the ID of the registered command), the signal
that arrives (`none`: no signal ever arrives) and the error of
`ApplicationCommandDelete`. -/
structure World where
  BotToken : String
  Config : String
  SlashCommandName : String
  IPURL : String
  newErr : Option GoError
  openErr : Option GoError
  userID : String
  created : Except GoError String
  signal : Option Signal
  deleteErr : Option GoError

/-- A run of the process: what it did, and the exit code it ended with
(`none`: it is still blocked on `<-stop`). -/
structure Run where
  trace : List Event
  exit : Option Nat
deriving DecidableEq, Repr

/-- The function `main` of ipisto.go, after `kong.Parse`.  `kongCtx.Fatalf`
and `kongCtx.Exit(1)` end the process with code 1 without running deferred
calls; returning from `main` runs the deferred `discordSession.Close()` and
ends the process with code 0. -/
def main (w : World) : Run :=
  if w.BotToken = "" then
    { trace := [Event.Fatalf "bot token is empty"], exit := some 1 }
  else
    let t := [Event.slog .info "bot started" [("config", .str w.Config)],
      Event.slog .info "creating Discord session" [],
      Event.New ("Bot " ++ w.BotToken)]
    match w.newErr with
    | some err =>
      { trace := t ++ [Event.slog .error "error while creating Discord session"
          [("error", .err err)]],
        exit := some 1 }
    | none =>
      let t := t ++ [Event.AddHandler .ready,
        Event.AddHandler (.command w.SlashCommandName w.IPURL),
        Event.slog .info "openning Websocket conection" [],
        Event.Open]
      match w.openErr with
      | some err =>
        { trace := t ++ [Event.slog .error "error while opening websocket connection"
            [("error", .err err)]],
          exit := some 1 }
      | none =>
        -- defer discordSession.Close()
        let t := t ++ [Event.slog .info "registering command"
            [("slashcommandname", .str w.SlashCommandName)],
          Event.ApplicationCommandCreate w.userID "" w.SlashCommandName
            "Get public IP of this bot's server"]
        match w.created with
        | .error err =>
          { trace := t ++ [Event.slog .error "error while registering command"
              [("error", .err err)],
              Event.Close],
            exit := some 1 }
        | .ok registeredCommandID =>
          let t := t ++ [Event.slog .info "command registered"
              [("commandid", .str registeredCommandID)],
            Event.Notify]
          match w.signal with
          | none => { trace := t, exit := none }
          | some sig =>
            let t := t ++ [Event.received sig,
              Event.slog .info "signal to stop received" [],
              Event.slog .info "deleting command" [],
              Event.ApplicationCommandDelete w.userID "" registeredCommandID]
            match w.deleteErr with
            | some err =>
              { trace := t ++ [Event.slog .error "error while deleting command"
                  [("error", .err err)],
                  Event.Close],
                exit := some 1 }
            | none =>
              -- return from main: the deferred Close runs
              { trace := t ++ [Event.slog .info "exiting" [], Event.Close],
                exit := some 0 }

/-- A world in which the credential is missing. -/
def worldNoToken : World :=
  { BotToken := "", Config := "", SlashCommandName := "publicip",
    IPURL := "https://ipinfo.io/ip", newErr := none, openErr := none, userID := "42",
    created := .ok "1001", signal := some .SIGTERM, deleteErr := none }

/-- A world in which every step succeeds and SIGTERM arrives. -/
def worldGraceful : World :=
  { BotToken := "secret", Config := "", SlashCommandName := "publicip",
    IPURL := "https://ipinfo.io/ip", newErr := none, openErr := none, userID := "42",
    created := .ok "1001", signal := some .SIGTERM, deleteErr := none }

/-! ## Observations on traces -/

/-- The calls of a trace that are not log records. -/
def calls (t : List Event) : List Event :=
  t.filter (fun e => match e with
    | .slog _ _ _ => false
    | _ => true)

/-- The follow-up messages of a trace. -/
def followups (t : List Event) : List Event :=
  t.filter (fun e => match e with
    | .FollowupMessageCreate _ _ _ => true
    | _ => false)

/-- The fetches of a trace. -/
def fetches (t : List Event) : List Event :=
  t.filter (fun e => match e with
    | .getPublicIP _ => true
    | _ => false)

/-- The deregistration calls of a trace. -/
def deletes (t : List Event) : List Event :=
  t.filter (fun e => match e with
    | .ApplicationCommandDelete _ _ _ => true
    | _ => false)

/-- Number of `Close` calls in a trace. -/
def closes (t : List Event) : Nat :=
  t.count Event.Close

end Ipisto

/-! ## Address literals

The textual forms of an address, written down from the grammar of dotted
decimal and of RFC 4291 and not from the parser: an IPv4 literal is four
octets separated by dots; an IPv6 literal is eight groups of one to four
hexadecimal digits separated by colons, where one `::` may stand for one or
more groups of zeros and the last two groups may be written as a dotted IPv4
address, optionally followed by `%` and a non-empty zone. -/

namespace Ipisto

/-- The hexadecimal digits and their values. -/
def hexDigits : List (Char × Nat) :=
  [('0', 0), ('1', 1), ('2', 2), ('3', 3), ('4', 4), ('5', 5), ('6', 6), ('7', 7),
   ('8', 8), ('9', 9), ('a', 10), ('b', 11), ('c', 12), ('d', 13), ('e', 14), ('f', 15),
   ('A', 10), ('B', 11), ('C', 12), ('D', 13), ('E', 14), ('F', 15)]

/-- The decimal digits and their values. -/
def decDigits : List (Char × Nat) :=
  [('0', 0), ('1', 1), ('2', 2), ('3', 3), ('4', 4), ('5', 5), ('6', 6), ('7', 7),
   ('8', 8), ('9', 9)]

/-- The number a text of digits denotes in base `base`, continuing from
`acc`; `none` when a character is not a digit of the table. -/
def number (table : List (Char × Nat)) (base : Nat) : Nat → List Char → Option Nat
  | acc, [] => some acc
  | acc, c :: cs =>
    match table.lookup c with
    | none => none
    | some d => number table base (acc * base + d) cs

/-- An octet of a dotted IPv4 address: decimal digits without a leading
zero, denoting a number up to 255. -/
def IsOctet (cs : List Char) (v : Nat) : Prop :=
  cs ≠ [] ∧ (cs.length > 1 → cs.head? ≠ some '0') ∧ number decDigits 10 0 cs = some v ∧ v ≤ 255

/-- A group of an IPv6 address: one to four hexadecimal digits. -/
def IsGroup (cs : List Char) (v : Nat) : Prop :=
  cs ≠ [] ∧ cs.length ≤ 4 ∧ number hexDigits 16 0 cs = some v

/-- Octets separated by dots, with the bytes they denote. -/
inductive DottedOctets : List Char → List Nat → Prop where
  | one (o : List Char) (v : Nat) : IsOctet o v → DottedOctets o [v]
  | cons (o : List Char) (v : Nat) (rest : List Char) (vs : List Nat) :
    IsOctet o v → DottedOctets rest vs → DottedOctets (o ++ '.' :: rest) (v :: vs)

/-- Groups separated by colons, with the bytes they denote. -/
inductive HexGroups : List Char → List Nat → Prop where
  | one (g : List Char) (v : Nat) : IsGroup g v → HexGroups g [v / 256, v % 256]
  | cons (g : List Char) (v : Nat) (rest : List Char) (bs : List Nat) :
    IsGroup g v → HexGroups rest bs → HexGroups (g ++ ':' :: rest) (v / 256 :: v % 256 :: bs)

/-- Groups separated by colons whose end may be a dotted IPv4 address of four
octets, with the bytes they denote. -/
inductive Groups : List Char → List Nat → Prop where
  | one (g : List Char) (v : Nat) : IsGroup g v → Groups g [v / 256, v % 256]
  | v4 (t : List Char) (bs : List Nat) : DottedOctets t bs → bs.length = 4 → Groups t bs
  | cons (g : List Char) (v : Nat) (rest : List Char) (bs : List Nat) :
    IsGroup g v → Groups rest bs → Groups (g ++ ':' :: rest) (v / 256 :: v % 256 :: bs)

/-- The text of an IPv6 address without its zone, with its sixteen bytes:
all the groups, or groups, `::` and groups, where `::` stands for the bytes
that are missing (at least two). -/
def IsIPv6Text (cs : List Char) (bytes : List Nat) : Prop :=
  (Groups cs bytes ∧ bytes.length = 16)
    ∨ ∃ pre suf bp bs, cs = pre ++ ':' :: ':' :: suf
        ∧ ((pre = [] ∧ bp = []) ∨ HexGroups pre bp)
        ∧ ((suf = [] ∧ bs = []) ∨ Groups suf bs)
        ∧ bp.length + bs.length < 16
        ∧ bytes = bp ++ List.replicate (16 - (bp.length + bs.length)) 0 ++ bs

/-- The string `s` is a literal of the address `ip`: a dotted IPv4 address,
or the text of an IPv6 address, followed by `%` and the zone when the zone is
not empty. -/
def Literal (s : String) (ip : Addr) : Prop :=
  (∃ bs, DottedOctets s.data bs ∧ bs.length = 4
      ∧ ip = ⟨[0, 0, 0, 0, 0, 0, 0, 0, 0, 0, 0xff, 0xff] ++ bs, Zone.z4⟩)
    ∨ (∃ text zone bytes,
        s.data = text ++ (if zone = "" then [] else '%' :: zone.data)
        ∧ '%' ∉ text ∧ IsIPv6Text text bytes
        ∧ ip = ⟨bytes, if zone = "" then Zone.z6noz else Zone.z6 zone⟩)

/-- A strict address literal as the specification words it: an address
literal with no whitespace in it. -/
def StrictLiteral (s : String) : Prop :=
  (∃ ip, Literal s ip) ∧ ∀ c ∈ s.data, c.isWhitespace = false

end Ipisto

/-! ## Auxiliary notions for the statements about net/netip -/

namespace Ipisto

/-- The next character, if any, is not a hexadecimal digit. -/
def HexStop (rest : List Char) : Prop :=
  ∀ c, rest.head? = some c → hexVal c = none

/-- Dotted decimal text of four bytes. -/
def dotted (a b c d : Nat) : List Char :=
  appendDecimal [] a ++ '.' :: (appendDecimal [] b ++ '.' ::
    (appendDecimal [] c ++ '.' :: appendDecimal [] d))

/-- Text of a list of 16-bit groups, each preceded by a colon. -/
def colonGroups : List Nat → List Char
  | [] => []
  | g :: gs => ':' :: (appendHex [] g ++ colonGroups gs)

/-- Text of a list of 16-bit groups separated by colons. -/
def groupsText : List Nat → List Char
  | [] => []
  | g :: gs => appendHex [] g ++ colonGroups gs

/-- The bytes of a list of 16-bit groups, as `parseIPv6` stores them. -/
def groupBytes : List Nat → List Nat
  | [] => []
  | g :: gs => (g >>> 8) % 256 :: g % 256 :: groupBytes gs

/-- The groups `i`, ..., `i + n - 1` of an address. -/
def groupsFrom (ip : Addr) (i n : Nat) : List Nat :=
  (List.range' i n).map ip.v6u16

/-- What `appendTo6` and `appendTo4In6` write after the address: nothing for
the empty zone, else `%` and the zone. -/
def zoneSuffix (zone : String) : List Char :=
  if zone = "" then [] else '%' :: zone.data

/-- The `z` field `WithZone` gives to an IPv6 address. -/
def zoneOf (zone : String) : Zone :=
  if zone = "" then Zone.z6noz else Zone.z6 zone

/-- The run that the first loop of `appendTo6` finds: none, or at least two
groups, all of them zero. -/
def RunOk (ip : Addr) (z : Nat × Nat) : Prop :=
  z = (255, 255) ∨ (z.1 + 2 ≤ z.2 ∧ z.2 ≤ 8 ∧ ∀ k, z.1 ≤ k → k < z.2 → ip.v6u16 k = 0)

/-- The addresses `ParseAddr` can return: an IPv4 address of four bytes, or
an IPv6 address of sixteen bytes with or without a zone. -/
def Parsed (ip : Addr) : Prop :=
  (∃ a b c d, a < 256 ∧ b < 256 ∧ c < 256 ∧ d < 256 ∧ ip = AddrFrom4 [a, b, c, d])
    ∨ (∃ bytes zone, bytes.length = 16 ∧ (∀ x ∈ bytes, x < 256) ∧ ip = ⟨bytes, zoneOf zone⟩)

/-- What holds of the bytes stored so far, and of the position of the
ellipsis, at every turn of the loop of `parseIPv6`. -/
def LoopInv (ip : List Nat) (ellipsis : Option Nat) : Prop :=
  ip.length % 2 = 0 ∧ ip.length ≤ 16 ∧ (∀ x ∈ ip, x < 256)
    ∧ ∀ e, ellipsis = some e → e ≤ ip.length

/-- The characters of an address before its zone: hexadecimal digits, the
dot and the colon. -/
def AddrChar (c : Char) : Prop :=
  hexVal c ≠ none ∨ c = '.' ∨ c = ':'

end Ipisto

/-! ## net/netip: reading back what `String` writes -/

namespace Ipisto

theorem hexVal_digits (d : Nat) (h : d < 16) : hexVal (digits d) = some d := by
  interval_cases d <;> rfl

theorem digits_isHex (d : Nat) : hexVal (digits d) ≠ none := by
  by_cases h : d < 16
  · rw [hexVal_digits d h]
    simp
  · have : digits d = '0' := by
      unfold digits
      rw [List.getD_eq_default]
      simp only [not_lt] at h
      exact h
    rw [this]
    decide

theorem digits_decimal (d : Nat) (h : d < 10) :
    ('0' ≤ digits d ∧ digits d ≤ '9') ∧ (digits d).toNat - '0'.toNat = d := by
  interval_cases d <;> decide

theorem shr12 (x : Nat) : x >>> 12 = x / 4096 := by
  rw [Nat.shiftRight_eq_div_pow]
theorem shr8 (x : Nat) : x >>> 8 = x / 256 := by
  rw [Nat.shiftRight_eq_div_pow]
theorem shr4 (x : Nat) : x >>> 4 = x / 16 := by
  rw [Nat.shiftRight_eq_div_pow]
theorem and15 (x : Nat) : x &&& 0xf = x % 16 :=
  Nat.and_pow_two_sub_one_eq_mod _ 4

theorem hexLoop_stop (input : String) (rest : List Char) (off acc : Nat) (h : HexStop rest) :
    hexLoop input rest off acc = .ok (acc, off, rest) := by
  cases rest with
  | nil => rfl
  | cons c cs =>
    have hc : hexVal c = none := h c rfl
    simp [hexLoop, hc]

theorem hexLoop_step (input : String) (c : Char) (rest : List Char) (off acc d : Nat)
    (hc : hexVal c = some d) (hoff : off ≤ 3) (hacc : acc * 16 + d ≤ 65535) :
    hexLoop input (c :: rest) off acc = hexLoop input rest (off + 1) (acc * 16 + d) := by
  have h1 : (acc <<< 4 + d) % 2 ^ 32 = acc * 16 + d := by
    rw [Nat.shiftLeft_eq]
    omega
  have h2 : ¬ off > 3 := by omega
  have h3 : ¬ acc * 16 + d > 65535 := by omega
  simp only [hexLoop, hc, h1, h2, h3, if_false]

theorem hexLoop_appendHex (input : String) (x : Nat) (rest : List Char)
    (hx : x < 65536) (hrest : HexStop rest) :
    ∃ off, 0 < off ∧ hexLoop input (appendHex [] x ++ rest) 0 0 = .ok (x, off, rest) := by
  unfold appendHex
  simp only [shr12, shr8, shr4, and15, ge_iff_le]
  have e3 := hexVal_digits (x / 4096) (by omega)
  have e2 := hexVal_digits (x / 256 % 16) (by omega)
  have e1 := hexVal_digits (x / 16 % 16) (by omega)
  have e0 := hexVal_digits (x % 16) (by omega)
  by_cases h3 : 4096 ≤ x
  · have h2 : 256 ≤ x := by omega
    have h1 : 16 ≤ x := by omega
    simp only [h3, h2, h1, if_true, List.nil_append, List.cons_append, List.singleton_append]
    rw [hexLoop_step input _ _ 0 0 _ e3 (by omega) (by omega),
      hexLoop_step input _ _ 1 _ _ e2 (by omega) (by omega),
      hexLoop_step input _ _ 2 _ _ e1 (by omega) (by omega),
      hexLoop_step input _ _ 3 _ _ e0 (by omega) (by omega),
      hexLoop_stop input rest _ _ hrest]
    refine ⟨4, by omega, ?_⟩
    congr 2
    omega
  · by_cases h2 : 256 ≤ x
    · have h1 : 16 ≤ x := by omega
      simp only [h3, h2, h1, if_true, if_false, List.nil_append, List.cons_append,
        List.singleton_append]
      rw [hexLoop_step input _ _ 0 0 _ e2 (by omega) (by omega),
        hexLoop_step input _ _ 1 _ _ e1 (by omega) (by omega),
        hexLoop_step input _ _ 2 _ _ e0 (by omega) (by omega),
        hexLoop_stop input rest _ _ hrest]
      refine ⟨3, by omega, ?_⟩
      congr 2
      omega
    · by_cases h1 : 16 ≤ x
      · simp only [h3, h2, h1, if_true, if_false, List.nil_append, List.cons_append,
          List.singleton_append]
        rw [hexLoop_step input _ _ 0 0 _ e1 (by omega) (by omega),
          hexLoop_step input _ _ 1 _ _ e0 (by omega) (by omega),
          hexLoop_stop input rest _ _ hrest]
        refine ⟨2, by omega, ?_⟩
        congr 2
        omega
      · simp only [h3, h2, h1, if_false, List.nil_append, List.cons_append,
          List.singleton_append]
        rw [hexLoop_step input _ _ 0 0 _ e0 (by omega) (by omega),
          hexLoop_stop input rest _ _ hrest]
        refine ⟨1, by omega, ?_⟩
        congr 2
        omega

theorem appendDecimal_eq (b : List Char) (x : Nat) :
    appendDecimal b x = b ++ appendDecimal [] x := by
  unfold appendDecimal
  by_cases h1 : x ≥ 100 <;> by_cases h2 : x ≥ 10 <;> simp [h1, h2]

theorem appendHex_eq (b : List Char) (x : Nat) :
    appendHex b x = b ++ appendHex [] x := by
  unfold appendHex
  by_cases h1 : x ≥ 0x1000 <;> by_cases h2 : x ≥ 0x100 <;> by_cases h3 : x ≥ 0x10 <;>
    simp [h1, h2, h3]

theorem appendDecimal_isHex (x : Nat) : ∀ c ∈ appendDecimal [] x, hexVal c ≠ none := by
  intro c hc
  unfold appendDecimal at hc
  by_cases h1 : x ≥ 100 <;> by_cases h2 : x ≥ 10 <;> simp [h1, h2] at hc <;>
    (try omega) <;>
    first
      | (subst hc; exact digits_isHex _)
      | (rcases hc with h | h <;> subst h <;> exact digits_isHex _)
      | (rcases hc with h | h | h <;> subst h <;> exact digits_isHex _)

theorem appendHex_isHex (x : Nat) : ∀ c ∈ appendHex [] x, hexVal c ≠ none := by
  intro c hc
  unfold appendHex at hc
  by_cases h1 : x ≥ 0x1000 <;> by_cases h2 : x ≥ 0x100 <;> by_cases h3 : x ≥ 0x10 <;>
    simp [h1, h2, h3] at hc <;> (try omega) <;>
    first
      | (subst hc; exact digits_isHex _)
      | (rcases hc with h | h <;> subst h <;> exact digits_isHex _)
      | (rcases hc with h | h | h <;> subst h <;> exact digits_isHex _)
      | (rcases hc with h | h | h | h <;> subst h <;> exact digits_isHex _)

/-- The text of a group starts with a hexadecimal digit. -/
theorem appendHex_cons (x : Nat) :
    ∃ c cs, appendHex [] x = c :: cs ∧ hexVal c ≠ none := by
  have h := appendHex_isHex x
  cases hl : appendHex [] x with
  | nil =>
    exfalso
    unfold appendHex at hl
    by_cases h1 : x ≥ 0x1000 <;> by_cases h2 : x ≥ 0x100 <;> by_cases h3 : x ≥ 0x10 <;>
      simp [h1, h2, h3] at hl
  | cons c cs =>
    exact ⟨c, cs, rfl, h c (by rw [hl]; exact List.mem_cons_self _ _)⟩

theorem appendDecimal_cons (x : Nat) :
    ∃ c cs, appendDecimal [] x = c :: cs ∧ hexVal c ≠ none := by
  have h := appendDecimal_isHex x
  cases hl : appendDecimal [] x with
  | nil =>
    exfalso
    unfold appendDecimal at hl
    by_cases h1 : x ≥ 100 <;> by_cases h2 : x ≥ 10 <;> simp [h1, h2] at hl
  | cons c cs =>
    exact ⟨c, cs, rfl, h c (by rw [hl]; exact List.mem_cons_self _ _)⟩

theorem v4_digit_step (input : String) (d : Nat) (rest : List Char) (prev : Option Char)
    (val digLen : Nat) (fields : List Nat) (hd : d < 10)
    (hlz : ¬ (digLen = 1 ∧ val = 0)) (hv : val * 10 + d ≤ 255) :
    parseIPv4FieldsLoop input (digits d :: rest) prev val digLen fields
      = parseIPv4FieldsLoop input rest (some (digits d)) (val * 10 + d) (digLen + 1)
          fields := by
  obtain ⟨h1, h2⟩ := digits_decimal d hd
  have h3 : val * 10 + (digits d).toNat - '0'.toNat = val * 10 + d := by
    have : '0'.toNat ≤ (digits d).toNat := h1.1
    omega
  have h4 : ¬ val * 10 + d > 255 := by omega
  rw [parseIPv4FieldsLoop]
  simp only [h1, and_self, if_true, hlz, if_false, h3, h4]

theorem digits_ne_dot (d : Nat) : digits d ≠ '.' := by
  intro h
  have := digits_isHex d
  rw [h] at this
  exact this (by decide)

theorem v4_dot_step (input : String) (rest : List Char) (d : Nat)
    (val digLen : Nat) (fields : List Nat) (hrest : rest ≠ []) (hf : fields.length < 3)
    (hval : val < 256) :
    parseIPv4FieldsLoop input ('.' :: rest) (some (digits d)) val digLen fields
      = parseIPv4FieldsLoop input rest (some '.') 0 0 (fields ++ [val]) := by
  have h1 : ¬ ('0' ≤ '.' ∧ '.' ≤ '9') := by decide
  have h2 : ¬ fields.length = 3 := by omega
  have h3 : ¬ digits d = '.' := digits_ne_dot d
  rw [parseIPv4FieldsLoop]
  simp only [h1, if_false, if_true, hrest, h2, reduceCtorEq, Option.some.injEq, h3, or_self,
    Nat.mod_eq_of_lt hval]

theorem v4_decimal (input : String) (x : Nat) (rest : List Char) (prev : Option Char)
    (fields : List Nat) (hx : x < 256) :
    ∃ n, parseIPv4FieldsLoop input (appendDecimal [] x ++ rest) prev 0 0 fields
      = parseIPv4FieldsLoop input rest (some (digits (x % 10))) x n fields := by
  unfold appendDecimal
  by_cases h1 : x ≥ 100
  · have h2 : x ≥ 10 := by omega
    simp only [h1, h2, if_true, List.nil_append, List.cons_append, List.singleton_append]
    rw [v4_digit_step input _ _ _ 0 0 _ (by omega) (by omega) (by omega),
      v4_digit_step input _ _ _ _ 1 _ (by omega) (by omega) (by omega),
      v4_digit_step input _ _ _ _ 2 _ (by omega) (by omega) (by omega)]
    refine ⟨3, ?_⟩
    congr 1
    omega
  · by_cases h2 : x ≥ 10
    · simp only [h1, h2, if_true, if_false, List.nil_append, List.cons_append,
        List.singleton_append]
      rw [v4_digit_step input _ _ _ 0 0 _ (by omega) (by omega) (by omega),
        v4_digit_step input _ _ _ _ 1 _ (by omega) (by omega) (by omega)]
      refine ⟨2, ?_⟩
      congr 1
      omega
    · simp only [h1, h2, if_false, List.nil_append, List.cons_append, List.singleton_append]
      rw [v4_digit_step input _ _ _ 0 0 _ (by omega) (by omega) (by omega)]
      refine ⟨1, ?_⟩
      congr 1
      omega

theorem parseIPv4Fields_dotted (input : String) (a b c d : Nat)
    (ha : a < 256) (hb : b < 256) (hc : c < 256) (hd : d < 256) :
    parseIPv4Fields input (dotted a b c d) = .ok [a, b, c, d] := by
  unfold parseIPv4Fields dotted
  obtain ⟨n1, e1⟩ := v4_decimal input a
    ('.' :: (appendDecimal [] b ++ '.' :: (appendDecimal [] c ++ '.' :: appendDecimal [] d)))
    none [] ha
  obtain ⟨n2, e2⟩ := v4_decimal input b
    ('.' :: (appendDecimal [] c ++ '.' :: appendDecimal [] d)) (some '.') [a] hb
  obtain ⟨n3, e3⟩ := v4_decimal input c ('.' :: appendDecimal [] d) (some '.') [a, b] hc
  obtain ⟨n4, e4⟩ := v4_decimal input d [] (some '.') [a, b, c] hd
  obtain ⟨cb, csb, hcb, _⟩ := appendDecimal_cons b
  obtain ⟨cc, csc, hcc, _⟩ := appendDecimal_cons c
  obtain ⟨cd, csd, hcd, _⟩ := appendDecimal_cons d
  rw [e1, v4_dot_step input _ _ _ _ _ (by rw [hcb]; simp) (by simp) ha]
  simp only [List.nil_append]
  rw [e2, v4_dot_step input _ _ _ _ _ (by rw [hcc]; simp) (by simp) hb]
  simp only [List.singleton_append]
  rw [e3, v4_dot_step input _ _ _ _ _ (by rw [hcd]; simp) (by simp) hc]
  simp only [List.cons_append, List.nil_append]
  rw [List.append_nil] at e4
  rw [e4]
  simp [parseIPv4FieldsLoop, Nat.mod_eq_of_lt hd]

theorem scan_dot (input : String) (pre rest : List Char)
    (hpre : ∀ c ∈ pre, hexVal c ≠ none) :
    ParseAddrScan input (pre ++ '.' :: rest) = parseIPv4 input := by
  induction pre with
  | nil => simp [ParseAddrScan]
  | cons c cs ih =>
    have hc : hexVal c ≠ none := hpre c (List.mem_cons_self _ _)
    have h1 : c ≠ '.' := by
      intro h
      exact hc (by rw [h]; decide)
    have h2 : c ≠ ':' := by
      intro h
      exact hc (by rw [h]; decide)
    have h3 : c ≠ '%' := by
      intro h
      exact hc (by rw [h]; decide)
    simp only [List.cons_append, ParseAddrScan, h1, h2, h3, if_false]
    exact ih (fun c hc => hpre c (List.mem_cons_of_mem _ hc))

theorem scan_colon (input : String) (pre rest : List Char)
    (hpre : ∀ c ∈ pre, hexVal c ≠ none) :
    ParseAddrScan input (pre ++ ':' :: rest) = parseIPv6 input := by
  induction pre with
  | nil => simp [ParseAddrScan]
  | cons c cs ih =>
    have hc : hexVal c ≠ none := hpre c (List.mem_cons_self _ _)
    have h1 : c ≠ '.' := by
      intro h
      exact hc (by rw [h]; decide)
    have h2 : c ≠ ':' := by
      intro h
      exact hc (by rw [h]; decide)
    have h3 : c ≠ '%' := by
      intro h
      exact hc (by rw [h]; decide)
    simp only [List.cons_append, ParseAddrScan, h1, h2, h3, if_false]
    exact ih (fun c hc => hpre c (List.mem_cons_of_mem _ hc))

theorem appendTo4_eq (ip : Addr) (ret : List Char) :
    ip.appendTo4 ret = ret ++ dotted (ip.v4 0) (ip.v4 1) (ip.v4 2) (ip.v4 3) := by
  unfold Addr.appendTo4 dotted
  simp only []
  rw [appendDecimal_eq (_ ++ ['.']) (ip.v4 3), appendDecimal_eq (_ ++ ['.']) (ip.v4 2),
    appendDecimal_eq (_ ++ ['.']) (ip.v4 1), appendDecimal_eq ret (ip.v4 0)]
  simp

/-- Reading back the text of an IPv4 address. -/
theorem ParseAddr_String_v4 (a b c d : Nat)
    (ha : a < 256) (hb : b < 256) (hc : c < 256) (hd : d < 256) :
    ParseAddr (AddrFrom4 [a, b, c, d]).String = .ok (AddrFrom4 [a, b, c, d]) := by
  have hs : (AddrFrom4 [a, b, c, d]).String = String.mk (dotted a b c d) := by
    simp only [Addr.String, AddrFrom4, appendTo4_eq]
    rfl
  rw [hs]
  unfold ParseAddr
  simp only []
  conv =>
    lhs
    arg 2
    unfold dotted
  rw [scan_dot _ _ _ (appendDecimal_isHex a)]
  unfold parseIPv4
  simp only [parseIPv4Fields_dotted _ a b c d ha hb hc hd]

theorem HexStop_nil : HexStop [] := by
  intro c h
  simp at h

theorem HexStop_colon (rest : List Char) : HexStop (':' :: rest) := by
  intro c h
  simp only [List.head?_cons, Option.some.injEq] at h
  subst h
  decide

theorem HexStop_colonGroups (gs : List Nat) : HexStop (colonGroups gs) := by
  cases gs with
  | nil => exact HexStop_nil
  | cons g gs => exact HexStop_colon _

/-- One turn of the loop of `parseIPv6` on the last group of the text. -/
theorem loop_last (input : String) (fuel : Nat) (ip : List Nat) (ell : Option Nat) (g : Nat)
    (hg : g < 65536) (hlen : ip.length < 16) :
    parseIPv6Loop input (fuel + 1) ip ell (appendHex [] g)
      = .ok (ip ++ [(g >>> 8) % 256, g % 256], ell, []) := by
  obtain ⟨off, hoff, e⟩ := hexLoop_appendHex input g [] hg HexStop_nil
  rw [List.append_nil] at e
  have h0 : ¬ off = 0 := by omega
  rw [parseIPv6Loop]
  simp only [hlen, if_true, e, h0, if_false, List.head?_nil, reduceCtorEq]

/-- One turn of the loop of `parseIPv6` on a group followed by a colon and
the first character of the next group. -/
theorem loop_next (input : String) (fuel : Nat) (ip : List Nat) (ell : Option Nat) (g : Nat)
    (c1 : Char) (rest2 : List Char)
    (hg : g < 65536) (hlen : ip.length < 16) (hc1 : c1 ≠ ':') :
    parseIPv6Loop input (fuel + 1) ip ell (appendHex [] g ++ ':' :: c1 :: rest2)
      = parseIPv6Loop input fuel (ip ++ [(g >>> 8) % 256, g % 256]) ell (c1 :: rest2) := by
  obtain ⟨off, hoff, e⟩ := hexLoop_appendHex input g (':' :: c1 :: rest2) hg (HexStop_colon _)
  have h0 : ¬ off = 0 := by omega
  have hd : ¬ (':' : Char) = '.' := by decide
  rw [parseIPv6Loop]
  simp only [hlen, if_true, e, h0, if_false, List.head?_cons, Option.some.injEq, hd, ne_eq,
    not_true_eq_false, hc1]

/-- One turn of the loop of `parseIPv6` on a group followed by `::`. -/
theorem loop_ellipsis (input : String) (fuel : Nat) (ip : List Nat) (g : Nat)
    (rest2 : List Char) (hg : g < 65536) (hlen : ip.length < 16) :
    parseIPv6Loop input (fuel + 1) ip none (appendHex [] g ++ ':' :: ':' :: rest2)
      = if rest2 = [] then
          .ok (ip ++ [(g >>> 8) % 256, g % 256], some (ip.length + 2), [])
        else parseIPv6Loop input fuel (ip ++ [(g >>> 8) % 256, g % 256])
          (some (ip.length + 2)) rest2 := by
  obtain ⟨off, hoff, e⟩ := hexLoop_appendHex input g (':' :: ':' :: rest2) hg (HexStop_colon _)
  have h0 : ¬ off = 0 := by omega
  have hd : ¬ (':' : Char) = '.' := by decide
  rw [parseIPv6Loop]
  simp only [hlen, if_true, e, h0, if_false, List.head?_cons, Option.some.injEq, hd, ne_eq,
    not_true_eq_false, List.length_append, List.length_cons, List.length_nil]

theorem groupsText_cons_cons (g g1 : Nat) (gs : List Nat) :
    ∃ c1 cs, c1 ≠ ':' ∧ groupsText (g1 :: gs) = c1 :: cs
      ∧ groupsText (g :: g1 :: gs) = appendHex [] g ++ ':' :: c1 :: cs := by
  obtain ⟨c1, cs, e, hc⟩ := appendHex_cons g1
  refine ⟨c1, cs ++ colonGroups gs, ?_, ?_, ?_⟩
  · intro h
    exact hc (by rw [h]; decide)
  · simp [groupsText, e]
  · simp [groupsText, colonGroups, e]

theorem groupBytes_length (gs : List Nat) : (groupBytes gs).length = 2 * gs.length := by
  induction gs with
  | nil => rfl
  | cons g gs ih =>
    simp only [groupBytes, List.length_cons, ih]
    omega

theorem groupBytes_append (as bs : List Nat) :
    groupBytes (as ++ bs) = groupBytes as ++ groupBytes bs := by
  induction as with
  | nil => rfl
  | cons g gs ih => simp [groupBytes, ih]

/-- The loop of `parseIPv6` reads a colon-separated list of groups. -/
theorem loop_groups (input : String) (gs : List Nat) (hne : gs ≠ [])
    (hg : ∀ g ∈ gs, g < 65536) :
    ∀ (fuel : Nat) (ip : List Nat) (ell : Option Nat), gs.length ≤ fuel →
      ip.length + 2 * gs.length ≤ 16 →
      parseIPv6Loop input fuel ip ell (groupsText gs) = .ok (ip ++ groupBytes gs, ell, []) := by
  induction gs with
  | nil => exact absurd rfl hne
  | cons g gs ih =>
    intro fuel ip ell hfuel hlen
    simp only [List.length_cons] at hfuel hlen
    obtain ⟨f, rfl⟩ : ∃ f, fuel = f + 1 := ⟨fuel - 1, by omega⟩
    have hg0 : g < 65536 := hg g (List.mem_cons_self _ _)
    cases gs with
    | nil =>
      simp only [groupsText, colonGroups, List.append_nil]
      rw [loop_last input f ip ell g hg0 (by omega)]
      rfl
    | cons g1 gs1 =>
      obtain ⟨c1, cs, hc1, e1, e2⟩ := groupsText_cons_cons g g1 gs1
      rw [e2, loop_next input f ip ell g c1 cs hg0 (by omega) hc1, ← e1]
      rw [ih (by simp) (fun x hx => hg x (List.mem_cons_of_mem _ hx)) f _ ell
        (by simp only [List.length_cons] at hfuel ⊢; omega)
        (by simp only [List.length_append, List.length_cons, List.length_nil] at hlen ⊢; omega)]
      simp [groupBytes]

/-- The loop of `parseIPv6` reads groups, then `::`, then groups. -/
theorem loop_groups_ellipsis (input : String) (pre suf : List Nat) (hne : pre ≠ [])
    (hpre : ∀ g ∈ pre, g < 65536) (hsuf : ∀ g ∈ suf, g < 65536) :
    ∀ (fuel : Nat) (ip : List Nat), pre.length + suf.length ≤ fuel →
      ip.length + 2 * (pre.length + suf.length) ≤ 16 →
      parseIPv6Loop input fuel ip none (groupsText pre ++ ':' :: ':' :: groupsText suf)
        = .ok (ip ++ groupBytes pre ++ groupBytes suf, some (ip.length + 2 * pre.length), []) := by
  induction pre with
  | nil => exact absurd rfl hne
  | cons g gs ih =>
    intro fuel ip hfuel hlen
    simp only [List.length_cons] at hfuel hlen
    obtain ⟨f, rfl⟩ : ∃ f, fuel = f + 1 := ⟨fuel - 1, by omega⟩
    have hg0 : g < 65536 := hpre g (List.mem_cons_self _ _)
    cases gs with
    | nil =>
      have e0 : groupsText [g] = appendHex [] g := by simp [groupsText, colonGroups]
      simp only [List.length_nil] at hfuel hlen
      rw [e0, loop_ellipsis input f ip g _ hg0 (by omega)]
      cases suf with
      | nil => simp [groupsText, groupBytes]
      | cons s0 ss =>
        obtain ⟨c, cs, e, _⟩ := appendHex_cons s0
        have hne2 : groupsText (s0 :: ss) ≠ [] := by simp [groupsText, e]
        rw [if_neg hne2]
        rw [loop_groups input (s0 :: ss) (by simp) hsuf f _ _ (by omega)
          (by simp only [List.length_append, List.length_cons, List.length_nil] at hlen ⊢; omega)]
        simp [groupBytes]
    | cons g1 gs1 =>
      obtain ⟨c1, cs, hc1, e1, e2⟩ := groupsText_cons_cons g g1 gs1
      rw [e2]
      simp only [List.append_assoc, List.cons_append]
      rw [loop_next input f ip none g c1 _ hg0 (by omega) hc1]
      rw [← List.cons_append, ← e1]
      rw [ih (by simp) (fun x hx => hpre x (List.mem_cons_of_mem _ hx)) f _
        (by simp only [List.length_cons] at hfuel ⊢; omega)
        (by simp only [List.length_append, List.length_cons, List.length_nil] at hlen ⊢; omega)]
      simp only [groupBytes, List.length_append, List.length_cons, List.length_nil,
        List.append_assoc, List.cons_append, List.nil_append]
      have e3 : ip.length + (0 + 1 + 1) + 2 * (gs1.length + 1)
          = ip.length + 2 * (gs1.length + 1 + 1) := by omega
      rw [e3]

theorem groupsFrom_succ (ip : Addr) (i n : Nat) :
    groupsFrom ip i (n + 1) = ip.v6u16 i :: groupsFrom ip (i + 1) n := by
  simp [groupsFrom, List.range'_succ]

theorem groupsFrom_zero (ip : Addr) (i : Nat) : groupsFrom ip i 0 = [] := by
  simp [groupsFrom]

theorem groupsFrom_length (ip : Addr) (i n : Nat) : (groupsFrom ip i n).length = n := by
  simp [groupsFrom]

theorem groupsFrom_add (ip : Addr) (i m n : Nat) :
    groupsFrom ip i (m + n) = groupsFrom ip i m ++ groupsFrom ip (i + m) n := by
  induction m generalizing i with
  | zero => simp [groupsFrom_zero]
  | succ m ih =>
    have e : m + 1 + n = (m + n) + 1 := by omega
    rw [e, groupsFrom_succ, groupsFrom_succ, ih]
    simp only [List.cons_append]
    have e2 : i + 1 + m = i + (m + 1) := by omega
    rw [e2]

/-- The second loop of `appendTo6` after the run of zeros: every group is
written after a colon. -/
theorem appendGroups_tail (ip : Addr) (zs ze : Nat) :
    ∀ (fuel i : Nat) (ret : List Char), 0 < i → i ≤ 8 → 8 - i ≤ fuel →
      (∀ k, i ≤ k → k < 8 → k ≠ zs) →
      appendGroups ip zs ze fuel i ret = ret ++ colonGroups (groupsFrom ip i (8 - i)) := by
  intro fuel
  induction fuel with
  | zero =>
    intro i ret h0 h8 hf _
    have e : 8 - i = 0 := by omega
    simp [appendGroups, e, groupsFrom_zero, colonGroups]
  | succ f ih =>
    intro i ret h0 h8 hf hk
    by_cases hi : i < 8
    · have hz : ¬ i = zs := hk i (Nat.le_refl _) hi
      have e : 8 - i = (8 - (i + 1)) + 1 := by omega
      rw [appendGroups]
      simp only [hi, if_true, hz, if_false, h0]
      rw [ih (i + 1) _ (by omega) (by omega) (by omega) (fun k hk1 hk8 => hk k (by omega) hk8)]
      rw [e, groupsFrom_succ, appendHex_eq]
      simp [colonGroups]
    · have e : 8 - i = 0 := by omega
      rw [appendGroups]
      simp [hi, e, groupsFrom_zero, colonGroups]

/-- The second loop of `appendTo6` before the run of zeros, from group 1 on. -/
theorem appendGroups_head (ip : Addr) (zs ze : Nat) (hze : zs < ze) (hze8 : ze ≤ 8) :
    ∀ (fuel i : Nat) (ret : List Char), 0 < i → i ≤ zs → 8 - i ≤ fuel →
      appendGroups ip zs ze fuel i ret
        = ret ++ colonGroups (groupsFrom ip i (zs - i))
            ++ ':' :: ':' :: groupsText (groupsFrom ip ze (8 - ze)) := by
  intro fuel
  induction fuel with
  | zero =>
    intro i ret h0 hi hf
    omega
  | succ f ih =>
    intro i ret h0 hi hf
    have hi8 : i < 8 := by omega
    rw [appendGroups]
    by_cases hz : i = zs
    · subst hz
      simp only [hi8, if_true, Nat.sub_self, groupsFrom_zero, colonGroups, List.append_nil]
      by_cases h8 : ze ≥ 8
      · have e : 8 - ze = 0 := by omega
        simp [h8, e, groupsFrom_zero, groupsText]
      · have e : 8 - ze = (8 - (ze + 1)) + 1 := by omega
        simp only [h8, if_false]
        rw [appendGroups_tail ip i ze f (ze + 1) _ (by omega) (by omega) (by omega)
          (fun k hk hk8 => by omega)]
        rw [e, groupsFrom_succ, appendHex_eq]
        simp [groupsText]
    · have e : zs - i = (zs - (i + 1)) + 1 := by omega
      simp only [hi8, if_true, hz, if_false, h0]
      rw [ih (i + 1) _ (by omega) (by omega) (by omega)]
      rw [e, groupsFrom_succ, appendHex_eq]
      simp [colonGroups]

/-- What the second loop of `appendTo6` writes when there is no run of
zeros: the eight groups. -/
theorem appendGroups_norun (ip : Addr) :
    appendGroups ip 255 255 8 0 [] = groupsText (groupsFrom ip 0 8) := by
  rw [appendGroups]
  simp only [Nat.lt_add_one, Nat.zero_lt_succ, if_true, Nat.reduceEqDiff, OfNat.zero_ne_ofNat,
    if_false, gt_iff_lt, Nat.lt_irrefl]
  rw [appendGroups_tail ip 255 255 7 1 _ (by omega) (by omega) (by omega)
    (fun k hk hk8 => by omega)]
  rw [show groupsFrom ip 0 8 = ip.v6u16 0 :: groupsFrom ip 1 7 from groupsFrom_succ ip 0 7]
  simp [groupsText]

/-- What the second loop of `appendTo6` writes when the groups `zs`, ...,
`ze - 1` are replaced by `::`. -/
theorem appendGroups_run (ip : Addr) (zs ze : Nat) (hze : zs < ze) (hze8 : ze ≤ 8) :
    appendGroups ip zs ze 8 0 []
      = groupsText (groupsFrom ip 0 zs) ++ ':' :: ':' :: groupsText (groupsFrom ip ze (8 - ze)) := by
  by_cases hz : zs = 0
  · subst hz
    rw [appendGroups]
    simp only [Nat.zero_lt_succ, if_true, groupsFrom_zero, groupsText, List.nil_append]
    by_cases h8 : ze ≥ 8
    · have e : 8 - ze = 0 := by omega
      simp [h8, e, groupsFrom_zero, groupsText]
    · have e : 8 - ze = (8 - (ze + 1)) + 1 := by omega
      simp only [h8, if_false]
      rw [appendGroups_tail ip 0 ze 7 (ze + 1) _ (by omega) (by omega) (by omega)
        (fun k hk hk8 => by omega)]
      rw [e, groupsFrom_succ, appendHex_eq]
      simp [groupsText]
  · have e : zs = (zs - 1) + 1 := by omega
    have hz' : ¬ 0 = zs := fun h => hz h.symm
    rw [appendGroups]
    simp only [Nat.zero_lt_succ, if_true, hz', if_false, gt_iff_lt, Nat.lt_irrefl]
    rw [appendGroups_head ip zs ze hze hze8 7 1 _ (by omega) (by omega) (by omega)]
    conv =>
      rhs
      rw [e, groupsFrom_succ]
    simp [groupsText]

theorem zeroRunEnd_spec (ip : Addr) :
    ∀ (fuel j : Nat), j ≤ zeroRunEnd ip fuel j ∧ (j ≤ 8 → zeroRunEnd ip fuel j ≤ 8)
      ∧ ∀ k, j ≤ k → k < zeroRunEnd ip fuel j → ip.v6u16 k = 0 := by
  intro fuel
  induction fuel with
  | zero =>
    intro j
    simp only [zeroRunEnd]
    exact ⟨Nat.le_refl _, fun h => h, fun k h1 h2 => by omega⟩
  | succ f ih =>
    intro j
    rw [zeroRunEnd]
    by_cases h : j < 8 ∧ ip.v6u16 j = 0
    · simp only [h, and_self, if_true]
      obtain ⟨h1, h2, h3⟩ := ih (j + 1)
      refine ⟨by omega, fun _ => h2 (by omega), ?_⟩
      intro k hk1 hk2
      by_cases hkj : k = j
      · subst hkj
        exact h.2
      · exact h3 k (by omega) hk2
    · simp only [h, if_false]
      exact ⟨Nat.le_refl _, fun h => h, fun k h1 h2 => by omega⟩

theorem zeroRun_fold (ip : Addr) (l : List Nat) (hl : ∀ i ∈ l, i < 8) :
    ∀ z, RunOk ip z →
      RunOk ip (l.foldl
        (fun (z : Nat × Nat) i =>
          let j := zeroRunEnd ip 8 i
          let l := j - i
          if l ≥ 2 ∧ l > z.2 - z.1 then (i, j) else z) z) := by
  induction l with
  | nil =>
    intro z hz
    exact hz
  | cons i l ih =>
    intro z hz
    simp only [List.foldl_cons]
    apply ih (fun x hx => hl x (List.mem_cons_of_mem _ hx))
    have hi : i < 8 := hl i (List.mem_cons_self _ _)
    obtain ⟨h1, h2, h3⟩ := zeroRunEnd_spec ip 8 i
    by_cases hc : zeroRunEnd ip 8 i - i ≥ 2 ∧ zeroRunEnd ip 8 i - i > z.2 - z.1
    · simp only [hc, and_self, if_true]
      right
      exact ⟨by simp only; omega, h2 (by omega), h3⟩
    · simp only [hc, if_false]
      exact hz

theorem zeroRun_spec (ip : Addr) : RunOk ip (zeroRun ip) := by
  unfold zeroRun
  apply zeroRun_fold
  · intro i hi
    exact List.mem_range.mp hi
  · left
    rfl

theorem getD_lt (bytes : List Nat) (hb : ∀ x ∈ bytes, x < 256) (i : Nat) :
    bytes.getD i 0 < 256 := by
  by_cases h : i < bytes.length
  · rw [List.getD_eq_getElem _ _ h]
    exact hb _ (List.getElem_mem _)
  · rw [List.getD_eq_default _ _ (by omega)]
    omega

theorem v6u16_lt (ip : Addr) (hb : ∀ x ∈ ip.addr, x < 256) (i : Nat) :
    ip.v6u16 i < 65536 := by
  have h1 := getD_lt ip.addr hb (2 * i)
  have h2 := getD_lt ip.addr hb (2 * i + 1)
  unfold Addr.v6u16
  omega

theorem groupsFrom_lt (ip : Addr) (hb : ∀ x ∈ ip.addr, x < 256) (i n : Nat) :
    ∀ g ∈ groupsFrom ip i n, g < 65536 := by
  intro g hg
  simp only [groupsFrom, List.mem_map] at hg
  obtain ⟨k, _, rfl⟩ := hg
  exact v6u16_lt ip hb k

theorem groupsFrom_zeros (ip : Addr) (n : Nat) :
    ∀ i, (∀ k, i ≤ k → k < i + n → ip.v6u16 k = 0) →
      groupsFrom ip i n = List.replicate n 0 := by
  induction n with
  | zero =>
    intro i _
    simp [groupsFrom_zero]
  | succ n ih =>
    intro i h
    rw [groupsFrom_succ, h i (Nat.le_refl _) (by omega),
      ih (i + 1) (fun k h1 h2 => h k (by omega) (by omega))]
    rfl

theorem groupBytes_zeros (n : Nat) :
    groupBytes (List.replicate n 0) = List.replicate (2 * n) 0 := by
  induction n with
  | zero => rfl
  | succ n ih =>
    have e : 2 * (n + 1) = (2 * n + 1) + 1 := by omega
    rw [List.replicate_succ, groupBytes, ih, e, List.replicate_succ, List.replicate_succ]
    rfl

/-- The bytes of the eight groups of a 16-byte address are its bytes. -/
theorem groupBytes_groupsFrom (bytes : List Nat) (z : Zone) (hlen : bytes.length = 16)
    (hb : ∀ x ∈ bytes, x < 256) :
    groupBytes (groupsFrom ⟨bytes, z⟩ 0 8) = bytes := by
  match bytes, hlen with
  | [b0, b1, b2, b3, b4, b5, b6, b7, b8, b9, b10, b11, b12, b13, b14, b15], _ =>
    have h0 := hb b0 (by simp)
    have h1 := hb b1 (by simp)
    have h2 := hb b2 (by simp)
    have h3 := hb b3 (by simp)
    have h4 := hb b4 (by simp)
    have h5 := hb b5 (by simp)
    have h6 := hb b6 (by simp)
    have h7 := hb b7 (by simp)
    have h8 := hb b8 (by simp)
    have h9 := hb b9 (by simp)
    have h10 := hb b10 (by simp)
    have h11 := hb b11 (by simp)
    have h12 := hb b12 (by simp)
    have h13 := hb b13 (by simp)
    have h14 := hb b14 (by simp)
    have h15 := hb b15 (by simp)
    simp only [groupsFrom, List.range', List.map, Addr.v6u16, groupBytes, shr8,
      List.getD_cons_zero, List.getD_cons_succ, Nat.mul_zero, Nat.zero_add, Nat.reduceMul,
      Nat.reduceAdd]
    have e : ∀ a b : Nat, a < 256 → b < 256 →
        (a * 256 + b) / 256 % 256 = a ∧ (a * 256 + b) % 256 = b := by
      intro a b ha hb
      omega
    simp only [e b0 b1 h0 h1, e b2 b3 h2 h3, e b4 b5 h4 h5, e b6 b7 h6 h7, e b8 b9 h8 h9,
      e b10 b11 h10 h11, e b12 b13 h12 h13, e b14 b15 h14 h15]

theorem pct_not_mem_appendHex (x : Nat) : '%' ∉ appendHex [] x := by
  intro h
  exact appendHex_isHex x _ h (by decide)

theorem pct_not_mem_appendDecimal (x : Nat) : '%' ∉ appendDecimal [] x := by
  intro h
  exact appendDecimal_isHex x _ h (by decide)

theorem pct_not_mem_colonGroups (gs : List Nat) : '%' ∉ colonGroups gs := by
  induction gs with
  | nil => simp [colonGroups]
  | cons g gs ih =>
    simp only [colonGroups, List.mem_cons, List.mem_append, not_or]
    exact ⟨by decide, pct_not_mem_appendHex g, ih⟩

theorem pct_not_mem_groupsText (gs : List Nat) : '%' ∉ groupsText gs := by
  cases gs with
  | nil => simp [groupsText]
  | cons g gs =>
    simp only [groupsText, List.mem_append, not_or]
    exact ⟨pct_not_mem_appendHex g, pct_not_mem_colonGroups gs⟩

theorem pct_not_mem_dotted (a b c d : Nat) : '%' ∉ dotted a b c d := by
  simp only [dotted, List.mem_cons, List.mem_append, not_or]
  exact ⟨pct_not_mem_appendDecimal a, by decide, pct_not_mem_appendDecimal b, by decide,
    pct_not_mem_appendDecimal c, by decide, pct_not_mem_appendDecimal d⟩

theorem WithZone_AddrFrom16 (bytes : List Nat) (zone : String) :
    (AddrFrom16 bytes).WithZone zone = ⟨bytes, zoneOf zone⟩ := by
  unfold Addr.WithZone AddrFrom16 zoneOf
  by_cases h : zone = "" <;> simp [Addr.Is6, h]

/-- The split of the zone in `parseIPv6`, on a text without `%` followed by
the zone suffix. -/
theorem parseIPv6_split (text : List Char) (zone : String) (hpct : '%' ∉ text) :
    parseIPv6 (String.mk (text ++ zoneSuffix zone))
      = parseIPv6Rest (String.mk (text ++ zoneSuffix zone)) zone text := by
  unfold parseIPv6 zoneSuffix
  by_cases hz : zone = ""
  · subst hz
    simp only [if_true, List.append_nil]
    have e : List.indexOf '%' text = text.length := List.indexOf_of_not_mem hpct
    simp only [e, Nat.lt_irrefl, if_false]
  · have hd : zone.data ≠ [] := by
      intro h
      apply hz
      cases zone with
      | mk data =>
        simp only at h
        subst h
        rfl
    have e : List.indexOf '%' (text ++ '%' :: zone.data) = text.length := by
      rw [List.indexOf_append_of_not_mem hpct, List.indexOf_cons_self]
      rfl
    simp only [hz, if_false, e, List.length_append, List.length_cons]
    have h1 : text.length < text.length + (zone.data.length + 1) := by omega
    have h2 : List.drop (text.length + 1) (text ++ '%' :: zone.data) = zone.data := by
      rw [List.drop_append_eq_append_drop]
      simp
    have h3 : List.take text.length (text ++ '%' :: zone.data) = text := by
      simp
    simp only [h1, if_true, h2, hd, if_false, h3]

theorem take2_ne (c : Char) (cs : List Char) (hc : c ≠ ':') :
    ¬ (c :: cs).take 2 = [':', ':'] := by
  cases cs with
  | nil => simp
  | cons d ds => simp [hc]

theorem groupsText_cons (g : Nat) (gs : List Nat) :
    ∃ c cs, c ≠ ':' ∧ groupsText (g :: gs) = c :: cs := by
  obtain ⟨c, cs, e, hc⟩ := appendHex_cons g
  refine ⟨c, cs ++ colonGroups gs, ?_, by simp [groupsText, e]⟩
  intro h
  exact hc (by rw [h]; decide)

/-- The end of `parseIPv6` when the ellipsis stands between the groups `pre`
and the groups `suf`. -/
theorem parseIPv6Finish_run (input : String) (zone : String) (pre suf : List Nat)
    (h : pre.length + suf.length < 8) :
    parseIPv6Finish input zone (groupBytes pre ++ groupBytes suf) (some (2 * pre.length)) []
      = .ok ⟨groupBytes pre ++ List.replicate (16 - 2 * (pre.length + suf.length)) 0
          ++ groupBytes suf, zoneOf zone⟩ := by
  have hl : (groupBytes pre ++ groupBytes suf).length = 2 * (pre.length + suf.length) := by
    rw [List.length_append, groupBytes_length, groupBytes_length]
    omega
  have h1 : (groupBytes pre ++ groupBytes suf).length < 16 := by omega
  have h2 : List.take (2 * pre.length) (groupBytes pre ++ groupBytes suf) = groupBytes pre := by
    rw [List.take_append_of_le_length (by rw [groupBytes_length])]
    rw [List.take_of_length_le (by rw [groupBytes_length])]
  have h3 : List.drop (2 * pre.length) (groupBytes pre ++ groupBytes suf) = groupBytes suf := by
    rw [List.drop_append_of_le_length (by rw [groupBytes_length])]
    rw [List.drop_of_length_le (by rw [groupBytes_length])]
    rfl
  have h4 : 2 * (pre.length + suf.length) < 16 := by omega
  unfold parseIPv6Finish
  simp only [ne_eq, not_true_eq_false, if_false, h1, if_true, h2, h3, WithZone_AddrFrom16, hl,
    h4]

/-- The bytes of an address, cut at a run of zero groups. -/
theorem bytes_cut (bytes : List Nat) (z : Zone) (hlen : bytes.length = 16)
    (hb : ∀ x ∈ bytes, x < 256) (zs ze : Nat) (h1 : zs ≤ ze) (h2 : ze ≤ 8)
    (h0 : ∀ k, zs ≤ k → k < ze → (⟨bytes, z⟩ : Addr).v6u16 k = 0) :
    bytes = groupBytes (groupsFrom ⟨bytes, z⟩ 0 zs) ++ List.replicate (2 * (ze - zs)) 0
      ++ groupBytes (groupsFrom ⟨bytes, z⟩ ze (8 - ze)) := by
  have e : 8 = zs + ((ze - zs) + (8 - ze)) := by omega
  have e2 : zs + (ze - zs) = ze := by omega
  conv =>
    lhs
    rw [← groupBytes_groupsFrom bytes z hlen hb, e, groupsFrom_add, groupsFrom_add]
  rw [groupsFrom_zeros _ (ze - zs) (0 + zs) (fun k hk1 hk2 => h0 k (by omega) (by omega))]
  rw [groupBytes_append, groupBytes_append, groupBytes_zeros]
  simp only [Nat.zero_add, e2, List.append_assoc]

/-- Reading back what the loops of `appendTo6` write. -/
theorem parseIPv6Rest_appendGroups (input : String) (bytes : List Nat) (zone : String)
    (hlen : bytes.length = 16) (hb : ∀ x ∈ bytes, x < 256) :
    parseIPv6Rest input zone
        (appendGroups ⟨bytes, zoneOf zone⟩ (zeroRun ⟨bytes, zoneOf zone⟩).1
          (zeroRun ⟨bytes, zoneOf zone⟩).2 8 0 [])
      = .ok ⟨bytes, zoneOf zone⟩ := by
  have hlt := groupsFrom_lt ⟨bytes, zoneOf zone⟩ hb
  rcases zeroRun_spec ⟨bytes, zoneOf zone⟩ with hrun | ⟨hr1, hr2, hr3⟩
  · -- no run of zeros: eight groups
    rw [hrun]
    simp only []
    rw [appendGroups_norun]
    obtain ⟨c, cs, hc, e⟩ := groupsText_cons ((⟨bytes, zoneOf zone⟩ : Addr).v6u16 0)
      (groupsFrom ⟨bytes, zoneOf zone⟩ 1 7)
    rw [← groupsFrom_succ] at e
    unfold parseIPv6Rest
    have ht : ¬ (groupsText (groupsFrom ⟨bytes, zoneOf zone⟩ 0 8)).take 2 = [':', ':'] := by
      rw [e]
      exact take2_ne c cs hc
    simp only [ht, if_false]
    rw [loop_groups input _ (by simp [groupsFrom]) (hlt 0 8) 8 [] none
      (by rw [groupsFrom_length]) (by rw [groupsFrom_length]; simp)]
    simp only [List.nil_append, groupBytes_groupsFrom bytes _ hlen hb]
    unfold parseIPv6Finish
    simp [hlen, WithZone_AddrFrom16]
  · generalize (zeroRun ⟨bytes, zoneOf zone⟩).1 = zs at hr1 hr3
    generalize (zeroRun ⟨bytes, zoneOf zone⟩).2 = ze at hr1 hr2 hr3
    rw [appendGroups_run _ zs ze (by omega) hr2]
    have hcut := bytes_cut bytes (zoneOf zone) hlen hb zs ze (by omega) hr2 hr3
    have hfin := parseIPv6Finish_run input zone (groupsFrom ⟨bytes, zoneOf zone⟩ 0 zs)
      (groupsFrom ⟨bytes, zoneOf zone⟩ ze (8 - ze))
      (by rw [groupsFrom_length, groupsFrom_length]; omega)
    simp only [groupsFrom_length] at hfin
    have e16 : 16 - 2 * (zs + (8 - ze)) = 2 * (ze - zs) := by omega
    rw [e16, ← hcut] at hfin
    unfold parseIPv6Rest
    by_cases hz : zs = 0
    · subst hz
      simp only [groupsFrom_zero, groupsText, List.nil_append, List.take_succ_cons,
        List.take_zero, if_true, List.drop_succ_cons, List.drop_zero]
      by_cases h8 : ze = 8
      · subst h8
        simp only [Nat.sub_self, groupsFrom_zero, if_true]
        simp only [groupsFrom_zero, groupBytes, List.nil_append, List.append_nil] at hcut
        rw [hcut]
        simp [IPv6Unspecified, WithZone_AddrFrom16]
      · have e : 8 - ze = (8 - (ze + 1)) + 1 := by omega
        obtain ⟨c, cs, hc, et⟩ := groupsText_cons ((⟨bytes, zoneOf zone⟩ : Addr).v6u16 ze)
          (groupsFrom ⟨bytes, zoneOf zone⟩ (ze + 1) (8 - (ze + 1)))
        rw [← groupsFrom_succ, ← e] at et
        have hne : ¬ (match groupsFrom ⟨bytes, zoneOf zone⟩ ze (8 - ze) with
            | [] => []
            | g :: gs => appendHex [] g ++ colonGroups gs) = [] := by
          have : (match groupsFrom ⟨bytes, zoneOf zone⟩ ze (8 - ze) with
            | [] => []
            | g :: gs => appendHex [] g ++ colonGroups gs)
              = groupsText (groupsFrom ⟨bytes, zoneOf zone⟩ ze (8 - ze)) := by
            unfold groupsText
            rfl
          rw [this, et]
          simp
        simp only [hne, if_false]
        have hl := loop_groups input (groupsFrom ⟨bytes, zoneOf zone⟩ ze (8 - ze))
          (by rw [e, groupsFrom_succ]; simp) (hlt ze (8 - ze)) 8 [] (some 0)
          (by rw [groupsFrom_length]; omega) (by rw [groupsFrom_length]; simp; omega)
        unfold groupsText at hl
        rw [hl]
        simpa [groupsFrom_zero, groupBytes] using hfin
    · have e : zs = (zs - 1) + 1 := by omega
      obtain ⟨c, cs, hc, et⟩ := groupsText_cons ((⟨bytes, zoneOf zone⟩ : Addr).v6u16 0)
        (groupsFrom ⟨bytes, zoneOf zone⟩ 1 (zs - 1))
      rw [← groupsFrom_succ, ← e] at et
      have ht : ¬ (groupsText (groupsFrom ⟨bytes, zoneOf zone⟩ 0 zs) ++ ':' :: ':' ::
          groupsText (groupsFrom ⟨bytes, zoneOf zone⟩ ze (8 - ze))).take 2 = [':', ':'] := by
        rw [et]
        exact take2_ne c _ hc
      simp only [ht, if_false]
      rw [loop_groups_ellipsis input (groupsFrom ⟨bytes, zoneOf zone⟩ 0 zs)
        (groupsFrom ⟨bytes, zoneOf zone⟩ ze (8 - ze))
        (by rw [e, groupsFrom_succ]; simp) (hlt 0 zs) (hlt ze (8 - ze)) 8 []
        (by rw [groupsFrom_length, groupsFrom_length]; omega)
        (by rw [groupsFrom_length, groupsFrom_length]; simp; omega)]
      simpa [groupsFrom_length] using hfin

theorem colonGroups_colon (gs : List Nat) (tail : List Char) :
    ∃ rest, colonGroups gs ++ ':' :: tail = ':' :: rest := by
  cases gs with
  | nil => exact ⟨tail, rfl⟩
  | cons g gs => exact ⟨_, rfl⟩

/-- What the loops of `appendTo6` write has no `%` and has a colon after
leading hexadecimal digits only. -/
theorem appendGroups_text (ip : Addr) :
    '%' ∉ appendGroups ip (zeroRun ip).1 (zeroRun ip).2 8 0 []
      ∧ ∃ pre rest, (∀ c ∈ pre, hexVal c ≠ none)
          ∧ appendGroups ip (zeroRun ip).1 (zeroRun ip).2 8 0 [] = pre ++ ':' :: rest := by
  rcases zeroRun_spec ip with hrun | ⟨hr1, hr2, hr3⟩
  · rw [hrun]
    simp only []
    rw [appendGroups_norun]
    refine ⟨pct_not_mem_groupsText _, appendHex [] (ip.v6u16 0), ?_, appendHex_isHex _, ?_⟩
    · exact appendHex [] (ip.v6u16 1) ++ colonGroups (groupsFrom ip 2 6)
    · rw [groupsFrom_succ ip 0 7, groupsFrom_succ ip (0 + 1) 6]
      rfl
  · generalize (zeroRun ip).1 = zs at hr1 hr3
    generalize (zeroRun ip).2 = ze at hr1 hr2 hr3
    rw [appendGroups_run _ zs ze (by omega) hr2]
    constructor
    · simp only [List.mem_append, List.mem_cons, not_or]
      exact ⟨pct_not_mem_groupsText _, by decide, by decide, pct_not_mem_groupsText _⟩
    · by_cases hz : zs = 0
      · subst hz
        refine ⟨[], ':' :: groupsText (groupsFrom ip ze (8 - ze)), by simp, ?_⟩
        rw [groupsFrom_zero]
        rfl
      · have e : zs = (zs - 1) + 1 := by omega
        obtain ⟨rest, hrest⟩ := colonGroups_colon (groupsFrom ip (0 + 1) (zs - 1))
          (':' :: groupsText (groupsFrom ip ze (8 - ze)))
        refine ⟨appendHex [] (ip.v6u16 0), rest, appendHex_isHex _, ?_⟩
        have e2 : groupsFrom ip 0 zs = ip.v6u16 0 :: groupsFrom ip (0 + 1) (zs - 1) := by
          rw [← groupsFrom_succ, ← e]
        have e3 : groupsText (ip.v6u16 0 :: groupsFrom ip (0 + 1) (zs - 1))
            = appendHex [] (ip.v6u16 0) ++ colonGroups (groupsFrom ip (0 + 1) (zs - 1)) := rfl
        rw [e2, e3, List.append_assoc, hrest]

theorem appendTo6_eq (bytes : List Nat) (zone : String) :
    (⟨bytes, zoneOf zone⟩ : Addr).appendTo6 []
      = appendGroups ⟨bytes, zoneOf zone⟩ (zeroRun ⟨bytes, zoneOf zone⟩).1
          (zeroRun ⟨bytes, zoneOf zone⟩).2 8 0 [] ++ zoneSuffix zone := by
  unfold Addr.appendTo6 zoneSuffix
  by_cases h : zone = ""
  · simp [zoneOf, h]
  · simp [zoneOf, h, Addr.Zone]

/-- Reading back the text of an IPv6 address that `String` writes with
`appendTo6`. -/
theorem ParseAddr_String_v6 (bytes : List Nat) (zone : String)
    (hlen : bytes.length = 16) (hb : ∀ x ∈ bytes, x < 256)
    (h46 : (⟨bytes, zoneOf zone⟩ : Addr).Is4In6 = false) :
    ParseAddr (⟨bytes, zoneOf zone⟩ : Addr).String = .ok ⟨bytes, zoneOf zone⟩ := by
  have hs : (⟨bytes, zoneOf zone⟩ : Addr).String
      = String.mk ((⟨bytes, zoneOf zone⟩ : Addr).appendTo6 []) := by
    unfold Addr.String
    by_cases h : zone = "" <;> simp [zoneOf, h, h46] <;> simp [zoneOf, h] at h46 <;>
      simp [h46]
  obtain ⟨hpct, pre, rest, hpre, htext⟩ := appendGroups_text ⟨bytes, zoneOf zone⟩
  rw [hs, appendTo6_eq]
  unfold ParseAddr
  simp only []
  have hscan : ParseAddrScan
      (String.mk (appendGroups ⟨bytes, zoneOf zone⟩ (zeroRun ⟨bytes, zoneOf zone⟩).1
        (zeroRun ⟨bytes, zoneOf zone⟩).2 8 0 [] ++ zoneSuffix zone))
      (appendGroups ⟨bytes, zoneOf zone⟩ (zeroRun ⟨bytes, zoneOf zone⟩).1
        (zeroRun ⟨bytes, zoneOf zone⟩).2 8 0 [] ++ zoneSuffix zone)
      = parseIPv6 (String.mk (appendGroups ⟨bytes, zoneOf zone⟩ (zeroRun ⟨bytes, zoneOf zone⟩).1
        (zeroRun ⟨bytes, zoneOf zone⟩).2 8 0 [] ++ zoneSuffix zone)) := by
    conv =>
      lhs
      arg 2
      rw [htext, List.append_assoc, List.cons_append]
    exact scan_colon _ pre _ hpre
  rw [hscan, parseIPv6_split _ zone hpct]
  exact parseIPv6Rest_appendGroups _ bytes zone hlen hb

theorem HexStop_dot (rest : List Char) : HexStop ('.' :: rest) := by
  intro c h
  simp only [List.head?_cons, Option.some.injEq] at h
  subst h
  decide

/-- The hexadecimal scan of `parseIPv6` runs over a decimal byte and stops at
the dot that follows it. -/
theorem hexLoop_decimal (input : String) (x : Nat) (rest : List Char) (hx : x < 256) :
    ∃ acc off, 0 < off
      ∧ hexLoop input (appendDecimal [] x ++ '.' :: rest) 0 0 = .ok (acc, off, '.' :: rest) := by
  unfold appendDecimal
  have e2 := hexVal_digits (x / 100) (by omega)
  have e1 := hexVal_digits (x / 10 % 10) (by omega)
  have e0 := hexVal_digits (x % 10) (by omega)
  by_cases h1 : x ≥ 100
  · have h2 : x ≥ 10 := by omega
    simp only [h1, h2, if_true, List.nil_append, List.cons_append, List.singleton_append]
    rw [hexLoop_step input _ _ 0 0 _ e2 (by omega) (by omega),
      hexLoop_step input _ _ 1 _ _ e1 (by omega) (by omega),
      hexLoop_step input _ _ 2 _ _ e0 (by omega) (by omega),
      hexLoop_stop input _ _ _ (HexStop_dot rest)]
    exact ⟨_, 3, by omega, rfl⟩
  · by_cases h2 : x ≥ 10
    · simp only [h1, h2, if_true, if_false, List.nil_append, List.cons_append,
        List.singleton_append]
      rw [hexLoop_step input _ _ 0 0 _ e1 (by omega) (by omega),
        hexLoop_step input _ _ 1 _ _ e0 (by omega) (by omega),
        hexLoop_stop input _ _ _ (HexStop_dot rest)]
      exact ⟨_, 2, by omega, rfl⟩
    · simp only [h1, h2, if_false, List.nil_append, List.cons_append, List.singleton_append]
      rw [hexLoop_step input _ _ 0 0 _ e0 (by omega) (by omega),
        hexLoop_stop input _ _ _ (HexStop_dot rest)]
      exact ⟨_, 1, by omega, rfl⟩

/-- One turn of the loop of `parseIPv6` on a trailing dotted IPv4 address. -/
theorem loop_dotted (input : String) (fuel : Nat) (ip : List Nat) (e : Nat) (a b c d : Nat)
    (ha : a < 256) (hb : b < 256) (hc : c < 256) (hd : d < 256) (hlen : ip.length + 4 ≤ 16) :
    parseIPv6Loop input (fuel + 1) ip (some e) (dotted a b c d)
      = .ok (ip ++ [a, b, c, d], some e, []) := by
  obtain ⟨acc, off, hoff, eh⟩ := hexLoop_decimal input a
    (appendDecimal [] b ++ '.' :: (appendDecimal [] c ++ '.' :: appendDecimal [] d)) ha
  have h0 : ¬ off = 0 := by omega
  have h1 : ip.length < 16 := by omega
  have h2 : ¬ ip.length + 4 > 16 := by omega
  have e4 := parseIPv4Fields_dotted input a b c d ha hb hc hd
  rw [parseIPv6Loop]
  unfold dotted at e4 ⊢
  simp only [h1, if_true, eh, h0, if_false, List.head?_cons, reduceCtorEq, false_and, h2, e4]

theorem dotted_cons (a b c d : Nat) : ∃ c1 cs, c1 ≠ ':' ∧ dotted a b c d = c1 :: cs := by
  obtain ⟨c1, cs, e, hc⟩ := appendDecimal_cons a
  refine ⟨c1, _, ?_, by unfold dotted; rw [e]; rfl⟩
  intro h
  exact hc (by rw [h]; decide)

/-- Reading back the text of an IPv4-mapped IPv6 address. -/
theorem ParseAddr_String_4in6 (bytes : List Nat) (zone : String)
    (hlen : bytes.length = 16) (hb : ∀ x ∈ bytes, x < 256)
    (h46 : (⟨bytes, zoneOf zone⟩ : Addr).Is4In6 = true) :
    ParseAddr (⟨bytes, zoneOf zone⟩ : Addr).String = .ok ⟨bytes, zoneOf zone⟩ := by
  match bytes, hlen with
  | [b0, b1, b2, b3, b4, b5, b6, b7, b8, b9, b10, b11, a, b, c, d], _ =>
    have ha := hb a (by simp)
    have hb' := hb b (by simp)
    have hc := hb c (by simp)
    have hd := hb d (by simp)
    simp only [Addr.Is4In6, List.take_succ_cons, List.take_zero, Bool.and_eq_true,
      decide_eq_true_eq, List.cons.injEq, and_true] at h46
    obtain ⟨_, rfl, rfl, rfl, rfl, rfl, rfl, rfl, rfl, rfl, rfl, rfl, rfl⟩ := h46
    have h46' : (⟨[0, 0, 0, 0, 0, 0, 0, 0, 0, 0, 255, 255, a, b, c, d], zoneOf zone⟩ :
        Addr).Is4In6 = true := by
      unfold Addr.Is4In6 Addr.Is6 zoneOf
      by_cases h : zone = "" <;> simp [h]
    have hs : (⟨[0, 0, 0, 0, 0, 0, 0, 0, 0, 0, 255, 255, a, b, c, d], zoneOf zone⟩ :
        Addr).String
        = String.mk ([':', ':', 'f', 'f', 'f', 'f', ':'] ++ dotted a b c d ++ zoneSuffix zone) := by
      unfold Addr.String
      have hz : (⟨[0, 0, 0, 0, 0, 0, 0, 0, 0, 0, 255, 255, a, b, c, d], zoneOf zone⟩ :
          Addr).appendTo4In6 []
          = [':', ':', 'f', 'f', 'f', 'f', ':'] ++ dotted a b c d ++ zoneSuffix zone := by
        have hv : ∀ i, (⟨[0, 0, 0, 0, 0, 0, 0, 0, 0, 0, 255, 255, a, b, c, d], zoneOf zone⟩ :
            Addr).Unmap.v4 i
            = (⟨[0, 0, 0, 0, 0, 0, 0, 0, 0, 0, 255, 255, a, b, c, d], zoneOf zone⟩ : Addr).v4 i := by
          intro i
          simp only [Addr.Unmap, h46', if_true, Addr.v4]
        unfold Addr.appendTo4In6 zoneSuffix
        rw [appendTo4_eq]
        simp only [hv]
        by_cases h : zone = ""
        · simp [zoneOf, h, Addr.v4]
        · simp [zoneOf, h, Addr.v4, Addr.Zone]
      by_cases h : zone = ""
      · simp only [zoneOf, h, if_true] at hz h46' ⊢
        simp only [h46', if_true, hz]
      · simp only [zoneOf, h, if_false] at hz h46' ⊢
        simp only [h46', if_true, hz]
    obtain ⟨c1, cs, hc1, ed⟩ := dotted_cons a b c d
    have hpct : '%' ∉ [':', ':', 'f', 'f', 'f', 'f', ':'] ++ dotted a b c d := by
      simp only [List.mem_append, not_or]
      exact ⟨by decide, pct_not_mem_dotted a b c d⟩
    rw [hs]
    unfold ParseAddr
    simp only [List.append_assoc]
    have hscan := scan_colon
      (String.mk ([':', ':', 'f', 'f', 'f', 'f', ':'] ++ (dotted a b c d ++ zoneSuffix zone)))
      [] ([':', 'f', 'f', 'f', 'f', ':'] ++ (dotted a b c d ++ zoneSuffix zone)) (by simp)
    simp only [List.nil_append, List.cons_append] at hscan ⊢
    rw [hscan]
    have hsp := parseIPv6_split ([':', ':', 'f', 'f', 'f', 'f', ':'] ++ dotted a b c d) zone hpct
    simp only [List.append_assoc, List.cons_append, List.nil_append] at hsp
    rw [hsp]
    unfold parseIPv6Rest
    have hff : appendHex [] 65535 = ['f', 'f', 'f', 'f'] := by rfl
    have hl1 := loop_next
      (String.mk (':' :: ':' :: 'f' :: 'f' :: 'f' :: 'f' :: ':' :: (dotted a b c d ++ zoneSuffix zone)))
      7 [] (some 0) 65535 c1 cs (by omega) (by simp) hc1
    rw [hff, ← ed] at hl1
    simp only [List.cons_append, List.nil_append] at hl1
    have hl2 := loop_dotted
      (String.mk (':' :: ':' :: 'f' :: 'f' :: 'f' :: 'f' :: ':' :: (dotted a b c d ++ zoneSuffix zone)))
      6 [65535 >>> 8 % 256, 65535 % 256] 0 a b c d ha hb' hc hd (by simp)
    rw [hl2] at hl1
    simp only [List.take_succ_cons, List.take_zero, if_true, List.drop_succ_cons, List.drop_zero,
      reduceCtorEq, if_false, hl1]
    simp [parseIPv6Finish, WithZone_AddrFrom16]

/-! ### What `ParseAddr` returns -/

theorem parseIPv4FieldsLoop_inv (input : String) :
    ∀ (s : List Char) (prev : Option Char) (val digLen : Nat) (fields : List Nat)
      (val1 : Nat) (fields1 : List Nat),
      parseIPv4FieldsLoop input s prev val digLen fields = .ok (val1, fields1) →
      fields.length ≤ 3 → (∀ x ∈ fields, x < 256) →
      fields1.length ≤ 3 ∧ ∀ x ∈ fields1, x < 256 := by
  intro s
  induction s with
  | nil =>
    intro prev val digLen fields val1 fields1 h hl hb
    simp only [parseIPv4FieldsLoop, Except.ok.injEq, Prod.mk.injEq] at h
    obtain ⟨_, rfl⟩ := h
    exact ⟨hl, hb⟩
  | cons c rest ih =>
    intro prev val digLen fields val1 fields1 h hl hb
    rw [parseIPv4FieldsLoop] at h
    split at h
    · split at h
      · cases h
      · dsimp only at h
        split at h
        · cases h
        · exact ih _ _ _ _ _ _ h hl hb
    · split at h
      · split at h
        · cases h
        · split at h
          · cases h
          · rename_i h5
            have hl2 : (fields ++ [val % 256]).length ≤ 3 := by
              simp only [List.length_append, List.length_cons, List.length_nil]
              omega
            refine ih _ _ _ _ _ _ h hl2 ?_
            intro x hx
            simp only [List.mem_append, List.mem_singleton] at hx
            rcases hx with hx | hx
            · exact hb x hx
            · subst hx
              exact Nat.mod_lt _ (by omega)
      · cases h

theorem parseIPv4Fields_inv (input : String) (s : List Char) (fields : List Nat)
    (h : parseIPv4Fields input s = .ok fields) :
    fields.length = 4 ∧ ∀ x ∈ fields, x < 256 := by
  unfold parseIPv4Fields at h
  split at h
  · cases h
  · rename_i val fields1 hloop
    obtain ⟨h1, h2⟩ := parseIPv4FieldsLoop_inv input s none 0 0 [] val fields1 hloop
      (by simp) (by simp)
    split at h
    · cases h
    · rename_i h3
      simp only [Except.ok.injEq] at h
      subst h
      have hl2 : (fields1 ++ [val % 256]).length = 4 := by
        simp only [List.length_append, List.length_cons, List.length_nil]
        omega
      refine ⟨hl2, ?_⟩
      intro x hx
      simp only [List.mem_append, List.mem_singleton] at hx
      rcases hx with hx | hx
      · exact h2 x hx
      · subst hx
        exact Nat.mod_lt _ (by omega)

theorem parseIPv4_shape (input : String) (ip : Addr) (h : parseIPv4 input = .ok ip) :
    Parsed ip := by
  unfold parseIPv4 at h
  split at h
  · cases h
  · rename_i fields hf
    obtain ⟨h1, h2⟩ := parseIPv4Fields_inv input _ fields hf
    simp only [Except.ok.injEq] at h
    subst h
    match fields, h1 with
    | [a, b, c, d], _ =>
      left
      exact ⟨a, b, c, d, h2 a (by simp), h2 b (by simp), h2 c (by simp), h2 d (by simp), rfl⟩

theorem LoopInv_push (ip : List Nat) (ell : Option Nat) (x y : Nat)
    (h : LoopInv ip ell) (hlen : ip.length < 16) :
    LoopInv (ip ++ [x % 256, y % 256]) ell
      ∧ LoopInv (ip ++ [x % 256, y % 256]) (some (ip ++ [x % 256, y % 256]).length) := by
  obtain ⟨h1, h2, h3, h4⟩ := h
  have hb : ∀ z ∈ ip ++ [x % 256, y % 256], z < 256 := by
    intro z hz
    simp only [List.mem_append, List.mem_cons, List.mem_singleton, List.not_mem_nil,
      or_false] at hz
    rcases hz with hz | hz | hz
    · exact h3 z hz
    · subst hz
      exact Nat.mod_lt _ (by omega)
    · subst hz
      exact Nat.mod_lt _ (by omega)
  have hl : (ip ++ [x % 256, y % 256]).length = ip.length + 2 := by simp
  refine ⟨⟨by omega, by omega, hb, ?_⟩, ⟨by omega, by omega, hb, ?_⟩⟩
  · intro e he
    have := h4 e he
    omega
  · intro e he
    simp only [Option.some.injEq] at he
    omega

theorem parseIPv6Loop_inv (input : String) :
    ∀ (fuel : Nat) (ip : List Nat) (ell : Option Nat) (s : List Char)
      (ip1 : List Nat) (ell1 : Option Nat) (s1 : List Char),
      parseIPv6Loop input fuel ip ell s = .ok (ip1, ell1, s1) → LoopInv ip ell →
      ip1.length ≤ 16 ∧ (∀ x ∈ ip1, x < 256) ∧ ∀ e, ell1 = some e → e ≤ ip1.length := by
  intro fuel
  induction fuel with
  | zero =>
    intro ip ell s ip1 ell1 s1 h hinv
    simp only [parseIPv6Loop, Except.ok.injEq, Prod.mk.injEq] at h
    obtain ⟨rfl, rfl, rfl⟩ := h
    exact ⟨hinv.2.1, hinv.2.2.1, hinv.2.2.2⟩
  | succ f ih =>
    intro ip ell s ip1 ell1 s1 h hinv
    rw [parseIPv6Loop] at h
    split at h
    · rename_i hlen
      split at h
      · cases h
      · rename_i acc off rest hhex
        split at h
        · cases h
        · split at h
          · -- trailing IPv4 address
            split at h
            · cases h
            · split at h
              · cases h
              · rename_i h4
                split at h
                · cases h
                · rename_i fields hf
                  obtain ⟨hf1, hf2⟩ := parseIPv4Fields_inv input s fields hf
                  simp only [Except.ok.injEq, Prod.mk.injEq] at h
                  obtain ⟨rfl, rfl, rfl⟩ := h
                  obtain ⟨i1, i2, i3, i4⟩ := hinv
                  refine ⟨?_, ?_, ?_⟩
                  · simp only [List.length_append]
                    omega
                  · intro x hx
                    simp only [List.mem_append] at hx
                    rcases hx with hx | hx
                    · exact i3 x hx
                    · exact hf2 x hx
                  · intro e he
                    have := i4 e he
                    simp only [List.length_append]
                    omega
          · -- a group of hexadecimal digits
            obtain ⟨p1, p2⟩ := LoopInv_push ip ell (acc >>> 8) acc hinv hlen
            dsimp only at h
            split at h
            · simp only [Except.ok.injEq, Prod.mk.injEq] at h
              obtain ⟨rfl, rfl, rfl⟩ := h
              exact ⟨p1.2.1, p1.2.2.1, p1.2.2.2⟩
            · split at h
              · cases h
              · split at h
                · cases h
                · split at h
                  · split at h
                    · cases h
                    · split at h
                      · simp only [Except.ok.injEq, Prod.mk.injEq] at h
                        obtain ⟨rfl, rfl, rfl⟩ := h
                        exact ⟨p2.2.1, p2.2.2.1, p2.2.2.2⟩
                      · exact ih _ _ _ _ _ _ h p2
                  · exact ih _ _ _ _ _ _ h p1
    · simp only [Except.ok.injEq, Prod.mk.injEq] at h
      obtain ⟨rfl, rfl, rfl⟩ := h
      exact ⟨hinv.2.1, hinv.2.2.1, hinv.2.2.2⟩

theorem parseIPv6Finish_shape (input : String) (zone : String) (ip : List Nat)
    (ell : Option Nat) (s : List Char) (a : Addr)
    (h : parseIPv6Finish input zone ip ell s = .ok a)
    (hlen : ip.length ≤ 16) (hb : ∀ x ∈ ip, x < 256) (he : ∀ e, ell = some e → e ≤ ip.length) :
    Parsed a := by
  unfold parseIPv6Finish at h
  split at h
  · cases h
  · split at h
    · split at h
      · cases h
      · rename_i e
        simp only [Except.ok.injEq] at h
        subst h
        right
        have hel := he e rfl
        refine ⟨_, zone, ?_, ?_, WithZone_AddrFrom16 _ zone⟩
        · simp only [List.length_append, List.length_take, List.length_replicate,
            List.length_drop]
          omega
        · intro x hx
          simp only [List.mem_append, List.mem_replicate] at hx
          rcases hx with (hx | hx) | hx
          · exact hb x (List.mem_of_mem_take hx)
          · rw [hx.2]
            omega
          · exact hb x (List.mem_of_mem_drop hx)
    · split at h
      · cases h
      · simp only [Except.ok.injEq] at h
        subst h
        right
        exact ⟨ip, zone, by omega, hb, WithZone_AddrFrom16 _ zone⟩

theorem LoopInv_nil (ell : Option Nat) (h : ell = none ∨ ell = some 0) : LoopInv [] ell := by
  refine ⟨rfl, by simp, by simp, ?_⟩
  intro e he
  rcases h with h | h
  · rw [h] at he
    cases he
  · rw [h] at he
    simp only [Option.some.injEq] at he
    omega

theorem parseIPv6Rest_shape (input : String) (zone : String) (s : List Char) (a : Addr)
    (h : parseIPv6Rest input zone s = .ok a) : Parsed a := by
  unfold parseIPv6Rest at h
  split at h
  · dsimp only at h
    split at h
    · simp only [Except.ok.injEq] at h
      subst h
      right
      exact ⟨List.replicate 16 0, zone, by simp, by simp, WithZone_AddrFrom16 _ zone⟩
    · split at h
      · cases h
      · rename_i ip ell s2 hloop
        obtain ⟨i1, i2, i3⟩ := parseIPv6Loop_inv input 8 [] (some 0) _ ip ell s2 hloop
          (LoopInv_nil _ (Or.inr rfl))
        exact parseIPv6Finish_shape input zone ip ell s2 a h i1 i2 i3
  · split at h
    · cases h
    · rename_i ip ell s2 hloop
      obtain ⟨i1, i2, i3⟩ := parseIPv6Loop_inv input 8 [] none _ ip ell s2 hloop
        (LoopInv_nil _ (Or.inl rfl))
      exact parseIPv6Finish_shape input zone ip ell s2 a h i1 i2 i3

theorem parseIPv6_shape (input : String) (a : Addr) (h : parseIPv6 input = .ok a) :
    Parsed a := by
  unfold parseIPv6 at h
  dsimp only at h
  split at h
  · split at h
    · cases h
    · exact parseIPv6Rest_shape _ _ _ a h
  · exact parseIPv6Rest_shape _ _ _ a h

theorem ParseAddrScan_shape (input : String) (a : Addr) :
    ∀ cs, ParseAddrScan input cs = .ok a → Parsed a := by
  intro cs
  induction cs with
  | nil =>
    intro h
    simp [ParseAddrScan] at h
  | cons c cs ih =>
    intro h
    rw [ParseAddrScan] at h
    split at h
    · exact parseIPv4_shape input a h
    · split at h
      · exact parseIPv6_shape input a h
      · split at h
        · cases h
        · exact ih h

/-- Every address `ParseAddr` returns is an IPv4 address of four bytes or an
IPv6 address of sixteen bytes. -/
theorem ParseAddr_shape (s : String) (a : Addr) (h : ParseAddr s = .ok a) : Parsed a :=
  ParseAddrScan_shape s a s.data h

/-- The text `String` writes for a parsed address is read back by `ParseAddr`
as the same address. -/
theorem ParseAddr_String (a : Addr) (h : Parsed a) : ParseAddr a.String = .ok a := by
  rcases h with ⟨a, b, c, d, ha, hb, hc, hd, rfl⟩ | ⟨bytes, zone, hlen, hb, rfl⟩
  · exact ParseAddr_String_v4 a b c d ha hb hc hd
  · cases h46 : (⟨bytes, zoneOf zone⟩ : Addr).Is4In6 with
    | true => exact ParseAddr_String_4in6 bytes zone hlen hb h46
    | false => exact ParseAddr_String_v6 bytes zone hlen hb h46

/-- Eight turns are enough for the loop of `parseIPv6`: with any two amounts
of fuel that cover the bytes still to store, the loop returns the same. -/
theorem parseIPv6Loop_fuel (input : String) :
    ∀ (f1 f2 : Nat) (ip : List Nat) (ell : Option Nat) (s : List Char),
      ip.length % 2 = 0 → 16 ≤ ip.length + 2 * f1 → 16 ≤ ip.length + 2 * f2 →
      parseIPv6Loop input f1 ip ell s = parseIPv6Loop input f2 ip ell s := by
  intro f1
  induction f1 with
  | zero =>
    intro f2 ip ell s _ h1 _
    have hlen : ¬ ip.length < 16 := by omega
    cases f2 with
    | zero => rfl
    | succ f2 =>
      rw [parseIPv6Loop, parseIPv6Loop]
      simp only [hlen, if_false]
  | succ f1 ih =>
    intro f2 ip ell s hev h1 h2
    cases f2 with
    | zero =>
      have hlen : ¬ ip.length < 16 := by omega
      rw [parseIPv6Loop, parseIPv6Loop]
      simp only [hlen, if_false]
    | succ f2 =>
      by_cases hlen : ip.length < 16
      · have key : ∀ (x y : Nat) (ell1 : Option Nat) (s1 : List Char),
            parseIPv6Loop input f1 (ip ++ [x, y]) ell1 s1
              = parseIPv6Loop input f2 (ip ++ [x, y]) ell1 s1 := by
          intro x y ell1 s1
          apply ih
          · simp only [List.length_append, List.length_cons, List.length_nil]
            omega
          · simp only [List.length_append, List.length_cons, List.length_nil]
            omega
          · simp only [List.length_append, List.length_cons, List.length_nil]
            omega
        rw [parseIPv6Loop, parseIPv6Loop]
        simp only [key]
      · rw [parseIPv6Loop, parseIPv6Loop]
        simp only [hlen, if_false]

/-! ### The characters `ParseAddr` accepts -/

theorem parseIPv4FieldsLoop_chars (input : String) :
    ∀ (s : List Char) (prev : Option Char) (val digLen : Nat) (fields : List Nat)
      (r : Nat × List Nat),
      parseIPv4FieldsLoop input s prev val digLen fields = .ok r → ∀ c ∈ s, AddrChar c := by
  intro s
  induction s with
  | nil =>
    intro prev val digLen fields r _ c hc
    simp at hc
  | cons c rest ih =>
    intro prev val digLen fields r h
    rw [parseIPv4FieldsLoop] at h
    split at h
    · rename_i hdig
      split at h
      · cases h
      · dsimp only at h
        split at h
        · cases h
        · intro x hx
          simp only [List.mem_cons] at hx
          rcases hx with hx | hx
          · subst hx
            left
            simp [hexVal, hdig]
          · exact ih _ _ _ _ _ h x hx
    · split at h
      · rename_i hdot
        split at h
        · cases h
        · split at h
          · cases h
          · intro x hx
            simp only [List.mem_cons] at hx
            rcases hx with hx | hx
            · subst hx
              right
              left
              exact hdot
            · exact ih _ _ _ _ _ h x hx
      · cases h

theorem parseIPv4Fields_chars (input : String) (s : List Char) (fields : List Nat)
    (h : parseIPv4Fields input s = .ok fields) : ∀ c ∈ s, AddrChar c := by
  unfold parseIPv4Fields at h
  split at h
  · cases h
  · rename_i val fields1 hloop
    exact parseIPv4FieldsLoop_chars input s none 0 0 [] _ hloop

theorem hexLoop_chars (input : String) :
    ∀ (s : List Char) (off acc : Nat) (acc1 off1 : Nat) (rest : List Char),
      hexLoop input s off acc = .ok (acc1, off1, rest) →
      ∃ pre, s = pre ++ rest ∧ ∀ c ∈ pre, hexVal c ≠ none := by
  intro s
  induction s with
  | nil =>
    intro off acc acc1 off1 rest h
    simp only [hexLoop, Except.ok.injEq, Prod.mk.injEq] at h
    obtain ⟨_, _, rfl⟩ := h
    exact ⟨[], rfl, by simp⟩
  | cons c cs ih =>
    intro off acc acc1 off1 rest h
    rw [hexLoop] at h
    split at h
    · simp only [Except.ok.injEq, Prod.mk.injEq] at h
      obtain ⟨_, _, rfl⟩ := h
      exact ⟨[], rfl, by simp⟩
    · rename_i d hd
      dsimp only at h
      split at h
      · cases h
      · split at h
        · cases h
        · obtain ⟨pre, e, hpre⟩ := ih _ _ _ _ _ h
          refine ⟨c :: pre, by rw [e]; rfl, ?_⟩
          intro x hx
          simp only [List.mem_cons] at hx
          rcases hx with hx | hx
          · subst hx
            rw [hd]
            simp
          · exact hpre x hx

theorem AddrChar_of_hex (cs : List Char) (h : ∀ c ∈ cs, hexVal c ≠ none) :
    ∀ c ∈ cs, AddrChar c :=
  fun c hc => Or.inl (h c hc)

theorem parseIPv6Loop_chars (input : String) :
    ∀ (fuel : Nat) (ip : List Nat) (ell : Option Nat) (s : List Char)
      (ip1 : List Nat) (ell1 : Option Nat) (s1 : List Char),
      parseIPv6Loop input fuel ip ell s = .ok (ip1, ell1, s1) →
      ∃ pre, s = pre ++ s1 ∧ ∀ c ∈ pre, AddrChar c := by
  intro fuel
  induction fuel with
  | zero =>
    intro ip ell s ip1 ell1 s1 h
    simp only [parseIPv6Loop, Except.ok.injEq, Prod.mk.injEq] at h
    obtain ⟨_, _, rfl⟩ := h
    exact ⟨[], rfl, by simp⟩
  | succ f ih =>
    intro ip ell s ip1 ell1 s1 h
    rw [parseIPv6Loop] at h
    split at h
    · split at h
      · cases h
      · rename_i acc off rest hhex
        obtain ⟨pre, e, hpre⟩ := hexLoop_chars input s 0 0 acc off rest hhex
        have hpre' := AddrChar_of_hex pre hpre
        have hcolon : AddrChar ':' := Or.inr (Or.inr rfl)
        split at h
        · cases h
        · split at h
          · split at h
            · cases h
            · split at h
              · cases h
              · split at h
                · cases h
                · rename_i fields hf
                  simp only [Except.ok.injEq, Prod.mk.injEq] at h
                  obtain ⟨_, _, rfl⟩ := h
                  exact ⟨s, by simp, parseIPv4Fields_chars input s fields hf⟩
          · dsimp only at h
            split at h
            · simp only [Except.ok.injEq, Prod.mk.injEq] at h
              obtain ⟨_, _, rfl⟩ := h
              exact ⟨pre, e, hpre'⟩
            · rename_i c rest1
              split at h
              · cases h
              · rename_i hc
                simp only [ne_eq, Decidable.not_not] at hc
                subst hc
                split at h
                · cases h
                · rename_i c1 rest2
                  split at h
                  · rename_i hc1
                    subst hc1
                    split at h
                    · cases h
                    · split at h
                      · rename_i hr2
                        simp only [Except.ok.injEq, Prod.mk.injEq] at h
                        obtain ⟨_, _, rfl⟩ := h
                        subst hr2
                        refine ⟨s, by simp, ?_⟩
                        intro x hx
                        rw [e] at hx
                        simp only [List.mem_append, List.mem_cons, List.not_mem_nil,
                          or_false] at hx
                        rcases hx with hx | hx | hx
                        · exact hpre' x hx
                        · rw [hx]
                          exact hcolon
                        · rw [hx]
                          exact hcolon
                      · obtain ⟨pre2, e2, hpre2⟩ := ih _ _ _ _ _ _ h
                        refine ⟨pre ++ ':' :: ':' :: pre2, ?_, ?_⟩
                        · rw [e, e2]
                          simp
                        · intro x hx
                          simp only [List.mem_append, List.mem_cons] at hx
                          rcases hx with hx | hx | hx | hx
                          · exact hpre' x hx
                          · rw [hx]
                            exact hcolon
                          · rw [hx]
                            exact hcolon
                          · exact hpre2 x hx
                  · obtain ⟨pre2, e2, hpre2⟩ := ih _ _ _ _ _ _ h
                    refine ⟨pre ++ ':' :: pre2, ?_, ?_⟩
                    · rw [e, e2]
                      simp
                    · intro x hx
                      simp only [List.mem_append, List.mem_cons] at hx
                      rcases hx with hx | hx | hx
                      · exact hpre' x hx
                      · rw [hx]
                        exact hcolon
                      · exact hpre2 x hx
    · simp only [Except.ok.injEq, Prod.mk.injEq] at h
      obtain ⟨_, _, rfl⟩ := h
      exact ⟨[], rfl, by simp⟩

theorem parseIPv6Finish_nil (input : String) (zone : String) (ip : List Nat)
    (ell : Option Nat) (s : List Char) (a : Addr)
    (h : parseIPv6Finish input zone ip ell s = .ok a) : s = [] := by
  unfold parseIPv6Finish at h
  split at h
  · cases h
  · rename_i hs
    simpa using hs

theorem parseIPv6Rest_chars (input : String) (zone : String) (s : List Char) (a : Addr)
    (h : parseIPv6Rest input zone s = .ok a) : ∀ c ∈ s, AddrChar c := by
  have hcolon : AddrChar ':' := Or.inr (Or.inr rfl)
  unfold parseIPv6Rest at h
  split at h
  · rename_i ht
    have es : s = [':', ':'] ++ s.drop 2 := by
      rw [← ht]
      exact (List.take_append_drop 2 s).symm
    dsimp only at h
    have hhead : ∀ c ∈ [':', ':'], AddrChar c := by
      intro c hc
      simp only [List.mem_cons, List.not_mem_nil, or_false, or_self] at hc
      rw [hc]
      exact hcolon
    split at h
    · rename_i hd
      rw [es, hd]
      simpa using hhead
    · split at h
      · cases h
      · rename_i ip ell s2 hloop
        obtain ⟨pre, e, hpre⟩ := parseIPv6Loop_chars input 8 [] (some 0) _ ip ell s2 hloop
        have hnil := parseIPv6Finish_nil input zone ip ell s2 a h
        subst hnil
        rw [List.append_nil] at e
        intro c hc
        rw [es, e] at hc
        simp only [List.mem_append] at hc
        rcases hc with hc | hc
        · exact hhead c hc
        · exact hpre c hc
  · split at h
    · cases h
    · rename_i ip ell s2 hloop
      obtain ⟨pre, e, hpre⟩ := parseIPv6Loop_chars input 8 [] none _ ip ell s2 hloop
      have hnil := parseIPv6Finish_nil input zone ip ell s2 a h
      subst hnil
      rw [List.append_nil] at e
      rw [e]
      exact hpre

theorem parseIPv6_chars (input : String) (a : Addr) (h : parseIPv6 input = .ok a) :
    ∀ c ∈ input.data.take (input.data.indexOf '%'), AddrChar c := by
  unfold parseIPv6 at h
  dsimp only at h
  split at h
  · split at h
    · cases h
    · exact parseIPv6Rest_chars _ _ _ a h
  · rename_i hi
    rw [List.take_of_length_le (by omega)]
    exact parseIPv6Rest_chars _ _ _ a h

theorem parseIPv4_chars (input : String) (a : Addr) (h : parseIPv4 input = .ok a) :
    ∀ c ∈ input.data.take (input.data.indexOf '%'), AddrChar c := by
  unfold parseIPv4 at h
  split at h
  · cases h
  · rename_i fields hf
    intro c hc
    exact parseIPv4Fields_chars input _ fields hf c (List.mem_of_mem_take hc)

theorem ParseAddrScan_chars (input : String) (a : Addr) :
    ∀ cs, ParseAddrScan input cs = .ok a →
      ∀ c ∈ input.data.take (input.data.indexOf '%'), AddrChar c := by
  intro cs
  induction cs with
  | nil =>
    intro h
    simp [ParseAddrScan] at h
  | cons c cs ih =>
    intro h
    rw [ParseAddrScan] at h
    split at h
    · exact parseIPv4_chars input a h
    · split at h
      · exact parseIPv6_chars input a h
      · split at h
        · cases h
        · exact ih h

/-- `ParseAddr` is strict: in a string it accepts, every character before
the first `%` (every character when there is none) is a hexadecimal digit, a
dot or a colon. -/
theorem ParseAddr_chars (s : String) (a : Addr) (h : ParseAddr s = .ok a) :
    ∀ c ∈ s.data.take (s.data.indexOf '%'), AddrChar c :=
  ParseAddrScan_chars s a s.data h

end Ipisto

/-! ## net/netip against the grammar of address literals -/

namespace Ipisto

theorem char_eq_of_toNat (c : Char) (n : Nat) (h : c.toNat = n) : c = Char.ofNat n := by
  rw [← h, Char.ofNat_toNat]

theorem char_le_iff (a b : Char) : a ≤ b ↔ a.toNat ≤ b.toNat := by
  rw [Char.le_def]
  exact Iff.rfl

/-- The character test of the parser agrees with the table of hexadecimal
digits. -/
theorem hexVal_eq_lookup (c : Char) : hexVal c = hexDigits.lookup c := by
  unfold hexVal
  simp only [char_le_iff]
  have e0 : ('0' : Char).toNat = 48 := rfl
  have e9 : ('9' : Char).toNat = 57 := rfl
  have ea : ('a' : Char).toNat = 97 := rfl
  have ef : ('f' : Char).toNat = 102 := rfl
  have eA : ('A' : Char).toNat = 65 := rfl
  have eF : ('F' : Char).toNat = 70 := rfl
  rw [e0, e9, ea, ef, eA, eF]
  obtain ⟨n, hn⟩ : ∃ n, c.toNat = n := ⟨_, rfl⟩
  have hc := char_eq_of_toNat c n hn
  rw [hn]
  by_cases h1 : 48 ≤ n ∧ n ≤ 57
  · obtain ⟨ha, hb⟩ := h1
    subst hc
    interval_cases n <;> rfl
  · by_cases h2 : 97 ≤ n ∧ n ≤ 102
    · obtain ⟨ha, hb⟩ := h2
      subst hc
      interval_cases n <;> rfl
    · by_cases h3 : 65 ≤ n ∧ n ≤ 70
      · obtain ⟨ha, hb⟩ := h3
        subst hc
        interval_cases n <;> rfl
      · simp only [h1, h2, h3, if_false]
        symm
        rw [List.lookup_eq_none_iff]
        intro p hp
        have hne : c ≠ p.1 := by
          intro h
          have hp1 : p.1.toNat = n := by rw [← h, hn]
          simp only [hexDigits, List.mem_cons, List.mem_singleton, List.not_mem_nil,
            or_false] at hp
          rcases hp with h | h | h | h | h | h | h | h | h | h | h | h | h | h | h | h | h | h
            | h | h | h | h <;>
            (rw [h] at hp1
             subst hp1
             first
               | exact h1 (by decide)
               | exact h2 (by decide)
               | exact h3 (by decide))
        simpa using hne

/-- The digit test of the IPv4 parser agrees with the table of decimal
digits. -/
theorem decimal_iff_lookup (c : Char) :
    (('0' ≤ c ∧ c ≤ '9') → decDigits.lookup c = some (c.toNat - '0'.toNat))
      ∧ (¬ ('0' ≤ c ∧ c ≤ '9') → decDigits.lookup c = none) := by
  simp only [char_le_iff]
  have e0 : ('0' : Char).toNat = 48 := rfl
  have e9 : ('9' : Char).toNat = 57 := rfl
  rw [e0, e9]
  obtain ⟨n, hn⟩ : ∃ n, c.toNat = n := ⟨_, rfl⟩
  have hc := char_eq_of_toNat c n hn
  rw [hn]
  constructor
  · rintro ⟨ha, hb⟩
    subst hc
    interval_cases n <;> rfl
  · intro h1
    rw [List.lookup_eq_none_iff]
    intro p hp
    have hne : c ≠ p.1 := by
      intro h
      have hp1 : p.1.toNat = n := by rw [← h, hn]
      simp only [decDigits, List.mem_cons, List.mem_singleton, List.not_mem_nil,
        or_false] at hp
      rcases hp with h | h | h | h | h | h | h | h | h | h <;>
        (rw [h] at hp1
         subst hp1
         exact h1 (by decide))
    simpa using hne

theorem lookup_mem (l : List (Char × Nat)) (c : Char) (d : Nat)
    (h : l.lookup c = some d) : (c, d) ∈ l := by
  induction l with
  | nil => simp at h
  | cons p ps ih =>
    obtain ⟨k, v⟩ := p
    rw [List.lookup_cons] at h
    by_cases hk : c = k
    · subst hk
      simp only [beq_self_eq_true, Option.some.injEq] at h
      subst h
      exact List.mem_cons_self _ _
    · have hb : (c == k) = false := by simpa using hk
      simp only [hb] at h
      exact List.mem_cons_of_mem _ (ih h)

theorem hexDigits_lt (c : Char) (d : Nat) (h : hexDigits.lookup c = some d) : d < 16 := by
  have hm := lookup_mem _ c d h
  simp only [hexDigits, List.mem_cons, List.mem_singleton, List.not_mem_nil, or_false,
    Prod.mk.injEq] at hm
  omega

/-- A decimal digit is a hexadecimal digit of the same value, below ten, and
passes the digit test of the IPv4 parser. -/
theorem decDigits_spec (c : Char) (d : Nat) (h : decDigits.lookup c = some d) :
    d < 10 ∧ hexDigits.lookup c = some d ∧ ('0' ≤ c ∧ c ≤ '9') ∧ c.toNat - '0'.toNat = d
      ∧ (d = 0 → c = '0') ∧ c ≠ '.' ∧ c ≠ ':' := by
  have hm := lookup_mem _ c d h
  simp only [decDigits, List.mem_cons, List.mem_singleton, List.not_mem_nil, or_false,
    Prod.mk.injEq] at hm
  rcases hm with h | h | h | h | h | h | h | h | h | h <;>
    (obtain ⟨rfl, rfl⟩ := h
     decide)

theorem number_ge (table : List (Char × Nat)) (base : Nat) (hb : 1 ≤ base) :
    ∀ (cs : List Char) (acc v : Nat), number table base acc cs = some v → acc ≤ v := by
  intro cs
  induction cs with
  | nil =>
    intro acc v h
    simp only [number, Option.some.injEq] at h
    omega
  | cons c cs ih =>
    intro acc v h
    rw [number] at h
    split at h
    · cases h
    · rename_i d hd
      have h1 := ih _ _ h
      have h2 : acc ≤ acc * base := Nat.le_mul_of_pos_right acc hb
      omega

/-- A text of decimal digits is a text of hexadecimal digits. -/
theorem number_dec_hex :
    ∀ (cs : List Char) (acc v : Nat), number decDigits 10 acc cs = some v →
      ∀ acc1, ∃ w, number hexDigits 16 acc1 cs = some w := by
  intro cs
  induction cs with
  | nil =>
    intro acc v _ acc1
    exact ⟨acc1, rfl⟩
  | cons c cs ih =>
    intro acc v h acc1
    rw [number] at h
    split at h
    · cases h
    · rename_i d hd
      obtain ⟨_, hh, _⟩ := decDigits_spec c d hd
      obtain ⟨w, hw⟩ := ih _ _ h (acc1 * 16 + d)
      exact ⟨w, by rw [number, hh]; exact hw⟩

/-- The hexadecimal scan of `parseIPv6` reads a text of at most four
hexadecimal digits as the number it denotes. -/
theorem hexLoop_number (input : String) (rest : List Char) (hrest : HexStop rest) :
    ∀ (g : List Char) (off acc v : Nat), number hexDigits 16 acc g = some v →
      off + g.length ≤ 4 → acc < 16 ^ off →
      hexLoop input (g ++ rest) off acc = .ok (v, off + g.length, rest) ∧ v < 65536 := by
  intro g
  induction g with
  | nil =>
    intro off acc v h hlen hacc
    simp only [number, Option.some.injEq] at h
    subst h
    refine ⟨by simpa using hexLoop_stop input rest off acc hrest, ?_⟩
    have : off ≤ 4 := by simpa using hlen
    interval_cases off <;> omega
  | cons c cs ih =>
    intro off acc v h hlen hacc
    rw [number] at h
    split at h
    · cases h
    · rename_i d hd
      have hd16 := hexDigits_lt c d hd
      have hv : hexVal c = some d := by rw [hexVal_eq_lookup, hd]
      simp only [List.length_cons] at hlen
      have hoff : off ≤ 3 := by omega
      have hacc2 : acc * 16 + d < 16 ^ (off + 1) := by
        rw [Nat.pow_succ]
        omega
      have hacc3 : acc * 16 + d ≤ 65535 := by
        interval_cases off <;> omega
      obtain ⟨h1, h2⟩ := ih (off + 1) (acc * 16 + d) v h (by omega) hacc2
      refine ⟨?_, h2⟩
      have e : off + 1 + cs.length = off + (c :: cs).length := by
        simp only [List.length_cons]
        omega
      rw [List.cons_append, hexLoop_step input c _ off acc d hv hoff hacc3, h1, e]

theorem hexLoop_group (input : String) (g : List Char) (v : Nat) (rest : List Char)
    (hg : IsGroup g v) (hrest : HexStop rest) :
    ∃ off, 0 < off ∧ hexLoop input (g ++ rest) 0 0 = .ok (v, off, rest) ∧ v < 65536 := by
  obtain ⟨h1, h2, h3⟩ := hg
  obtain ⟨e, hv⟩ := hexLoop_number input rest hrest g 0 0 v h3 (by omega) (by decide)
  refine ⟨0 + g.length, ?_, e, hv⟩
  cases g with
  | nil => exact absurd rfl h1
  | cons c cs => simp

theorem number_chars (table : List (Char × Nat)) (base : Nat) :
    ∀ (cs : List Char) (acc v : Nat), number table base acc cs = some v →
      ∀ c ∈ cs, table.lookup c ≠ none := by
  intro cs
  induction cs with
  | nil =>
    intro acc v _ c hc
    simp at hc
  | cons x xs ih =>
    intro acc v h c hc
    rw [number] at h
    split at h
    · cases h
    · rename_i d hd
      simp only [List.mem_cons] at hc
      rcases hc with hc | hc
      · rw [hc, hd]
        simp
      · exact ih _ _ h c hc

theorem IsGroup_hex (g : List Char) (v : Nat) (hg : IsGroup g v) :
    ∀ c ∈ g, hexVal c ≠ none := by
  intro c hc
  rw [hexVal_eq_lookup]
  exact number_chars _ _ g 0 v hg.2.2 c hc

theorem IsOctet_hex (o : List Char) (v : Nat) (ho : IsOctet o v) :
    ∀ c ∈ o, hexVal c ≠ none := by
  intro c hc
  have h1 := number_chars _ _ o 0 v ho.2.2.1 c hc
  cases hd : decDigits.lookup c with
  | none => exact absurd hd h1
  | some d =>
    rw [hexVal_eq_lookup, (decDigits_spec c d hd).2.1]
    simp

theorem hex_ne_special (c : Char) (h : hexVal c ≠ none) : c ≠ ':' ∧ c ≠ '.' ∧ c ≠ '%' := by
  refine ⟨?_, ?_, ?_⟩ <;>
    (intro hc
     exact h (by rw [hc]; decide))

theorem IsGroup_cons (g : List Char) (v : Nat) (hg : IsGroup g v) :
    ∃ c cs, g = c :: cs ∧ c ≠ ':' := by
  cases g with
  | nil => exact absurd rfl hg.1
  | cons c cs =>
    exact ⟨c, cs, rfl, (hex_ne_special c (IsGroup_hex (c :: cs) v hg c (by simp))).1⟩

theorem IsOctet_cons (o : List Char) (v : Nat) (ho : IsOctet o v) :
    ∃ c cs, o = c :: cs ∧ c ≠ ':' := by
  cases o with
  | nil => exact absurd rfl ho.1
  | cons c cs =>
    exact ⟨c, cs, rfl, (hex_ne_special c (IsOctet_hex (c :: cs) v ho c (by simp))).1⟩

theorem DottedOctets_cons (t : List Char) (vs : List Nat) (h : DottedOctets t vs) :
    (∃ c cs, t = c :: cs ∧ c ≠ ':') ∧ vs ≠ [] ∧ ∀ v ∈ vs, v ≤ 255 := by
  induction h with
  | one o v ho =>
    refine ⟨IsOctet_cons o v ho, by simp, ?_⟩
    intro x hx
    simp only [List.mem_singleton] at hx
    rw [hx]
    exact ho.2.2.2
  | cons o v rest vs ho _ ih =>
    obtain ⟨c, cs, e, hc⟩ := IsOctet_cons o v ho
    refine ⟨⟨c, cs ++ '.' :: rest, by rw [e]; rfl, hc⟩, by simp, ?_⟩
    intro x hx
    simp only [List.mem_cons] at hx
    rcases hx with hx | hx
    · rw [hx]
      exact ho.2.2.2
    · exact ih.2.2 x hx

theorem Groups_cons (t : List Char) (bs : List Nat) (h : Groups t bs) :
    ∃ c cs, t = c :: cs ∧ c ≠ ':' := by
  induction h with
  | one g v hg => exact IsGroup_cons g v hg
  | v4 t bs hd _ => exact (DottedOctets_cons t bs hd).1
  | cons g v rest bs hg _ _ =>
    obtain ⟨c, cs, e, hc⟩ := IsGroup_cons g v hg
    exact ⟨c, cs ++ ':' :: rest, by rw [e]; rfl, hc⟩

theorem HexGroups_cons (t : List Char) (bs : List Nat) (h : HexGroups t bs) :
    ∃ c cs, t = c :: cs ∧ c ≠ ':' := by
  induction h with
  | one g v hg => exact IsGroup_cons g v hg
  | cons g v rest bs hg _ _ =>
    obtain ⟨c, cs, e, hc⟩ := IsGroup_cons g v hg
    exact ⟨c, cs ++ ':' :: rest, by rw [e]; rfl, hc⟩

/-- One digit of an octet in the loop of `parseIPv4Fields`. -/
theorem v4_step (input : String) (c : Char) (rest : List Char) (prev : Option Char)
    (val digLen d : Nat) (fields : List Nat) (hd : decDigits.lookup c = some d)
    (hlz : ¬ (digLen = 1 ∧ val = 0)) (hv : val * 10 + d ≤ 255) :
    parseIPv4FieldsLoop input (c :: rest) prev val digLen fields
      = parseIPv4FieldsLoop input rest (some c) (val * 10 + d) (digLen + 1) fields := by
  obtain ⟨_, _, h1, h2, _⟩ := decDigits_spec c d hd
  have h3 : val * 10 + c.toNat - '0'.toNat = val * 10 + d := by
    have : '0'.toNat ≤ c.toNat := (char_le_iff _ _).mp h1.1
    omega
  have h4 : ¬ val * 10 + d > 255 := by omega
  rw [parseIPv4FieldsLoop]
  simp only [h1, and_self, if_true, hlz, if_false, h3, h4]

/-- The dot after an octet in the loop of `parseIPv4Fields`. -/
theorem v4_dot (input : String) (rest : List Char) (p : Char)
    (val digLen : Nat) (fields : List Nat) (hp : p ≠ '.') (hrest : rest ≠ [])
    (hf : fields.length < 3) (hval : val < 256) :
    parseIPv4FieldsLoop input ('.' :: rest) (some p) val digLen fields
      = parseIPv4FieldsLoop input rest (some '.') 0 0 (fields ++ [val]) := by
  have h1 : ¬ ('0' ≤ '.' ∧ '.' ≤ '9') := by decide
  have h2 : ¬ fields.length = 3 := by omega
  rw [parseIPv4FieldsLoop]
  simp only [h1, if_false, if_true, hrest, h2, reduceCtorEq, Option.some.injEq, hp, or_self,
    Nat.mod_eq_of_lt hval]

/-- The loop of `parseIPv4Fields` reads an octet as the number it denotes. -/
theorem v4_octet (input : String) (rest : List Char) (fields : List Nat) (v : Nat)
    (hv : v ≤ 255) :
    ∀ (o : List Char) (prev : Option Char) (val digLen : Nat), o ≠ [] →
      number decDigits 10 val o = some v →
      (digLen = 0 → val = 0 ∧ (o.length > 1 → o.head? ≠ some '0')) →
      (digLen = 1 → val ≠ 0) →
      ∃ p n, p ≠ '.' ∧ parseIPv4FieldsLoop input (o ++ rest) prev val digLen fields
        = parseIPv4FieldsLoop input rest (some p) v n fields := by
  intro o
  induction o with
  | nil =>
    intro prev val digLen hne
    exact absurd rfl hne
  | cons c cs ih =>
    intro prev val digLen _ hnum h0 h1
    rw [number] at hnum
    split at hnum
    · cases hnum
    · rename_i d hd
      obtain ⟨_, _, _, _, hz, hdot, _⟩ := decDigits_spec c d hd
      have hge := number_ge decDigits 10 (by omega) cs _ v hnum
      have hlz : ¬ (digLen = 1 ∧ val = 0) := by
        intro h
        exact h1 h.1 h.2
      rw [List.cons_append, v4_step input c _ prev val digLen d fields hd hlz (by omega)]
      cases hcs : cs with
      | nil =>
        rw [hcs] at hnum
        simp only [number, Option.some.injEq] at hnum
        subst hnum
        exact ⟨c, digLen + 1, hdot, rfl⟩
      | cons x xs =>
        rw [← hcs]
        apply ih (some c) (val * 10 + d) (digLen + 1) (by rw [hcs]; simp) hnum
        · intro h
          omega
        · intro h
          have hd0 : digLen = 0 := by omega
          obtain ⟨hv0, hhead⟩ := h0 hd0
          have hc0 : c ≠ '0' := by
            intro hc
            apply hhead
            · rw [hcs]
              simp
            · rw [hc]
              rfl
          intro hzero
          have : d = 0 := by omega
          exact hc0 (hz this)

/-- The loop of `parseIPv4Fields` reads octets separated by dots. -/
theorem v4_dottedOctets (input : String) (t : List Char) (vs : List Nat)
    (h : DottedOctets t vs) :
    ∀ (prev : Option Char) (fields : List Nat), fields.length + vs.length ≤ 4 →
      ∃ init last, vs = init ++ [last] ∧ last ≤ 255
        ∧ parseIPv4FieldsLoop input t prev 0 0 fields = .ok (last, fields ++ init) := by
  induction h with
  | one o v ho =>
    intro prev fields _
    obtain ⟨h1, h2, h3, h4⟩ := ho
    obtain ⟨p, n, _, e⟩ := v4_octet input [] fields v h4 o prev 0 0 h1 h3
      (fun _ => ⟨rfl, h2⟩) (fun h => by omega)
    rw [List.append_nil] at e
    refine ⟨[], v, rfl, h4, ?_⟩
    rw [e, parseIPv4FieldsLoop, List.append_nil]
  | cons o v rest vs ho hrest ih =>
    intro prev fields hlen
    obtain ⟨h1, h2, h3, h4⟩ := ho
    obtain ⟨⟨c, cs, ec, _⟩, hvs, _⟩ := DottedOctets_cons rest vs hrest
    have hvl : 1 ≤ vs.length := by
      cases vs with
      | nil => exact absurd rfl hvs
      | cons x xs => simp
    simp only [List.length_cons] at hlen
    obtain ⟨p, n, hp, e⟩ := v4_octet input ('.' :: rest) fields v h4 o prev 0 0 h1 h3
      (fun _ => ⟨rfl, h2⟩) (fun h => by omega)
    obtain ⟨init, last, e1, e2, e3⟩ := ih (some '.') (fields ++ [v])
      (by simp only [List.length_append, List.length_cons, List.length_nil]; omega)
    refine ⟨v :: init, last, by rw [e1]; rfl, e2, ?_⟩
    rw [e, v4_dot input rest p v n fields hp (by rw [ec]; simp) (by omega) (by omega), e3]
    simp

/-- `parseIPv4Fields` reads a dotted IPv4 address as its four bytes. -/
theorem parseIPv4Fields_literal (input : String) (t : List Char) (vs : List Nat)
    (h : DottedOctets t vs) (hlen : vs.length = 4) :
    parseIPv4Fields input t = .ok vs := by
  obtain ⟨init, last, e1, e2, e3⟩ := v4_dottedOctets input t vs h none [] (by simp [hlen])
  have hi : init.length = 3 := by
    rw [e1] at hlen
    simp only [List.length_append, List.length_cons, List.length_nil] at hlen
    omega
  unfold parseIPv4Fields
  rw [e3]
  simp only [List.nil_append, hi, Nat.lt_irrefl, if_false, Nat.mod_eq_of_lt (show last < 256 by omega),
    e1]

theorem number_lower (table : List (Char × Nat)) (base : Nat) :
    ∀ (cs : List Char) (acc v : Nat), number table base acc cs = some v →
      acc * base ^ cs.length ≤ v := by
  intro cs
  induction cs with
  | nil =>
    intro acc v h
    simp only [number, Option.some.injEq] at h
    simp [h]
  | cons c cs ih =>
    intro acc v h
    rw [number] at h
    split at h
    · cases h
    · rename_i d hd
      have h1 := ih _ _ h
      have h2 : acc * base ^ (c :: cs).length = (acc * base) * base ^ cs.length := by
        rw [List.length_cons, Nat.pow_succ, Nat.mul_assoc, Nat.mul_comm (base ^ cs.length) base]
      have h3 : (acc * base) * base ^ cs.length ≤ (acc * base + d) * base ^ cs.length :=
        Nat.mul_le_mul_right _ (by omega)
      omega

/-- An octet has at most three digits. -/
theorem IsOctet_length (o : List Char) (v : Nat) (ho : IsOctet o v) : o.length ≤ 3 := by
  obtain ⟨h1, h2, h3, h4⟩ := ho
  cases o with
  | nil => simp
  | cons c cs =>
    by_cases hl : cs.length ≤ 2
    · simp only [List.length_cons]
      omega
    · exfalso
      rw [number] at h3
      split at h3
      · cases h3
      · rename_i d hd
        obtain ⟨_, _, _, _, hz, _⟩ := decDigits_spec c d hd
        have hc0 : c ≠ '0' := by
          intro hc
          apply h2
          · simp only [List.length_cons]
            omega
          · rw [hc]
            rfl
        have hd1 : 1 ≤ d := by
          rcases Nat.eq_zero_or_pos d with h | h
          · exact absurd (hz h) hc0
          · exact h
        have hlow := number_lower _ _ cs _ v h3
        have hp : 10 ^ 3 ≤ 10 ^ cs.length := Nat.pow_le_pow_right (by omega) (by omega)
        have hm : 1 * 10 ^ cs.length ≤ (0 * 10 + d) * 10 ^ cs.length :=
          Nat.mul_le_mul_right _ (by omega)
        omega

theorem group_bytes (v : Nat) (hv : v < 65536) : (v >>> 8) % 256 = v / 256 := by
  rw [shr8]
  exact Nat.mod_eq_of_lt (by omega)

/-- One turn of the loop of `parseIPv6` on the last group of the text. -/
theorem loopG_last (input : String) (fuel : Nat) (ip : List Nat) (ell : Option Nat)
    (g : List Char) (v : Nat) (hg : IsGroup g v) (hlen : ip.length < 16) :
    parseIPv6Loop input (fuel + 1) ip ell g = .ok (ip ++ [v / 256, v % 256], ell, []) := by
  obtain ⟨off, hoff, e, hv⟩ := hexLoop_group input g v [] hg HexStop_nil
  rw [List.append_nil] at e
  have h0 : ¬ off = 0 := by omega
  rw [parseIPv6Loop]
  simp only [hlen, if_true, e, h0, if_false, List.head?_nil, reduceCtorEq, group_bytes v hv]

/-- One turn of the loop of `parseIPv6` on a group followed by a colon and
the first character of the next group. -/
theorem loopG_next (input : String) (fuel : Nat) (ip : List Nat) (ell : Option Nat)
    (g : List Char) (v : Nat) (c1 : Char) (rest2 : List Char)
    (hg : IsGroup g v) (hlen : ip.length < 16) (hc1 : c1 ≠ ':') :
    parseIPv6Loop input (fuel + 1) ip ell (g ++ ':' :: c1 :: rest2)
      = parseIPv6Loop input fuel (ip ++ [v / 256, v % 256]) ell (c1 :: rest2) := by
  obtain ⟨off, hoff, e, hv⟩ := hexLoop_group input g v (':' :: c1 :: rest2) hg (HexStop_colon _)
  have h0 : ¬ off = 0 := by omega
  have hd : ¬ (':' : Char) = '.' := by decide
  rw [parseIPv6Loop]
  simp only [hlen, if_true, e, h0, if_false, List.head?_cons, Option.some.injEq, hd, ne_eq,
    not_true_eq_false, hc1, group_bytes v hv]

/-- One turn of the loop of `parseIPv6` on a group followed by `::`. -/
theorem loopG_ellipsis (input : String) (fuel : Nat) (ip : List Nat)
    (g : List Char) (v : Nat) (rest2 : List Char) (hg : IsGroup g v) (hlen : ip.length < 16) :
    parseIPv6Loop input (fuel + 1) ip none (g ++ ':' :: ':' :: rest2)
      = if rest2 = [] then
          .ok (ip ++ [v / 256, v % 256], some (ip.length + 2), [])
        else parseIPv6Loop input fuel (ip ++ [v / 256, v % 256]) (some (ip.length + 2)) rest2 := by
  obtain ⟨off, hoff, e, hv⟩ := hexLoop_group input g v (':' :: ':' :: rest2) hg (HexStop_colon _)
  have h0 : ¬ off = 0 := by omega
  have hd : ¬ (':' : Char) = '.' := by decide
  rw [parseIPv6Loop]
  simp only [hlen, if_true, e, h0, if_false, List.head?_cons, Option.some.injEq, hd, ne_eq,
    not_true_eq_false, List.length_append, List.length_cons, List.length_nil,
    group_bytes v hv]

/-- One turn of the loop of `parseIPv6` on a trailing dotted IPv4 address. -/
theorem loopG_dotted (input : String) (fuel : Nat) (ip : List Nat) (ell : Option Nat)
    (t : List Char) (bs : List Nat) (hd : DottedOctets t bs) (h4 : bs.length = 4)
    (hlen : ip.length + 4 ≤ 16) (hell : ell = none → ip.length = 12) :
    parseIPv6Loop input (fuel + 1) ip ell t = .ok (ip ++ bs, ell, []) := by
  have e4 := parseIPv4Fields_literal input t bs hd h4
  have hhex : ∃ acc off rest, 0 < off
      ∧ hexLoop input t 0 0 = .ok (acc, off, '.' :: rest) := by
    induction hd with
    | one o v ho => simp at h4
    | cons o v rest vs ho hrest _ =>
      obtain ⟨w, hw⟩ := number_dec_hex o 0 v ho.2.2.1 0
      have hl := IsOctet_length o v ho
      obtain ⟨e, _⟩ := hexLoop_number input ('.' :: rest) (HexStop_dot rest) o 0 0 w hw
        (by omega) (by decide)
      refine ⟨w, 0 + o.length, rest, ?_, e⟩
      obtain ⟨c, cs, ec, _⟩ := IsOctet_cons o v ho
      rw [ec]
      simp
  obtain ⟨acc, off, rest, hoff, eh⟩ := hhex
  have h0 : ¬ off = 0 := by omega
  have h1 : ip.length < 16 := by omega
  have h2 : ¬ ip.length + 4 > 16 := by omega
  have h3 : ¬ (ell = none ∧ ip.length ≠ 12) := by
    intro h
    exact h.2 (hell h.1)
  rw [parseIPv6Loop]
  simp only [h1, if_true, eh, h0, if_false, List.head?_cons, h3, h2, e4]

/-- The loop of `parseIPv6` reads groups separated by colons, with or without
a trailing dotted IPv4 address. -/
theorem loop_Groups (input : String) (t : List Char) (bs : List Nat) (h : Groups t bs) :
    ∀ (fuel : Nat) (ip : List Nat) (ell : Option Nat), bs.length ≤ 2 * fuel →
      ip.length + bs.length ≤ 16 → (ell = none → ip.length + bs.length = 16) →
      parseIPv6Loop input fuel ip ell t = .ok (ip ++ bs, ell, []) := by
  induction h with
  | one g v hg =>
    intro fuel ip ell hfuel hlen _
    simp only [List.length_cons, List.length_nil] at hfuel hlen
    obtain ⟨f, rfl⟩ : ∃ f, fuel = f + 1 := ⟨fuel - 1, by omega⟩
    exact loopG_last input f ip ell g v hg (by omega)
  | v4 t bs hd h4 =>
    intro fuel ip ell hfuel hlen hell
    obtain ⟨f, rfl⟩ : ∃ f, fuel = f + 1 := ⟨fuel - 1, by omega⟩
    exact loopG_dotted input f ip ell t bs hd h4 (by omega) (fun h => by have := hell h; omega)
  | cons g v rest bs hg hrest ih =>
    intro fuel ip ell hfuel hlen hell
    simp only [List.length_cons] at hfuel hlen hell
    obtain ⟨f, rfl⟩ : ∃ f, fuel = f + 1 := ⟨fuel - 1, by omega⟩
    obtain ⟨c1, cs, e, hc1⟩ := Groups_cons rest bs hrest
    rw [e, loopG_next input f ip ell g v c1 cs hg (by omega) hc1, ← e]
    rw [ih f _ ell (by omega)
      (by simp only [List.length_append, List.length_cons, List.length_nil]; omega)
      (fun h => by
        have := hell h
        simp only [List.length_append, List.length_cons, List.length_nil]
        omega)]
    simp

theorem HexGroups_Groups (t : List Char) (bs : List Nat) (h : HexGroups t bs) :
    Groups t bs := by
  induction h with
  | one g v hg => exact Groups.one g v hg
  | cons g v rest bs hg _ ih => exact Groups.cons g v rest bs hg ih

/-- The loop of `parseIPv6` reads groups, then `::`, then groups. -/
theorem loop_HexGroups_ellipsis (input : String) (pre : List Char) (bp : List Nat)
    (suf : List Char) (bs : List Nat) (h : HexGroups pre bp)
    (hsuf : (suf = [] ∧ bs = []) ∨ Groups suf bs) :
    ∀ (fuel : Nat) (ip : List Nat), bp.length + bs.length ≤ 2 * fuel →
      ip.length + bp.length + bs.length ≤ 16 →
      parseIPv6Loop input fuel ip none (pre ++ ':' :: ':' :: suf)
        = .ok (ip ++ bp ++ bs, some (ip.length + bp.length), []) := by
  induction h with
  | one g v hg =>
    intro fuel ip hfuel hlen
    simp only [List.length_cons, List.length_nil] at hfuel hlen
    obtain ⟨f, rfl⟩ : ∃ f, fuel = f + 1 := ⟨fuel - 1, by omega⟩
    rw [loopG_ellipsis input f ip g v suf hg (by omega)]
    rcases hsuf with ⟨rfl, rfl⟩ | hs
    · simp
    · obtain ⟨c, cs, e, _⟩ := Groups_cons suf bs hs
      have hne : suf ≠ [] := by rw [e]; simp
      rw [if_neg hne]
      rw [loop_Groups input suf bs hs f _ _ (by omega)
        (by simp only [List.length_append, List.length_cons, List.length_nil]; omega)
        (fun h => by cases h)]
      simp
  | cons g v rest bp hg hrest ih =>
    intro fuel ip hfuel hlen
    simp only [List.length_cons] at hfuel hlen
    obtain ⟨f, rfl⟩ : ∃ f, fuel = f + 1 := ⟨fuel - 1, by omega⟩
    obtain ⟨c1, cs, e, hc1⟩ := HexGroups_cons rest bp hrest
    have e2 : g ++ ':' :: rest ++ ':' :: ':' :: suf
        = g ++ ':' :: c1 :: (cs ++ ':' :: ':' :: suf) := by
      rw [e]
      simp
    rw [e2, loopG_next input f ip none g v c1 _ hg (by omega) hc1]
    have e3 : c1 :: (cs ++ ':' :: ':' :: suf) = rest ++ ':' :: ':' :: suf := by
      rw [e]
      rfl
    rw [e3, ih f _ (by omega)
      (by simp only [List.length_append, List.length_cons, List.length_nil]; omega)]
    simp only [List.length_append, List.length_cons, List.length_nil, List.append_assoc,
      List.cons_append, List.nil_append]
    have e4 : ip.length + (0 + 1 + 1) + bp.length = ip.length + (bp.length + 1 + 1) := by omega
    rw [e4]

/-- `parseIPv6`, after the split of the zone, reads the text of an IPv6
address as its sixteen bytes. -/
theorem parseIPv6Rest_literal (input : String) (zone : String) (text : List Char)
    (bytes : List Nat) (h : IsIPv6Text text bytes) :
    parseIPv6Rest input zone text = .ok ⟨bytes, zoneOf zone⟩ := by
  rcases h with ⟨hg, hlen⟩ | ⟨pre, suf, bp, bs, rfl, hpre, hsuf, hlt, rfl⟩
  · obtain ⟨c, cs, e, hc⟩ := Groups_cons text bytes hg
    have ht : ¬ text.take 2 = [':', ':'] := by
      rw [e]
      exact take2_ne c cs hc
    unfold parseIPv6Rest
    simp only [ht, if_false]
    rw [loop_Groups input text bytes hg 8 [] none (by omega) (by simp; omega)
      (fun _ => by simp; omega)]
    unfold parseIPv6Finish
    simp [hlen, WithZone_AddrFrom16]
  · rcases hpre with ⟨rfl, rfl⟩ | hpre
    · unfold parseIPv6Rest
      simp only [List.nil_append, List.take_succ_cons, List.take_zero, if_true,
        List.drop_succ_cons, List.drop_zero]
      rcases hsuf with ⟨rfl, rfl⟩ | hs
      · simp [IPv6Unspecified, WithZone_AddrFrom16]
      · obtain ⟨c, cs, e, _⟩ := Groups_cons suf bs hs
        have hne : suf ≠ [] := by rw [e]; simp
        simp only [List.length_nil, Nat.zero_add] at hlt
        simp only [hne, if_false]
        rw [loop_Groups input suf bs hs 8 [] (some 0) (by omega) (by simp; omega)
          (fun h => by cases h)]
        unfold parseIPv6Finish
        simp [hlt, WithZone_AddrFrom16]
    · obtain ⟨c, cs, e, hc⟩ := HexGroups_cons pre bp hpre
      have ht : ¬ (pre ++ ':' :: ':' :: suf).take 2 = [':', ':'] := by
        rw [e]
        exact take2_ne c _ hc
      unfold parseIPv6Rest
      simp only [ht, if_false]
      rw [loop_HexGroups_ellipsis input pre bp suf bs hpre hsuf 8 [] (by omega)
        (by simp; omega)]
      unfold parseIPv6Finish
      have hl : ([] ++ bp ++ bs).length < 16 := by simpa using hlt
      simp only [ne_eq, not_true_eq_false, if_false, hl, if_true, List.nil_append,
        List.length_nil, Nat.zero_add, WithZone_AddrFrom16, List.length_append,
        List.take_left', List.drop_left', hlt]

/-- The text of an IPv6 address has a colon after leading hexadecimal digits
only. -/
theorem IsIPv6Text_colon (text : List Char) (bytes : List Nat) (h : IsIPv6Text text bytes) :
    ∃ pre rest, (∀ c ∈ pre, hexVal c ≠ none) ∧ text = pre ++ ':' :: rest := by
  rcases h with ⟨hg, hlen⟩ | ⟨pre, suf, bp, bs, rfl, hpre, _, _, _⟩
  · induction hg with
    | one g v hg => simp at hlen
    | v4 t bs hd h4 => omega
    | cons g v rest bs hg _ _ => exact ⟨g, rest, IsGroup_hex g v hg, rfl⟩
  · rcases hpre with ⟨rfl, rfl⟩ | hpre
    · exact ⟨[], ':' :: suf, by simp, rfl⟩
    · induction hpre with
      | one g v hg => exact ⟨g, ':' :: suf, IsGroup_hex g v hg, rfl⟩
      | cons g v rest bp hg _ _ =>
        exact ⟨g, rest ++ ':' :: ':' :: suf, IsGroup_hex g v hg, by simp⟩

theorem DottedOctets_dot (t : List Char) (bs : List Nat) (h : DottedOctets t bs)
    (h4 : bs.length = 4) :
    ∃ pre rest, (∀ c ∈ pre, hexVal c ≠ none) ∧ t = pre ++ '.' :: rest := by
  induction h with
  | one o v ho => simp at h4
  | cons o v rest vs ho _ _ => exact ⟨o, rest, IsOctet_hex o v ho, rfl⟩

/-- `ParseAddr` accepts every address literal and returns the address it
denotes. -/
theorem ParseAddr_complete (s : String) (ip : Addr) (h : Literal s ip) :
    ParseAddr s = .ok ip := by
  obtain ⟨data⟩ := s
  rcases h with ⟨bs, hd, h4, rfl⟩ | ⟨text, zone, bytes, hdata, hpct, htext, rfl⟩
  · simp only at hd
    obtain ⟨pre, rest, hpre, e⟩ := DottedOctets_dot data bs hd h4
    unfold ParseAddr
    simp only []
    conv =>
      lhs
      arg 2
      rw [e]
    rw [scan_dot _ pre rest hpre]
    unfold parseIPv4
    simp only [parseIPv4Fields_literal _ data bs hd h4]
    rfl
  · simp only at hdata
    have hz : (if zone = "" then [] else '%' :: zone.data) = zoneSuffix zone := rfl
    have hzo : (if zone = "" then Zone.z6noz else Zone.z6 zone) = zoneOf zone := rfl
    rw [hz] at hdata
    rw [hzo]
    subst hdata
    obtain ⟨pre, rest, hpre, e⟩ := IsIPv6Text_colon text bytes htext
    unfold ParseAddr
    simp only []
    have hscan : ParseAddrScan (String.mk (text ++ zoneSuffix zone)) (text ++ zoneSuffix zone)
        = parseIPv6 (String.mk (text ++ zoneSuffix zone)) := by
      conv =>
        lhs
        arg 2
        rw [e, List.append_assoc, List.cons_append]
      exact scan_colon _ pre _ hpre
    rw [hscan, parseIPv6_split text zone hpct]
    exact parseIPv6Rest_literal _ zone text bytes htext

/-! ### Every string `ParseAddr` accepts is a literal -/

theorem number_append (table : List (Char × Nat)) (base : Nat) :
    ∀ (xs ys : List Char) (acc : Nat),
      number table base acc (xs ++ ys)
        = (number table base acc xs).bind (fun a => number table base a ys) := by
  intro xs
  induction xs with
  | nil =>
    intro ys acc
    rfl
  | cons x xs ih =>
    intro ys acc
    rw [List.cons_append, number, number]
    cases table.lookup x with
    | none => rfl
    | some d => exact ih ys _

/-- What the hexadecimal scan of `parseIPv6` reads is a text of at most four
hexadecimal digits, and the number it denotes. -/
theorem hexLoop_sound (input : String) :
    ∀ (s : List Char) (off acc acc1 off1 : Nat) (rest : List Char),
      hexLoop input s off acc = .ok (acc1, off1, rest) → off ≤ 4 → acc ≤ 65535 →
      ∃ g, s = g ++ rest ∧ off1 = off + g.length ∧ off1 ≤ 4
        ∧ number hexDigits 16 acc g = some acc1 := by
  intro s
  induction s with
  | nil =>
    intro off acc acc1 off1 rest h hoff _
    simp only [hexLoop, Except.ok.injEq, Prod.mk.injEq] at h
    obtain ⟨rfl, rfl, rfl⟩ := h
    exact ⟨[], rfl, rfl, hoff, rfl⟩
  | cons c cs ih =>
    intro off acc acc1 off1 rest h hoff hacc
    rw [hexLoop] at h
    split at h
    · simp only [Except.ok.injEq, Prod.mk.injEq] at h
      obtain ⟨rfl, rfl, rfl⟩ := h
      exact ⟨[], rfl, rfl, hoff, rfl⟩
    · rename_i d hd
      rw [hexVal_eq_lookup] at hd
      have hd16 := hexDigits_lt c d hd
      have e : (acc <<< 4 + d) % 2 ^ 32 = acc * 16 + d := by
        rw [Nat.shiftLeft_eq]
        omega
      dsimp only at h
      rw [e] at h
      split at h
      · cases h
      · rename_i h3
        split at h
        · cases h
        · rename_i h4
          obtain ⟨g, e1, e2, e3, e4⟩ := ih _ _ _ _ _ h (by omega) (by omega)
          refine ⟨c :: g, by rw [e1]; rfl, ?_, e3, ?_⟩
          · simp only [List.length_cons]
            omega
          · rw [number, hd]
            exact e4

theorem hexLoop_group_sound (input : String) (s : List Char) (acc off : Nat)
    (rest : List Char) (h : hexLoop input s 0 0 = .ok (acc, off, rest)) (hoff : off ≠ 0) :
    ∃ g, s = g ++ rest ∧ IsGroup g acc ∧ acc < 65536 := by
  obtain ⟨g, e1, e2, e3, e4⟩ := hexLoop_sound input s 0 0 acc off rest h (by omega) (by omega)
  have hne : g ≠ [] := by
    intro hg
    rw [hg] at e2
    simp at e2
    exact hoff e2
  have hlen : g.length ≤ 4 := by omega
  refine ⟨g, e1, ⟨hne, hlen, e4⟩, ?_⟩
  obtain ⟨c, cs, hcs⟩ : ∃ c cs, g = c :: cs := by
    cases g with
    | nil => exact absurd rfl hne
    | cons c cs => exact ⟨c, cs, rfl⟩
  obtain ⟨_, hv⟩ := hexLoop_number input [] HexStop_nil g 0 0 acc e4 (by omega) (by decide)
  exact hv

/-- What the loop of `parseIPv4Fields` reads, after the digits `cur` of the
current octet, is the rest of octets separated by dots. -/
theorem v4_sound (input : String) :
    ∀ (s cur : List Char) (prev : Option Char) (val digLen : Nat) (fields : List Nat)
      (val1 : Nat) (fields1 : List Nat),
      parseIPv4FieldsLoop input s prev val digLen fields = .ok (val1, fields1) →
      digLen = cur.length → number decDigits 10 0 cur = some val → val ≤ 255 →
      (cur.length > 1 → cur.head? ≠ some '0') →
      (cur = [] → prev = none ∨ prev = some '.') →
      (cur ≠ [] → prev ≠ none ∧ prev ≠ some '.') →
      (cur ≠ [] ∨ s ≠ []) →
      ∃ vs, DottedOctets (cur ++ s) vs ∧ fields1 ++ [val1] = fields ++ vs := by
  intro s
  induction s with
  | nil =>
    intro cur prev val digLen fields val1 fields1 h _ hnum hval hlz _ _ hne
    simp only [parseIPv4FieldsLoop, Except.ok.injEq, Prod.mk.injEq] at h
    obtain ⟨rfl, rfl⟩ := h
    have hcur : cur ≠ [] := by
      rcases hne with h | h
      · exact h
      · exact absurd rfl h
    refine ⟨[val], ?_, rfl⟩
    rw [List.append_nil]
    exact DottedOctets.one cur val ⟨hcur, hlz, hnum, hval⟩
  | cons c rest ih =>
    intro cur prev val digLen fields val1 fields1 h hdl hnum hval hlz hp0 hp1 _
    rw [parseIPv4FieldsLoop] at h
    split at h
    · rename_i hdig
      have hlook := (decimal_iff_lookup c).1 hdig
      obtain ⟨_, _, _, _, hz, hdot, _⟩ := decDigits_spec c _ hlook
      have h48 : '0'.toNat ≤ c.toNat := (char_le_iff _ _).mp hdig.1
      split at h
      · cases h
      · rename_i hnlz
        dsimp only at h
        split at h
        · cases h
        · rename_i hle
          have e : cur ++ c :: rest = (cur ++ [c]) ++ rest := by simp
          rw [e]
          apply ih (cur ++ [c]) (some c) _ (digLen + 1) fields val1 fields1 h
          · simp only [List.length_append, List.length_cons, List.length_nil]
            omega
          · rw [number_append, hnum]
            simp only [Option.bind_eq_bind, Option.some_bind, number, hlook]
            congr 1
            omega
          · omega
          · intro hl
            simp only [List.length_append, List.length_cons, List.length_nil] at hl
            cases cur with
            | nil => simp at hl
            | cons c0 cs0 =>
              simp only [List.cons_append, List.head?_cons]
              by_cases hcs : cs0 = []
              · subst hcs
                simp only [List.length_cons, List.length_nil] at hdl
                simp only [number] at hnum
                intro hc0
                simp only [Option.some.injEq] at hc0
                subst hc0
                have : decDigits.lookup '0' = some 0 := rfl
                rw [this] at hnum
                simp only [Nat.zero_mul, Nat.zero_add, Option.some.injEq] at hnum
                exact hnlz ⟨hdl, hnum.symm⟩
              · have := hlz (by
                  cases cs0 with
                  | nil => exact absurd rfl hcs
                  | cons x xs => simp)
                simpa using this
          · intro hnil
            simp at hnil
          · intro _
            refine ⟨by simp, ?_⟩
            intro hc
            simp only [Option.some.injEq] at hc
            exact hdot hc
          · left
            simp
    · split at h
      · rename_i hdot
        subst hdot
        split at h
        · cases h
        · rename_i hchk
          simp only [not_or] at hchk
          obtain ⟨c1, c2, c3⟩ := hchk
          split at h
          · cases h
          · have hcur : cur ≠ [] := by
              intro hc
              rcases hp0 hc with hp | hp
              · exact c1 hp
              · exact c3 hp
            obtain ⟨vs, hvs, e⟩ := ih [] (some '.') 0 0 (fields ++ [val % 256]) val1 fields1 h
              rfl rfl (by omega) (by simp) (fun _ => Or.inr rfl) (fun hh => absurd rfl hh)
              (Or.inr c2)
            rw [List.nil_append] at hvs
            refine ⟨val :: vs, DottedOctets.cons cur val rest vs ⟨hcur, hlz, hnum, hval⟩ hvs, ?_⟩
            rw [e, Nat.mod_eq_of_lt (by omega)]
            simp
      · cases h

/-- What `parseIPv4Fields` accepts is a dotted IPv4 address, and it returns
the four bytes the text denotes. -/
theorem parseIPv4Fields_sound (input : String) (s : List Char) (fs : List Nat)
    (h : parseIPv4Fields input s = .ok fs) : DottedOctets s fs ∧ fs.length = 4 := by
  have hlen := (parseIPv4Fields_inv input s fs h).1
  refine ⟨?_, hlen⟩
  unfold parseIPv4Fields at h
  split at h
  · cases h
  · rename_i val fields hloop
    split at h
    · cases h
    · rename_i hf
      simp only [Except.ok.injEq] at h
      have hs : s ≠ [] := by
        intro hs
        subst hs
        simp only [parseIPv4FieldsLoop, Except.ok.injEq, Prod.mk.injEq] at hloop
        obtain ⟨_, rfl⟩ := hloop
        simp at hf
      obtain ⟨vs, hvs, e⟩ := v4_sound input s [] none 0 0 [] val fields hloop rfl rfl
        (by omega) (by simp) (fun _ => Or.inl rfl) (fun hh => absurd rfl hh) (Or.inr hs)
      rw [List.nil_append] at hvs e
      have hval : val ≤ 255 := by
        apply (DottedOctets_cons s vs hvs).2.2 val
        rw [← e]
        simp
      rw [Nat.mod_eq_of_lt (by omega)] at h
      rw [← h, e]
      exact hvs

/-- What the loop of `parseIPv6` reads to the end of the text is groups
separated by colons, with at most one `::` when none was seen before. -/
theorem parseIPv6Loop_sound (input : String) :
    ∀ (fuel : Nat) (ip : List Nat) (ell : Option Nat) (s : List Char)
      (ip1 : List Nat) (ell1 : Option Nat), s ≠ [] →
      parseIPv6Loop input fuel ip ell s = .ok (ip1, ell1, []) →
      (ell1 = ell ∧ ∃ bs, Groups s bs ∧ ip1 = ip ++ bs)
        ∨ (ell = none ∧ ∃ pre suf bp bs, s = pre ++ ':' :: ':' :: suf ∧ HexGroups pre bp
            ∧ ((suf = [] ∧ bs = []) ∨ Groups suf bs)
            ∧ ell1 = some (ip.length + bp.length) ∧ ip1 = ip ++ bp ++ bs) := by
  intro fuel
  induction fuel with
  | zero =>
    intro ip ell s ip1 ell1 hs h
    simp only [parseIPv6Loop, Except.ok.injEq, Prod.mk.injEq] at h
    exact absurd h.2.2 hs
  | succ f ih =>
    intro ip ell s ip1 ell1 hs h
    rw [parseIPv6Loop] at h
    split at h
    · split at h
      · cases h
      · rename_i acc off rest hhex
        split at h
        · cases h
        · rename_i hoff
          obtain ⟨g, eg, hg, hacc⟩ := hexLoop_group_sound input s acc off rest hhex hoff
          split at h
          · -- trailing IPv4 address
            split at h
            · cases h
            · split at h
              · cases h
              · split at h
                · cases h
                · rename_i fields hf
                  obtain ⟨hd, h4⟩ := parseIPv4Fields_sound input s fields hf
                  simp only [Except.ok.injEq, Prod.mk.injEq, and_true] at h
                  obtain ⟨rfl, rfl⟩ := h
                  left
                  exact ⟨rfl, fields, Groups.v4 s fields hd h4, rfl⟩
          · dsimp only at h
            rw [group_bytes acc hacc] at h
            split at h
            · simp only [Except.ok.injEq, Prod.mk.injEq, and_true] at h
              obtain ⟨rfl, rfl⟩ := h
              left
              refine ⟨rfl, _, ?_, rfl⟩
              rw [eg, List.append_nil]
              exact Groups.one g acc hg
            · rename_i c rest1
              split at h
              · cases h
              · rename_i hc
                simp only [ne_eq, Decidable.not_not] at hc
                subst hc
                split at h
                · cases h
                · rename_i c1 rest2
                  split at h
                  · rename_i hc1
                    subst hc1
                    split at h
                    · cases h
                    · rename_i hell
                      simp only [ne_eq, Decidable.not_not] at hell
                      subst hell
                      right
                      split at h
                      · rename_i hr2
                        subst hr2
                        simp only [Except.ok.injEq, Prod.mk.injEq, and_true] at h
                        obtain ⟨rfl, rfl⟩ := h
                        refine ⟨rfl, g, [], [acc / 256, acc % 256], [], eg, HexGroups.one g acc hg,
                          Or.inl ⟨rfl, rfl⟩, ?_, by simp⟩
                        simp
                      · rename_i hr2
                        rcases ih _ _ _ _ _ hr2 h with ⟨e1, bs, hbs, e2⟩ | ⟨hcontra, _⟩
                        · refine ⟨rfl, g, rest2, [acc / 256, acc % 256], bs, eg,
                            HexGroups.one g acc hg, Or.inr hbs, ?_, e2⟩
                          rw [e1]
                          simp
                        · cases hcontra
                  · rename_i hc1
                    rcases ih _ _ _ _ _ (by simp) h with ⟨e1, bs, hbs, e2⟩
                      | ⟨hnone, pre, suf, bp, bs, e1, hpre, hsuf, e2, e3⟩
                    · left
                      refine ⟨e1, acc / 256 :: acc % 256 :: bs, ?_, ?_⟩
                      · rw [eg]
                        exact Groups.cons g acc _ bs hg hbs
                      · rw [e2]
                        simp
                    · right
                      refine ⟨hnone, g ++ ':' :: pre, suf, acc / 256 :: acc % 256 :: bp, bs, ?_,
                        HexGroups.cons g acc pre bp hg hpre, hsuf, ?_, ?_⟩
                      · rw [eg, e1]
                        simp
                      · rw [e2]
                        simp only [List.length_append, List.length_cons, List.length_nil]
                        congr 1
                        omega
                      · rw [e3]
                        simp
    · simp only [Except.ok.injEq, Prod.mk.injEq] at h
      exact absurd h.2.2 hs

/-- What `parseIPv6` accepts after the split of the zone is the text of an
IPv6 address, and it returns the sixteen bytes the text denotes. -/
theorem parseIPv6Rest_sound (input : String) (zone : String) (s : List Char) (a : Addr)
    (h : parseIPv6Rest input zone s = .ok a) :
    ∃ bytes, IsIPv6Text s bytes ∧ a = ⟨bytes, zoneOf zone⟩ := by
  unfold parseIPv6Rest at h
  split at h
  · rename_i ht
    have es : s = ':' :: ':' :: s.drop 2 := by
      have := (List.take_append_drop 2 s).symm
      rw [ht] at this
      exact this
    dsimp only at h
    split at h
    · rename_i hd
      simp only [Except.ok.injEq] at h
      subst h
      refine ⟨List.replicate 16 0, Or.inr ⟨[], [], [], [], ?_, Or.inl ⟨rfl, rfl⟩,
        Or.inl ⟨rfl, rfl⟩, by simp, by simp⟩, WithZone_AddrFrom16 _ zone⟩
      rw [es, hd]
      rfl
    · rename_i hd
      split at h
      · cases h
      · rename_i ip ell s2 hloop
        have hnil := parseIPv6Finish_nil input zone ip ell s2 a h
        subst hnil
        obtain ⟨i1, _, _⟩ := parseIPv6Loop_inv input 8 [] (some 0) _ ip ell [] hloop
          (LoopInv_nil _ (Or.inr rfl))
        rcases parseIPv6Loop_sound input 8 [] (some 0) _ ip ell hd hloop with
          ⟨e1, bs, hbs, e2⟩ | ⟨hcontra, _⟩
        · rw [List.nil_append] at e2
          subst e2
          subst e1
          unfold parseIPv6Finish at h
          simp only [ne_eq, not_true_eq_false, if_false] at h
          split at h
          · rename_i hlt
            simp only [List.take_zero, List.nil_append, List.drop_zero, Except.ok.injEq] at h
            subst h
            refine ⟨_, Or.inr ⟨[], s.drop 2, [], ip, es, Or.inl ⟨rfl, rfl⟩, Or.inr hbs,
              by simpa using hlt, by simp⟩, WithZone_AddrFrom16 _ zone⟩
          · simp at h
        · cases hcontra
  · rename_i ht
    split at h
    · cases h
    · rename_i ip ell s2 hloop
      have hnil := parseIPv6Finish_nil input zone ip ell s2 a h
      subst hnil
      have hs : s ≠ [] := by
        intro hs
        subst hs
        simp [parseIPv6Loop, hexLoop] at hloop
      obtain ⟨i1, _, _⟩ := parseIPv6Loop_inv input 8 [] none _ ip ell [] hloop
        (LoopInv_nil _ (Or.inl rfl))
      rcases parseIPv6Loop_sound input 8 [] none s ip ell hs hloop with
        ⟨e1, bs, hbs, e2⟩ | ⟨_, pre, suf, bp, bs, e1, hpre, hsuf, e2, e3⟩
      · rw [List.nil_append] at e2
        subst e2
        subst e1
        unfold parseIPv6Finish at h
        simp only [ne_eq, not_true_eq_false, if_false] at h
        split at h
        · cases h
        · rename_i hlt
          simp only [Except.ok.injEq] at h
          subst h
          exact ⟨ip, Or.inl ⟨hbs, by omega⟩, WithZone_AddrFrom16 _ zone⟩
      · simp only [List.nil_append, List.length_nil, Nat.zero_add] at e2 e3
        subst e2
        subst e3
        unfold parseIPv6Finish at h
        simp only [ne_eq, not_true_eq_false, if_false] at h
        split at h
        · rename_i hlt
          simp only [List.take_left', List.drop_left', Except.ok.injEq] at h
          subst h
          refine ⟨_, Or.inr ⟨pre, suf, bp, bs, e1, Or.inr hpre, hsuf,
            by simpa using hlt, ?_⟩, WithZone_AddrFrom16 _ zone⟩
          simp
        · simp at h

theorem indexOf_split (l : List Char) (h : l.indexOf '%' < l.length) :
    l = l.take (l.indexOf '%') ++ '%' :: l.drop (l.indexOf '%' + 1)
      ∧ '%' ∉ l.take (l.indexOf '%') := by
  induction l with
  | nil => simp at h
  | cons c cs ih =>
    by_cases hc : c = '%'
    · subst hc
      simp [List.indexOf_cons_self]
    · rw [List.indexOf_cons_ne _ hc] at h ⊢
      simp only [List.length_cons, Nat.succ_eq_add_one, Nat.add_lt_add_iff_right] at h
      obtain ⟨h1, h2⟩ := ih h
      simp only [List.take_succ_cons, List.drop_succ_cons, List.cons_append, List.mem_cons,
        not_or]
      refine ⟨?_, fun hh => hc hh.symm, h2⟩
      congr 1

theorem parseIPv6_sound (input : String) (a : Addr) (h : parseIPv6 input = .ok a) :
    Literal input a := by
  unfold parseIPv6 at h
  dsimp only at h
  split at h
  · rename_i hi
    obtain ⟨e1, e2⟩ := indexOf_split input.data hi
    split at h
    · cases h
    · rename_i hz
      obtain ⟨bytes, hb, rfl⟩ := parseIPv6Rest_sound _ _ _ a h
      have hzone : ¬ String.mk (List.drop (List.indexOf '%' input.data + 1) input.data) = "" := by
        intro hh
        apply hz
        have := congrArg String.data hh
        simpa using this
      right
      refine ⟨_, String.mk (List.drop (List.indexOf '%' input.data + 1) input.data), bytes,
        ?_, e2, hb, ?_⟩
      · simp only [hzone, if_false]
        exact e1
      · simp only [zoneOf, hzone, if_false]
  · rename_i hi
    obtain ⟨bytes, hb, rfl⟩ := parseIPv6Rest_sound _ _ _ a h
    have hnot : '%' ∉ input.data := by
      intro hm
      exact hi (List.indexOf_lt_length.mpr hm)
    right
    exact ⟨input.data, "", bytes, by simp, hnot, hb, by simp [zoneOf]⟩

theorem parseIPv4_sound (input : String) (a : Addr) (h : parseIPv4 input = .ok a) :
    Literal input a := by
  unfold parseIPv4 at h
  split at h
  · cases h
  · rename_i fields hf
    obtain ⟨hd, h4⟩ := parseIPv4Fields_sound input _ fields hf
    simp only [Except.ok.injEq] at h
    subst h
    left
    exact ⟨fields, hd, h4, rfl⟩

theorem ParseAddrScan_sound (input : String) (a : Addr) :
    ∀ cs, ParseAddrScan input cs = .ok a → Literal input a := by
  intro cs
  induction cs with
  | nil =>
    intro h
    simp [ParseAddrScan] at h
  | cons c cs ih =>
    intro h
    rw [ParseAddrScan] at h
    split at h
    · exact parseIPv4_sound input a h
    · split at h
      · exact parseIPv6_sound input a h
      · split at h
        · cases h
        · exact ih h

/-- Every string `ParseAddr` accepts is an address literal, of the address
`ParseAddr` returns. -/
theorem ParseAddr_sound (s : String) (a : Addr) (h : ParseAddr s = .ok a) : Literal s a :=
  ParseAddrScan_sound s a s.data h

/-- `ParseAddr` accepts exactly the address literals, each as the address it
denotes. -/
theorem ParseAddr_iff_Literal (s : String) (a : Addr) : ParseAddr s = .ok a ↔ Literal s a :=
  ⟨ParseAddr_sound s a, ParseAddr_complete s a⟩

/-- A literal denotes one address. -/
theorem Literal_unique (s : String) (a b : Addr) (ha : Literal s a) (hb : Literal s b) :
    a = b := by
  have h1 := ParseAddr_complete s a ha
  have h2 := ParseAddr_complete s b hb
  rw [h1] at h2
  simpa using h2

/-- The text `String` writes for the address of a literal is a literal of the
same address. -/
theorem Literal_String (s : String) (a : Addr) (h : Literal s a) : Literal a.String a :=
  ParseAddr_sound _ _
    (ParseAddr_String a (ParseAddr_shape s a (ParseAddr_complete s a h)))

end Ipisto

/-! ## The interaction handler -/

namespace Ipisto

/-- C1: for an interaction of the configured command, when the deferred
acknowledgment succeeds and getPublicIP returns the address string `a`, the
calls of the handler are, in this order, the acknowledgment, the fetch and the
follow-up, and the only follow-up message has content `a`. -/
theorem handler_delivers_address (DefaultClient : Client) (slashCommandName IPURL : String)
    (client : Option Client) (s : Session) (i : InteractionCreate) (a : String)
    (hname : i.Name = slashCommandName)
    (hack : s.InteractionRespond i
      .InteractionResponseDeferredChannelMessageWithSource = none)
    (hip : getPublicIP DefaultClient client IPURL = (a, none)) :
    calls (newCommandHandler DefaultClient slashCommandName IPURL client s i)
        = [Event.InteractionRespond i.ID .InteractionResponseDeferredChannelMessageWithSource,
           Event.getPublicIP IPURL,
           Event.FollowupMessageCreate i.ID true a]
      ∧ followups (newCommandHandler DefaultClient slashCommandName IPURL client s i)
        = [Event.FollowupMessageCreate i.ID true a] := by
  unfold newCommandHandler
  simp only [hname, ne_eq, not_true_eq_false, if_false, hack, hip]
  rcases hu : i.user with _ | u <;> rcases hm : i.member with _ | m <;>
    cases hf : s.FollowupMessageCreate i true a <;>
    simp [calls, followups]

/-- Witness of C1, the scenario of the spec: the body `93.184.216.34` gives a
follow-up message with content `93.184.216.34`. -/
theorem handler_delivers_address_witness :
    followups (newCommandHandler (fun _ => .error (.other "no default client")) "publicip"
        "https://ipinfo.io/ip" (some (fun _ => .ok ⟨200, "93.184.216.34", none⟩))
        ⟨fun _ _ => none, fun _ _ _ => none⟩ ⟨"i1", "g1", "publicip", none, none⟩)
      = [Event.FollowupMessageCreate "i1" true "93.184.216.34"] :=
  (handler_delivers_address (fun _ => .error (.other "no default client")) "publicip"
    "https://ipinfo.io/ip" (some (fun _ => .ok ⟨200, "93.184.216.34", none⟩))
    ⟨fun _ _ => none, fun _ _ _ => none⟩ ⟨"i1", "g1", "publicip", none, none⟩
    "93.184.216.34" rfl rfl (by decide)).2

/-- C2: for an interaction of the configured command, when the deferred
acknowledgment (InteractionRespond) returns an error, the handler makes no
getPublicIP call and no FollowupMessageCreate call. -/
theorem handler_ack_failure_stops (DefaultClient : Client) (slashCommandName IPURL : String)
    (client : Option Client) (s : Session) (i : InteractionCreate) (err : GoError)
    (hname : i.Name = slashCommandName)
    (hack : s.InteractionRespond i
      .InteractionResponseDeferredChannelMessageWithSource = some err) :
    fetches (newCommandHandler DefaultClient slashCommandName IPURL client s i) = []
      ∧ followups (newCommandHandler DefaultClient slashCommandName IPURL client s i) = [] := by
  unfold newCommandHandler
  simp only [hname, ne_eq, not_true_eq_false, if_false, hack]
  rcases hu : i.user with _ | u <;> rcases hm : i.member with _ | m <;>
    simp [fetches, followups]

/-- Witness of C2: a failing acknowledgment, a client that would answer. -/
theorem handler_ack_failure_stops_witness :
    fetches (newCommandHandler (fun _ => .ok ⟨200, "1.2.3.4", none⟩) "publicip"
        "https://ipinfo.io/ip" none
        ⟨fun _ _ => some (.other "HTTP 500"), fun _ _ _ => none⟩
        ⟨"i1", "g1", "publicip", none, none⟩) = []
      ∧ followups (newCommandHandler (fun _ => .ok ⟨200, "1.2.3.4", none⟩) "publicip"
        "https://ipinfo.io/ip" none
        ⟨fun _ _ => some (.other "HTTP 500"), fun _ _ _ => none⟩
        ⟨"i1", "g1", "publicip", none, none⟩) = [] :=
  handler_ack_failure_stops (fun _ => .ok ⟨200, "1.2.3.4", none⟩) "publicip"
    "https://ipinfo.io/ip" none ⟨fun _ _ => some (.other "HTTP 500"), fun _ _ _ => none⟩
    ⟨"i1", "g1", "publicip", none, none⟩ (.other "HTTP 500") rfl rfl

/-- C3: for an interaction whose command name differs from the configured
name, the handler does nothing: its trace is empty, so there is no
acknowledgment, no fetch, no follow-up and no log record. -/
theorem handler_ignores_other_command (DefaultClient : Client)
    (slashCommandName IPURL : String) (client : Option Client) (s : Session)
    (i : InteractionCreate) (hname : i.Name ≠ slashCommandName) :
    newCommandHandler DefaultClient slashCommandName IPURL client s i = [] := by
  unfold newCommandHandler
  simp [hname]

/-- Witness of C3, the scenario of the spec: command `other` against the
configured name `publicip`. -/
theorem handler_ignores_other_command_witness :
    newCommandHandler (fun _ => .ok ⟨200, "1.2.3.4", none⟩) "publicip"
        "https://ipinfo.io/ip" none ⟨fun _ _ => none, fun _ _ _ => none⟩
        ⟨"i1", "g1", "other", none, none⟩ = [] :=
  handler_ignores_other_command (fun _ => .ok ⟨200, "1.2.3.4", none⟩) "publicip"
    "https://ipinfo.io/ip" none ⟨fun _ _ => none, fun _ _ _ => none⟩
    ⟨"i1", "g1", "other", none, none⟩ (by decide)

/-- C9: for an interaction of the configured command whose acknowledgment
succeeded, when getPublicIP returns an error the handler ends its trace with
the error record `error while getting public IP` carrying the error and the
interaction identifier, sends no follow-up message, and makes no call besides
the acknowledgment and the fetch (so nothing more reaches the invoker and the
process is not ended: the handler returns its trace). -/
theorem handler_fetch_failure_logged (DefaultClient : Client)
    (slashCommandName IPURL : String) (client : Option Client) (s : Session)
    (i : InteractionCreate) (err : GoError)
    (hname : i.Name = slashCommandName)
    (hack : s.InteractionRespond i
      .InteractionResponseDeferredChannelMessageWithSource = none)
    (hip : (getPublicIP DefaultClient client IPURL).2 = some err) :
    (newCommandHandler DefaultClient slashCommandName IPURL client s i).getLast?
        = some (Event.slog .error "error while getting public IP"
            [("error", .err err), ("interactionid", .str i.ID)])
      ∧ followups (newCommandHandler DefaultClient slashCommandName IPURL client s i) = []
      ∧ calls (newCommandHandler DefaultClient slashCommandName IPURL client s i)
        = [Event.InteractionRespond i.ID .InteractionResponseDeferredChannelMessageWithSource,
           Event.getPublicIP IPURL] := by
  unfold newCommandHandler
  rcases hg : getPublicIP DefaultClient client IPURL with ⟨v, oe⟩
  rw [hg] at hip
  simp only at hip
  subst hip
  simp only [hname, ne_eq, not_true_eq_false, if_false, hack]
  rcases hu : i.user with _ | u <;> rcases hm : i.member with _ | m <;>
    simp [calls, followups]

/-- Witness of C9, the scenario of the spec: the body `not-an-ip`. -/
theorem handler_fetch_failure_logged_witness :
    followups (newCommandHandler (fun _ => .error (.other "no default client")) "publicip"
        "https://ipinfo.io/ip" (some (fun _ => .ok ⟨200, "not-an-ip", none⟩))
        ⟨fun _ _ => none, fun _ _ _ => none⟩ ⟨"i1", "g1", "publicip", none, none⟩) = [] :=
  (handler_fetch_failure_logged (fun _ => .error (.other "no default client")) "publicip"
    "https://ipinfo.io/ip" (some (fun _ => .ok ⟨200, "not-an-ip", none⟩))
    ⟨fun _ _ => none, fun _ _ _ => none⟩ ⟨"i1", "g1", "publicip", none, none⟩
    (.parseAddr "not-an-ip" "unable to parse IP") rfl rfl (by decide)).2.1

end Ipisto

/-! ## The fetch and the HTTP status -/

namespace Ipisto

/-- C4, as stated, fails: the body `fe80::1%eth0` followed by a newline is
not a strict address literal (it has whitespace in it), and getPublicIP
returns it unchanged and without error, the newline being read as part of the
zone. -/
theorem getPublicIP_newline_in_zone_accepted :
    ¬ StrictLiteral "fe80::1%eth0\n"
      ∧ getPublicIP (fun _ => .ok ⟨200, "fe80::1%eth0\n", none⟩) none "https://ipinfo.io/ip"
        = ("fe80::1%eth0\n", none) :=
  ⟨fun h => absurd (h.2 '\n' (by decide)) (by decide), by decide⟩

/-- C4, amended: getPublicIP returns without error exactly when the body is
an address literal (a dotted IPv4 address, or the text of an IPv6 address
followed, when there is a `%`, by a non-empty zone of any characters); for
every other body it returns an error and the empty string, whatever the
status code.  The body is parsed as it is: a character other than a
hexadecimal digit, a dot or a colon before the first `%` (anywhere, when
there is no `%`), such as a space or a newline, makes the body rejected, and
so are the empty body, `not-an-ip`, and `1.2.3.4` followed by a space or by a
newline. -/
theorem getPublicIP_rejects_non_literal (DefaultClient : Client) (client : Option Client)
    (ipURL : String) (r : Response)
    (hget : client.getD DefaultClient ipURL = .ok r)
    (hread : r.readErr = none) :
    ((getPublicIP DefaultClient client ipURL).2 = none ↔ ∃ ip, Literal r.Body ip)
      ∧ ((¬ ∃ ip, Literal r.Body ip) →
        ∃ e, getPublicIP DefaultClient client ipURL = ("", some e))
      ∧ ((∃ c ∈ r.Body.data.take (r.Body.data.indexOf '%'),
            hexDigits.lookup c = none ∧ c ≠ '.' ∧ c ≠ ':') →
        ∃ e, getPublicIP DefaultClient client ipURL = ("", some e))
      ∧ (r.Body ∈ ["", "not-an-ip", "1.2.3.4 ", "1.2.3.4\n"] →
        ∃ e, getPublicIP DefaultClient client ipURL = ("", some e)) := by
  have hc : (match client with
      | none => DefaultClient
      | some c => c) ipURL = .ok r := by
    cases client <;> simpa [Option.getD] using hget
  have herr : ∀ e, ParseAddr r.Body = .error e →
      getPublicIP DefaultClient client ipURL = ("", some e) := by
    intro e he
    simp only [getPublicIP, hc, hread, he]
  have hok : ∀ ip, ParseAddr r.Body = .ok ip →
      getPublicIP DefaultClient client ipURL = (ip.String, none) := by
    intro ip hp
    simp only [getPublicIP, hc, hread, hp]
  have hnot : (¬ ∃ ip, Literal r.Body ip) →
      ∃ e, getPublicIP DefaultClient client ipURL = ("", some e) := by
    intro hn
    cases hp : ParseAddr r.Body with
    | error e => exact ⟨e, herr e hp⟩
    | ok a => exact absurd ⟨a, ParseAddr_sound r.Body a hp⟩ hn
  refine ⟨?_, hnot, ?_, ?_⟩
  · constructor
    · intro h
      cases hp : ParseAddr r.Body with
      | error e =>
        rw [herr e hp] at h
        cases h
      | ok a => exact ⟨a, ParseAddr_sound r.Body a hp⟩
    · rintro ⟨ip, hl⟩
      rw [hok ip (ParseAddr_complete r.Body ip hl)]
  · rintro ⟨c, hc1, hc2, hc3, hc4⟩
    apply hnot
    rintro ⟨ip, hl⟩
    have hch := ParseAddr_chars r.Body ip (ParseAddr_complete r.Body ip hl) c hc1
    rcases hch with h | h | h
    · rw [hexVal_eq_lookup] at h
      exact h hc2
    · exact hc3 h
    · exact hc4 h
  · intro hb
    simp only [List.mem_cons, List.mem_singleton, List.not_mem_nil, or_false] at hb
    rcases hb with h | h | h | h
    · exact ⟨_, herr _ (by rw [h]; rfl)⟩
    · exact ⟨_, herr _ (by rw [h]; rfl)⟩
    · exact ⟨_, herr _ (by rw [h]; rfl)⟩
    · exact ⟨_, herr _ (by rw [h]; rfl)⟩

/-- Witness of C4 amended: the body `1.2.3.4` followed by a space is not an
address literal, and is rejected. -/
theorem getPublicIP_rejects_non_literal_witness :
    ∃ e, getPublicIP (fun _ => .ok ⟨200, "1.2.3.4 ", none⟩) none "https://ipinfo.io/ip"
      = ("", some e) :=
  (getPublicIP_rejects_non_literal (fun _ => .ok ⟨200, "1.2.3.4 ", none⟩) none
    "https://ipinfo.io/ip" ⟨200, "1.2.3.4 ", none⟩ rfl rfl).2.1
    (fun ⟨ip, h⟩ => by
      have h2 := ParseAddr_complete _ ip h
      have h3 : ParseAddr "1.2.3.4 " = .error (.parseAddr "1.2.3.4 " "unexpected character") :=
        rfl
      rw [h3] at h2
      cases h2)

/-- The long form of `2001:db8::1` is an address literal: eight groups of
four hexadecimal digits. -/
theorem long_form_is_literal :
    Literal "2001:0db8:0000:0000:0000:0000:0000:0001"
      ⟨[0x20, 0x01, 0x0d, 0xb8, 0, 0, 0, 0, 0, 0, 0, 0, 0, 0, 0, 1], Zone.z6noz⟩ := by
  refine Or.inr ⟨"2001:0db8:0000:0000:0000:0000:0000:0001".data, "",
    [0x20, 0x01, 0x0d, 0xb8, 0, 0, 0, 0, 0, 0, 0, 0, 0, 0, 0, 1], by simp, by decide,
    Or.inl ⟨?_, rfl⟩, by simp⟩
  exact Groups.cons ['2', '0', '0', '1'] 0x2001 _ _ ⟨by decide, by decide, rfl⟩
    (Groups.cons ['0', 'd', 'b', '8'] 0x0db8 _ _ ⟨by decide, by decide, rfl⟩
    (Groups.cons ['0', '0', '0', '0'] 0 _ _ ⟨by decide, by decide, rfl⟩
    (Groups.cons ['0', '0', '0', '0'] 0 _ _ ⟨by decide, by decide, rfl⟩
    (Groups.cons ['0', '0', '0', '0'] 0 _ _ ⟨by decide, by decide, rfl⟩
    (Groups.cons ['0', '0', '0', '0'] 0 _ _ ⟨by decide, by decide, rfl⟩
    (Groups.cons ['0', '0', '0', '0'] 0 _ _ ⟨by decide, by decide, rfl⟩
    (Groups.one ['0', '0', '0', '1'] 1 ⟨by decide, by decide, rfl⟩)))))))

/-- C6: when the body `b` of the response is an address literal of the
address `ip`, getPublicIP succeeds and returns the text `ip.String` of that
address, not the body; that text is itself a literal of the same address
`ip`, and a body equal to it is returned unchanged; the result can differ
from the body: the body `2001:0db8:0000:0000:0000:0000:0000:0001` yields
`2001:db8::1`. -/
theorem getPublicIP_canonical (DefaultClient : Client) (client : Option Client)
    (ipURL : String) (r : Response) (ip : Addr)
    (hget : client.getD DefaultClient ipURL = .ok r)
    (hread : r.readErr = none)
    (hlit : Literal r.Body ip) :
    getPublicIP DefaultClient client ipURL = (ip.String, none)
      ∧ Literal ip.String ip
      ∧ (∀ code, getPublicIP DefaultClient
          (some (fun _ => .ok ⟨code, ip.String, none⟩)) ipURL = (ip.String, none))
      ∧ (r.Body = "2001:0db8:0000:0000:0000:0000:0000:0001" →
          getPublicIP DefaultClient client ipURL = ("2001:db8::1", none)
            ∧ "2001:db8::1" ≠ r.Body) := by
  have hc : (match client with
      | none => DefaultClient
      | some c => c) ipURL = .ok r := by
    cases client <;> simpa [Option.getD] using hget
  have hs := Literal_String r.Body ip hlit
  have h1 : getPublicIP DefaultClient client ipURL = (ip.String, none) := by
    simp only [getPublicIP, hc, hread, ParseAddr_complete r.Body ip hlit]
  refine ⟨h1, hs, ?_, ?_⟩
  · intro code
    simp only [getPublicIP, ParseAddr_complete ip.String ip hs]
  · intro hb
    have hip := Literal_unique r.Body _ _ hlit (hb ▸ long_form_is_literal)
    rw [h1, hip, hb]
    exact ⟨rfl, by decide⟩

/-- Witness of C6: the body `2001:0db8:0000:0000:0000:0000:0000:0001`. -/
theorem getPublicIP_canonical_witness :
    getPublicIP (fun _ => .ok ⟨200, "2001:0db8:0000:0000:0000:0000:0000:0001", none⟩) none
        "https://ipinfo.io/ip" = ("2001:db8::1", none)
      ∧ Literal "2001:db8::1"
        ⟨[0x20, 0x01, 0x0d, 0xb8, 0, 0, 0, 0, 0, 0, 0, 0, 0, 0, 0, 1], Zone.z6noz⟩ :=
  ⟨(getPublicIP_canonical
      (fun _ => .ok ⟨200, "2001:0db8:0000:0000:0000:0000:0000:0001", none⟩) none
      "https://ipinfo.io/ip" ⟨200, "2001:0db8:0000:0000:0000:0000:0000:0001", none⟩
      ⟨[0x20, 0x01, 0x0d, 0xb8, 0, 0, 0, 0, 0, 0, 0, 0, 0, 0, 0, 1], Zone.z6noz⟩
      rfl rfl long_form_is_literal).1,
    (getPublicIP_canonical
      (fun _ => .ok ⟨200, "2001:0db8:0000:0000:0000:0000:0000:0001", none⟩) none
      "https://ipinfo.io/ip" ⟨200, "2001:0db8:0000:0000:0000:0000:0000:0001", none⟩
      ⟨[0x20, 0x01, 0x0d, 0xb8, 0, 0, 0, 0, 0, 0, 0, 0, 0, 0, 0, 1], Zone.z6noz⟩
      rfl rfl long_form_is_literal).2.1⟩

/-- C5, as stated, fails: a response with status 404 whose body is `1.2.3.4`
makes getPublicIP return that address and no error. -/
theorem getPublicIP_status_404_accepted :
    getPublicIP (fun _ => .ok ⟨404, "1.2.3.4", none⟩) none "https://ipinfo.io/ip"
      = ("1.2.3.4", none) := by
  decide

/-- C5, amended: getPublicIP does not look at the status code.  Replacing the
status of the response by any other leaves the result unchanged; an error is
returned exactly when reading the body fails or the body is not an address
literal; and a body `1.2.3.4` that is read without error yields `1.2.3.4`
without error under every status. -/
theorem getPublicIP_status_irrelevant (DefaultClient : Client) (client : Option Client)
    (ipURL : String) (r : Response)
    (hget : client.getD DefaultClient ipURL = .ok r) :
    (∀ code, getPublicIP DefaultClient
        (some (fun _ => .ok { r with StatusCode := code })) ipURL
          = getPublicIP DefaultClient client ipURL)
      ∧ ((getPublicIP DefaultClient client ipURL).2 ≠ none
          ↔ (r.readErr ≠ none ∨ ∃ e, ParseAddr r.Body = .error e))
      ∧ (r.Body = "1.2.3.4" → r.readErr = none →
          getPublicIP DefaultClient client ipURL = ("1.2.3.4", none)) := by
  have hc : (match client with
      | none => DefaultClient
      | some c => c) ipURL = .ok r := by
    cases client <;> simpa [Option.getD] using hget
  refine ⟨?_, ?_, ?_⟩
  · intro code
    simp only [getPublicIP, hc]
  · simp only [getPublicIP, hc]
    cases hr : r.readErr with
    | some e => simp
    | none =>
      cases hp : ParseAddr r.Body with
      | error e => simp
      | ok ip => simp
  · intro hb hr
    simp only [getPublicIP, hc, hr, hb]
    rfl

/-- Witness of C5 amended: status 500, body `1.2.3.4`. -/
theorem getPublicIP_status_irrelevant_witness :
    getPublicIP (fun _ => .ok ⟨500, "1.2.3.4", none⟩) none "https://ipinfo.io/ip"
      = ("1.2.3.4", none) :=
  (getPublicIP_status_irrelevant (fun _ => .ok ⟨500, "1.2.3.4", none⟩) none
    "https://ipinfo.io/ip" ⟨500, "1.2.3.4", none⟩ rfl).2.2 rfl rfl

/-! ## The lifecycle of main -/

/-- C7, as stated, fails: with an empty credential the process ends (exit
code 1) and `Close` has not been called. -/
theorem main_no_token_never_closes :
    (main worldNoToken).exit = some 1 ∧ closes (main worldNoToken).trace = 0 := by
  decide

/-- C7, amended: on every exit path of main taken after the connection was
opened (registration failure, deregistration failure, graceful shutdown after
a signal) `Close` is called exactly once, as the last step before the process
ends; on the exit paths before that (missing credential, session-creation
failure, connection-open failure) `Close` is not called. -/
theorem main_closes_once_after_open (w : World) (hexit : (main w).exit ≠ none) :
    (w.BotToken ≠ "" ∧ w.newErr = none ∧ w.openErr = none →
        closes (main w).trace = 1 ∧ (main w).trace.getLast? = some Event.Close)
      ∧ (w.BotToken = "" ∨ w.newErr ≠ none ∨ w.openErr ≠ none →
        closes (main w).trace = 0) := by
  unfold main at hexit ⊢
  by_cases ht : w.BotToken = ""
  · simp [ht, closes]
  · rcases hn : w.newErr with _ | e
    · rcases ho : w.openErr with _ | e
      · rcases hc : w.created with e | id
        · simp [ht, hn, ho, hc, closes]
        · rcases hs : w.signal with _ | sig
          · simp [ht, hn, ho, hc, hs] at hexit
          · rcases hd : w.deleteErr with _ | e <;>
              simp [ht, hn, ho, hc, hs, hd, closes]
      · simp [ht, hn, ho, closes]
    · simp [ht, hn, closes]

/-- Witness of C7 amended: the graceful run. -/
theorem main_closes_once_after_open_witness :
    closes (main worldGraceful).trace = 1
      ∧ (main worldGraceful).trace.getLast? = some Event.Close :=
  (main_closes_once_after_open worldGraceful (by decide)).1 (by decide)

/-- C8: when the credential is present and session creation, connection
opening and registration (with identifier `id`) succeed, the trace after the
received signal holds exactly one ApplicationCommandDelete call, made with
`id`, and none before; when that call succeeds the trace ends with the delete
call, the log record `exiting` and `Close`, `Close` is called once, and the
exit code is 0. -/
theorem main_signal_deregisters_once (w : World) (id : String) (sig : Signal)
    (htoken : w.BotToken ≠ "") (hnew : w.newErr = none) (hopen : w.openErr = none)
    (hcreated : w.created = .ok id) (hsig : w.signal = some sig) :
    ∃ before after, (main w).trace = before ++ Event.received sig :: after
      ∧ deletes before = []
      ∧ deletes after = [Event.ApplicationCommandDelete w.userID "" id]
      ∧ (w.deleteErr = none →
          (∃ mid, after = mid ++ [Event.ApplicationCommandDelete w.userID "" id,
              Event.slog .info "exiting" [], Event.Close])
          ∧ closes (main w).trace = 1
          ∧ (main w).exit = some 0) := by
  have hpre : deletes
      [Event.slog .info "bot started" [("config", .str w.Config)],
        Event.slog .info "creating Discord session" [],
        Event.New ("Bot " ++ w.BotToken),
        Event.AddHandler .ready,
        Event.AddHandler (.command w.SlashCommandName w.IPURL),
        Event.slog .info "openning Websocket conection" [],
        Event.Open,
        Event.slog .info "registering command" [("slashcommandname", .str w.SlashCommandName)],
        Event.ApplicationCommandCreate w.userID "" w.SlashCommandName
          "Get public IP of this bot's server",
        Event.slog .info "command registered" [("commandid", .str id)],
        Event.Notify] = [] := by
    simp [deletes]
  unfold main
  simp only [htoken, if_false, hnew, hopen, hcreated, hsig]
  rcases hd : w.deleteErr with _ | e
  · refine ⟨_, [Event.slog .info "signal to stop received" [],
      Event.slog .info "deleting command" [],
      Event.ApplicationCommandDelete w.userID "" id,
      Event.slog .info "exiting" [], Event.Close], ?_, hpre, ?_, ?_⟩
    · simp
    · simp [deletes]
    · intro _
      refine ⟨⟨[Event.slog .info "signal to stop received" [],
        Event.slog .info "deleting command" []], by simp⟩, ?_, rfl⟩
      simp [closes]
  · refine ⟨_, [Event.slog .info "signal to stop received" [],
      Event.slog .info "deleting command" [],
      Event.ApplicationCommandDelete w.userID "" id,
      Event.slog .error "error while deleting command" [("error", .err e)],
      Event.Close], ?_, hpre, ?_, ?_⟩
    · simp
    · simp [deletes]
    · intro h
      cases h

/-- Witness of C8, the scenario of the spec: SIGTERM after a successful
registration with identifier `1001`. -/
theorem main_signal_deregisters_once_witness :
    ∃ before after, (main worldGraceful).trace = before ++ Event.received .SIGTERM :: after
      ∧ deletes before = []
      ∧ deletes after = [Event.ApplicationCommandDelete "42" "" "1001"]
      ∧ (worldGraceful.deleteErr = none →
          (∃ mid, after = mid ++ [Event.ApplicationCommandDelete "42" "" "1001",
              Event.slog .info "exiting" [], Event.Close])
          ∧ closes (main worldGraceful).trace = 1
          ∧ (main worldGraceful).exit = some 0) :=
  main_signal_deregisters_once worldGraceful "1001" .SIGTERM (by decide) rfl rfl rfl rfl

/-- C10: the exit code of main is non-zero (it is 1) when the credential is
empty, when opening the connection fails, when registration fails and when
deregistration fails; when registration fails the process ends without
subscribing to or receiving a signal and without any deregistration call,
whether or not a signal would arrive; and the exit code is 0 on a graceful
shutdown where every step succeeds. -/
theorem main_exit_codes (w : World) :
    (w.BotToken = "" → (main w).exit = some 1)
      ∧ (∀ e, w.BotToken ≠ "" → w.newErr = none → w.openErr = some e →
          (main w).exit = some 1)
      ∧ (∀ e, w.BotToken ≠ "" → w.newErr = none → w.openErr = none →
          w.created = .error e →
          (main w).exit = some 1 ∧ deletes (main w).trace = []
            ∧ Event.Notify ∉ (main w).trace
            ∧ ∀ sig, Event.received sig ∉ (main w).trace)
      ∧ (∀ id sig e, w.BotToken ≠ "" → w.newErr = none → w.openErr = none →
          w.created = .ok id → w.signal = some sig → w.deleteErr = some e →
          (main w).exit = some 1)
      ∧ (∀ id sig, w.BotToken ≠ "" → w.newErr = none → w.openErr = none →
          w.created = .ok id → w.signal = some sig → w.deleteErr = none →
          (main w).exit = some 0) := by
  refine ⟨?_, ?_, ?_, ?_, ?_⟩
  · intro h
    simp [main, h]
  · intro e ht hn ho
    simp [main, ht, hn, ho]
  · intro e ht hn ho hc
    simp [main, ht, hn, ho, hc, deletes]
  · intro id sig e ht hn ho hc hs hd
    simp [main, ht, hn, ho, hc, hs, hd]
  · intro id sig ht hn ho hc hs hd
    simp [main, ht, hn, ho, hc, hs, hd]

/-- Witness of C10: the graceful run ends with exit code 0. -/
theorem main_exit_codes_witness : (main worldGraceful).exit = some 0 :=
  (main_exit_codes worldGraceful).2.2.2.2 "1001" .SIGTERM (by decide) rfl rfl rfl rfl rfl

end Ipisto
